import Mathlib

/-!
Verification of the `jsonvectorizer` schema-tree core: a shallow embedding of
`jsonvectorizer/schema.pyx`, `jsonvectorizer/jsonvectorizer.pyx` (the
`JsonVectorizer` class), `jsonvectorizer/lil.pyx` and `jsonvectorizer/jsontype.pyx`,
together with theorems settling the frozen claims about the specification.

Modelling conventions:
* Python `int` is `Int`/`Nat`; counts are `Nat` (they are only ever incremented
  from 0); column indices are `Int` (Cython `int`); overflow of the C `int` is
  irrelevant at the scale of every statement below and is not modelled.
* Python `float` payloads and the fractional `min_f` argument are modelled as
  `Rat`; every concrete fraction used below (`1/2`) and every concrete product
  is exactly representable in IEEE double, so the rational model agrees with
  the float computation on all inputs appearing in the theorems.
* Python `dict` is an insertion-ordered association list with unique keys,
  `set` is a list with set-semantics helper functions, `tuple` is a `List`.
* Fallible operations (out-of-range list indexing, `':'.join` over a tuple
  containing an `int`, dictionary `KeyError`, membership test on `None`)
  return `Option`/are sequenced in the `Option` monad; `none` models a raised
  Python exception.
-/

/-! ### JSON types (`jsontype.pyx`)

`cdef enum JsonType: OBJECT, ARRAY, JNULL, BOOLEAN, INTEGER, NUMBER, STRING, TIMESTAMP`
The Cython enum values are consecutive integers starting at 0; `sorted(...)`
over a set of `JsonType` sorts by these integer values. -/

inductive JsonType where
  | OBJECT | ARRAY | JNULL | BOOLEAN | INTEGER | NUMBER | STRING | TIMESTAMP
deriving DecidableEq, Repr

namespace JsonType

/-- The underlying C enum value. -/
def toNat : JsonType → Nat
  | OBJECT => 0
  | ARRAY => 1
  | JNULL => 2
  | BOOLEAN => 3
  | INTEGER => 4
  | NUMBER => 5
  | STRING => 6
  | TIMESTAMP => 7

/-- All enum members in ascending enum order. -/
def all : List JsonType :=
  [OBJECT, ARRAY, JNULL, BOOLEAN, INTEGER, NUMBER, STRING, TIMESTAMP]

end JsonType

open JsonType in
/-- `type2str` from `jsontype.pyx`. -/
def type2str : JsonType → String
  | OBJECT => "object"
  | ARRAY => "array"
  | JNULL => "null"
  | BOOLEAN => "boolean"
  | INTEGER => "integer"
  | NUMBER => "number"
  | TIMESTAMP => "timestamp"
  | STRING => "string"

open JsonType in
/-- `str2type` from `jsontype.pyx`; `none` models the raised `ValueError`.
The source lower-cases its argument first; that case-folding only widens the
set of accepted spellings and is omitted here: every name reaching
`str2type` in this development is a `type2str` output, which is already
lower-case. -/
def str2type (s : String) : Option JsonType :=
  if s = "object" then some OBJECT
  else if s = "array" then some ARRAY
  else if s = "null" then some JNULL
  else if s = "boolean" then some BOOLEAN
  else if s = "integer" then some INTEGER
  else if s = "number" then some NUMBER
  else if s = "timestamp" then some TIMESTAMP
  else if s = "string" then some STRING
  else none

/-! ### JSON documents

A Python value of one of the kinds the classifier recognises.  `bool` and
`int` are distinct constructors because `typeof` distinguishes them with exact
`type(doc) is bool` / `type(doc) is int` checks (in that order).  The `float`
payload is modelled as `Rat` (see the header). Objects are insertion-ordered
key/value lists, mirroring Python dictionaries. -/

inductive Json where
  | obj : List (String × Json) → Json
  | arr : List Json → Json
  | null : Json
  | bool : Bool → Json
  | int : Int → Json
  | float : Rat → Json
  | str : String → Json
deriving Repr

/-- Strict check for the `"%Y-%m-%dT%H:%M:%SZ"` pattern used by `typeof`
(`datetime.datetime.strptime`): four digits, dash, two digits, dash, two
digits, `T`, `HH:MM:SS`, `Z`.  The minor leniencies of `strptime`
(e.g. non-zero-padded fields) are irrelevant to every claim: no theorem below
depends on which strings fall in the timestamp class. -/
def isTimestampStr (s : String) : Bool :=
  let cs := s.toList
  cs.length = 20 &&
  (List.range 20).all fun i =>
    let c := cs.getD i ' '
    match i with
    | 4 | 7 => c = '-'
    | 10 => c = 'T'
    | 13 | 16 => c = ':'
    | 19 => c = 'Z'
    | _ => c.isDigit

open JsonType in
/-- `typeof` from `jsontype.pyx`.  The branch order of the source is kept:
`None`, `dict`, `list`, `bool`, `int`, `float`, `str` (the final
`raise TypeError` branch is unreachable here because `Json` only contains
values of recognised kinds). -/
def typeof : Json → JsonType
  | .null => JNULL
  | .obj _ => OBJECT
  | .arr _ => ARRAY
  | .bool _ => BOOLEAN
  | .int _ => NUMBER
  | .float _ => NUMBER
  | .str s => if isTimestampStr s then TIMESTAMP else STRING

/-! ### Path segments

`Schema.path` is a Python tuple whose segments are strings, except that
`add_item` in tuple mode appends the *integer* `len(self.items)`.
`_fit_self` joins the path with `':'.join(map(str, self.path))` (total),
whereas `_prune_self`/`_prune` use `':'.join(self.path)`, which raises
`TypeError` on an integer segment; `joinPath` returns `none` in that case. -/

inductive Seg where
  | str : String → Seg
  | idx : Nat → Seg
deriving DecidableEq, Repr

/-- `':'.join(path)` — raises (`none`) when a segment is not a string. -/
def joinPath (p : List Seg) : Option String :=
  (p.mapM fun s => match s with | Seg.str v => some v | Seg.idx _ => none).map
    (String.intercalate ":")

/-- `':'.join(map(str, path))` — total; `str` of an `int` is its decimal form. -/
def joinPathStr (p : List Seg) : String :=
  String.intercalate ":" (p.map fun s => match s with | Seg.str v => v | Seg.idx n => toString n)

/-! ### Sparse LIL matrix primitive (`lil.pyx`)

A binary list-of-lists matrix is a list of rows; each row is the list of set
column indices together with a parallel list of (always-`true`) data values. -/

/-- The binary-search loop of `bisect_left` (`lil.pyx`): `while lo < hi` with
`mid = lo + (hi - lo) // 2`.  `a[mid]` is modelled by `getD` (in range at all
call sites: `mid < hi ≤ len a`). -/
def bisectLoop (a : List Int) (x : Int) (lo hi : Nat) : Nat :=
  if lo < hi then
    -- mid = lo + (hi - lo) // 2
    if a.getD (lo + (hi - lo) / 2) 0 < x then bisectLoop a x (lo + (hi - lo) / 2 + 1) hi
    else bisectLoop a x lo (lo + (hi - lo) / 2)
  else lo
termination_by hi - lo
decreasing_by all_goals omega

/-- `bisect_left` from `lil.pyx`, including its append fast path: when the
list is non-empty and `x` exceeds the last element, return `len(a)` without
searching. -/
def bisect_left (a : List Int) (x : Int) : Nat :=
  let hi := a.length
  if 0 < hi then
    if x > a.getD (hi - 1) 0 then hi else bisectLoop a x 0 hi
  else bisectLoop a x 0 hi

/-- The per-row core of `lil_insert` (`lil.pyx`): locate the position with
`bisect_left`, then append / insert / overwrite exactly as the source's three
branches do. -/
def lilInsertRow (row : List Int) (data : List Bool) (j : Int) :
    List Int × List Bool :=
  let pos := bisect_left row j
  if pos = row.length then (row ++ [j], data ++ [true])
  else if row.getD pos 0 ≠ j then (row.insertIdx pos j, data.insertIdx pos true)
  else (row, data.set pos true)

/-- `lil_insert(rows, datas, i, j)` from `lil.pyx`: mutate row `i`.  The row
index is in range at every call site in this development (`getD`/`set` model
`rows[i]` access and in-place update). -/
def lil_insert (rows : List (List Int)) (datas : List (List Bool)) (i : Nat) (j : Int) :
    List (List Int) × List (List Bool) :=
  let rd := lilInsertRow (rows.getD i []) (datas.getD i []) j
  (rows.set i rd.1, datas.set i rd.2)

/-- `lil_set_col` from `lil.pyx`: insert a fixed column for every row index. -/
def lil_set_col (rows : List (List Int)) (datas : List (List Bool))
    (rs : List Nat) (col : Int) : List (List Int) × List (List Bool) :=
  rs.foldl (fun st i => lil_insert st.1 st.2 i col) (rows, datas)

/-- `lil_set` from `lil.pyx`: insert parallel (row, column) pairs. -/
def lil_set (rows : List (List Int)) (datas : List (List Bool))
    (rs : List Nat) (cols : List Int) : List (List Int) × List (List Bool) :=
  (rs.zip cols).foldl (fun st p => lil_insert st.1 st.2 p.1 p.2) (rows, datas)

/-! ### Claim C10 -/

/-- Claim C10: the live classifier `typeof` never returns the `integer` type;
every non-bool int and every float classifies as `number`, and every bool as
`boolean` (the bool branch precedes the int branch). -/
theorem typeof_never_integer :
    (∀ v : Json, typeof v ≠ JsonType.INTEGER)
  ∧ (∀ n : Int, typeof (Json.int n) = JsonType.NUMBER)
  ∧ (∀ q : Rat, typeof (Json.float q) = JsonType.NUMBER)
  ∧ (∀ b : Bool, typeof (Json.bool b) = JsonType.BOOLEAN) := by
  refine ⟨fun v => ?_, fun _ => rfl, fun _ => rfl, fun _ => rfl⟩
  cases v <;> simp only [typeof] <;> try simp
  split <;> simp

section BisectProofs

theorem bisectLoop_spec (a : List Int) (x : Int) :
    ∀ lo hi, lo ≤ hi → hi ≤ a.length →
    (∀ k, k < lo → a.getD k 0 < x) →
    (∀ k, hi ≤ k → k < a.length → x ≤ a.getD k 0) →
    (∀ i j, i < j → j < a.length → a.getD i 0 < a.getD j 0) →
    lo ≤ bisectLoop a x lo hi ∧ bisectLoop a x lo hi ≤ hi ∧
    (∀ k, k < bisectLoop a x lo hi → a.getD k 0 < x) ∧
    (∀ k, bisectLoop a x lo hi ≤ k → k < a.length → x ≤ a.getD k 0) := by
  intro lo hi
  induction lo, hi using bisectLoop.induct a x with
  | case1 lo hi hlt hmid ih =>
    intro hlohi hhilen hlo hhi hsorted
    rw [bisectLoop, if_pos hlt, if_pos hmid]
    have hmidlt : lo + (hi - lo) / 2 < hi := by omega
    obtain ⟨h1, h2, h3, h4⟩ := ih (by omega) hhilen
      (fun k hk => by
        rcases Nat.lt_or_ge k (lo + (hi - lo) / 2) with h | h
        · exact lt_trans (hsorted k _ h (by omega)) hmid
        · have : k = lo + (hi - lo) / 2 := by omega
          exact this ▸ hmid)
      hhi hsorted
    exact ⟨by omega, h2, h3, h4⟩
  | case2 lo hi hlt hmid ih =>
    intro hlohi hhilen hlo hhi hsorted
    rw [bisectLoop, if_pos hlt, if_neg hmid]
    have hmidlt : lo + (hi - lo) / 2 < hi := by omega
    obtain ⟨h1, h2, h3, h4⟩ := ih (by omega) (by omega) hlo
      (fun k hk hklen => by
        rcases Nat.lt_or_ge k (lo + (hi - lo) / 2 + 1) with h | h
        · have : k = lo + (hi - lo) / 2 := by omega
          subst this
          exact le_of_not_lt hmid
        · exact le_trans (le_of_not_lt hmid) (le_of_lt (hsorted _ k (by omega) hklen)))
      hsorted
    exact ⟨h1, by omega, h3, h4⟩
  | case3 lo hi hnlt =>
    intro hlohi hhilen hlo hhi hsorted
    rw [bisectLoop, if_neg hnlt]
    exact ⟨le_refl _, by omega, hlo, fun k hk hklen => hhi k (by omega) hklen⟩

end BisectProofs

section C9Proofs

/-- Index form of strict sortedness. -/
theorem sorted_getD {a : List Int} (h : a.Sorted (· < ·)) :
    ∀ i j, i < j → j < a.length → a.getD i 0 < a.getD j 0 := by
  intro i j hij hj
  rw [List.getD_eq_getElem a 0 (lt_trans hij hj), List.getD_eq_getElem a 0 hj]
  exact List.pairwise_iff_getElem.mp h i j (lt_trans hij hj) hj hij

/-- `bisect_left` on a strictly sorted list returns the first position whose
element is at least `x`. -/
theorem bisect_left_spec (a : List Int) (x : Int) (hs : a.Sorted (· < ·)) :
    bisect_left a x ≤ a.length ∧
    (∀ k, k < bisect_left a x → a.getD k 0 < x) ∧
    (∀ k, bisect_left a x ≤ k → k < a.length → x ≤ a.getD k 0) := by
  have hsg := sorted_getD hs
  unfold bisect_left
  by_cases h0 : 0 < a.length
  · simp only [if_pos h0]
    by_cases hlast : x > a.getD (a.length - 1) 0
    · simp only [if_pos hlast]
      refine ⟨le_refl _, fun k hk => ?_, fun k hk hk2 => by omega⟩
      rcases Nat.lt_or_ge k (a.length - 1) with h | h
      · exact lt_trans (hsg k (a.length - 1) h (by omega)) hlast
      · have : k = a.length - 1 := by omega
        exact this ▸ hlast
    · simp only [if_neg hlast]
      obtain ⟨h1, h2, h3, h4⟩ := bisectLoop_spec a x 0 a.length (by omega) (le_refl _)
        (by omega) (by omega) hsg
      exact ⟨h2, h3, h4⟩
  · simp only [if_neg h0]
    obtain ⟨h1, h2, h3, h4⟩ := bisectLoop_spec a x 0 a.length (by omega) (le_refl _)
      (by omega) (by omega) hsg
    exact ⟨h2, h3, h4⟩

/-- Inserting a fresh element at a position bounded below by smaller elements
and above by larger ones keeps the list strictly sorted. -/
theorem sorted_insertIdx (x : Int) :
    ∀ (l : List Int) (pos : Nat), l.Sorted (· < ·) → pos ≤ l.length →
    (∀ k, k < pos → l.getD k 0 < x) →
    (∀ k, pos ≤ k → k < l.length → x < l.getD k 0) →
    (l.insertIdx pos x).Sorted (· < ·)
  | l, 0, hs, hle, _, hup => by
    rw [List.insertIdx_zero]
    refine List.sorted_cons.mpr ⟨fun y hy => ?_, hs⟩
    obtain ⟨k, hk, rfl⟩ := List.mem_iff_getElem.mp hy
    have := hup k (Nat.zero_le _) hk
    rwa [List.getD_eq_getElem l 0 hk] at this
  | [], pos + 1, _, hle, _, _ => by simp at hle
  | a :: t, pos + 1, hs, hle, hlow, hup => by
    rw [List.insertIdx_succ_cons]
    obtain ⟨ha, hst⟩ := List.sorted_cons.mp hs
    refine List.sorted_cons.mpr ⟨fun y hy => ?_, ?_⟩
    · rcases (List.mem_insertIdx (by simpa using Nat.le_of_succ_le_succ hle)).mp hy with rfl | hyt
      · have := hlow 0 (Nat.succ_pos _)
        simpa using this
      · exact ha y hyt
    · refine sorted_insertIdx x t pos hst (by simpa using Nat.le_of_succ_le_succ hle)
        (fun k hk => ?_) (fun k hk hk2 => ?_)
      · have := hlow (k + 1) (by omega)
        simpa using this
      · have := hup (k + 1) (by omega) (by simpa using hk2)
        simpa using this

end C9Proofs

section C9Main

/-- Writing back the element already at position `i` is the identity. -/
theorem set_getD_self (l : List (List Int)) (i : Nat) (h : i < l.length) :
    l.set i (l.getD i []) = l := by
  rw [List.getD_eq_getElem l [] h]
  apply List.ext_getElem
  · simp
  · intro n h1 h2
    simp [List.getElem_set]
    intro hni
    subst hni
    rfl

/-- Reading back position `i` after setting it. -/
theorem getD_set_self (l : List (List Int)) (i : Nat) (v : List Int) (h : i < l.length) :
    (l.set i v).getD i [] = v := by
  rw [List.getD_eq_getElem _ [] (by simpa using h)]
  simp

/-- Claim C9: LIL insertion is idempotent and order-preserving. -/
theorem lil_insert_sorted_props (rows : List (List Int)) (datas : List (List Bool))
    (i : Nat) (j : Int) (hilen : i < rows.length)
    (hs : (rows.getD i []).Sorted (· < ·)) :
    (j ∈ rows.getD i [] → (lil_insert rows datas i j).1 = rows)
  ∧ (j ∉ rows.getD i [] →
       ((lil_insert rows datas i j).1.getD i []).Sorted (· < ·)
     ∧ ((lil_insert rows datas i j).1.getD i []).Perm (j :: rows.getD i []))
  ∧ (∀ v, (rows.getD i []).getLast? = some v → v < j →
       (lil_insert rows datas i j).1 = rows.set i (rows.getD i [] ++ [j])) := by
  set row := rows.getD i [] with hrow
  obtain ⟨hb1, hb2, hb3⟩ := bisect_left_spec row j hs
  refine ⟨?_, ?_, ?_⟩
  · intro hmem
    obtain ⟨k, hk, hkj⟩ := List.mem_iff_getElem.mp hmem
    have hknlt : ¬ k < bisect_left row j := fun h => by
      have := hb2 k h
      rw [List.getD_eq_getElem row 0 hk, hkj] at this
      exact lt_irrefl j this
    have hposk : bisect_left row j ≤ k := Nat.le_of_not_lt hknlt
    have hposlen : bisect_left row j < row.length := Nat.lt_of_le_of_lt hposk hk
    have hgetpos : row.getD (bisect_left row j) 0 = j := by
      have hge : j ≤ row.getD (bisect_left row j) 0 := hb3 _ (le_refl _) hposlen
      rcases Nat.lt_or_ge (bisect_left row j) k with h | h
      · have := sorted_getD hs _ k h hk
        rw [List.getD_eq_getElem row 0 hk, hkj] at this
        omega
      · have : bisect_left row j = k := by omega
        rw [this, List.getD_eq_getElem row 0 hk, hkj]
    unfold lil_insert lilInsertRow
    rw [← hrow, if_neg (by omega), if_neg (not_not_intro hgetpos)]
    show rows.set i row = rows
    exact set_getD_self rows i hilen
  · intro hmem
    have hres : (lil_insert rows datas i j).1.getD i [] = row.insertIdx (bisect_left row j) j := by
      unfold lil_insert lilInsertRow
      rw [← hrow]
      by_cases hplen : bisect_left row j = row.length
      · rw [if_pos hplen]
        simp only
        rw [getD_set_self _ _ _ hilen, hplen, List.insertIdx_length_self]
      · have hposlen : bisect_left row j < row.length := by omega
        have hne : row.getD (bisect_left row j) 0 ≠ j := by
          intro h
          apply hmem
          rw [← h, List.getD_eq_getElem row 0 hposlen]
          exact List.getElem_mem _
        rw [if_neg hplen, if_pos hne]
        simp only
        rw [getD_set_self _ _ _ hilen]
    rw [hres]
    constructor
    · refine sorted_insertIdx j row _ hs hb1 hb2 (fun k hk hk2 => ?_)
      have hle := hb3 k hk hk2
      have hne : row.getD k 0 ≠ j := by
        intro h
        apply hmem
        rw [← h, List.getD_eq_getElem row 0 hk2]
        exact List.getElem_mem _
      omega
    · exact List.perm_insertIdx j row hb1
  · intro v hv hvj
    have hnil : row ≠ [] := by
      intro h
      rw [h] at hv
      simp at hv
    have hlen : 0 < row.length := List.length_pos.mpr hnil
    have hlast : row.getD (row.length - 1) 0 = v := by
      rw [List.getLast?_eq_getElem? row] at hv
      rw [List.getD_eq_getElem?_getD, hv]
      rfl
    have hfast : bisect_left row j = row.length := by
      unfold bisect_left
      rw [if_pos hlen, if_pos (by rw [hlast]; exact hvj)]
    unfold lil_insert lilInsertRow
    rw [← hrow, if_pos hfast]

/-- Witness for C9 at a concrete sorted row. -/
theorem lil_insert_sorted_props_witness :
    ((lil_insert [[2, 5, 7]] [[true, true, true]] 0 5).1 = [[2, 5, 7]])
  ∧ (((lil_insert [[2, 5, 7]] [[true, true, true]] 0 4).1.getD 0 []).Sorted (· < ·)
     ∧ ((lil_insert [[2, 5, 7]] [[true, true, true]] 0 4).1.getD 0 []).Perm (4 :: [2, 5, 7]))
  ∧ ((lil_insert [[2, 5, 7]] [[true, true, true]] 0 9).1
       = [[2, 5, 7]].set 0 ([2, 5, 7] ++ [9])) :=
  ⟨(lil_insert_sorted_props [[2, 5, 7]] [[true, true, true]] 0 5 (by decide)
      (by decide)).1 (by decide),
   (lil_insert_sorted_props [[2, 5, 7]] [[true, true, true]] 0 4 (by decide)
      (by decide)).2.1 (by decide),
   (lil_insert_sorted_props [[2, 5, 7]] [[true, true, true]] 0 9 (by decide)
      (by decide)).2.2 7 (by decide) (by decide)⟩

/-! ### Association-list dictionaries and set-valued lists

Python `dict` is modelled as an insertion-ordered association list with unique
keys: assignment replaces in place or appends, deletion removes, lookup takes
the first match. Python `set` is a list considered up to membership. -/

/-- First-match lookup (`d[k]` / `k in d`). -/
def lookupT {κ β : Type} [DecidableEq κ] (l : List (κ × β)) (k : κ) : Option β :=
  match l with
  | [] => none
  | (k', b) :: rest => if k' = k then some b else lookupT rest k

/-- Dictionary assignment `d[k] = b`: replace in place, else append. -/
def setT {κ β : Type} [DecidableEq κ] (l : List (κ × β)) (k : κ) (b : β) : List (κ × β) :=
  match l with
  | [] => [(k, b)]
  | (k', b') :: rest => if k' = k then (k, b) :: rest else (k', b') :: setT rest k b

/-- Dictionary deletion `del d[k]` (removes every binding of `k`; keys are
unique at all call sites). -/
def eraseT {κ β : Type} [DecidableEq κ] (l : List (κ × β)) (k : κ) : List (κ × β) :=
  l.filter (fun p => p.1 ≠ k)

/-- `set.add` on a list with set semantics. -/
def addType (l : List JsonType) (t : JsonType) : List JsonType :=
  if t ∈ l then l else l ++ [t]

/-- `sorted(s)` for a set of JSON types: ascending C enum order.  Because the
enumeration is small this is the filter of the full ascending list. -/
def sortTypes (l : List JsonType) : List JsonType :=
  JsonType.all.filter (fun t => t ∈ l)

/-- `sorted(d)` for a string-keyed dictionary: its keys in lexicographic
order (Lean's `String` order is by code point, as in Python 3). -/
def sortedKeys {β : Type} (l : List (String × β)) : List String :=
  (l.map Prod.fst).insertionSort (· ≤ ·)

/-- Set intersection `r &= ks` (keeps `r`'s order, as Python keeps set
semantics; only membership matters downstream). -/
def interList (r ks : List String) : List String :=
  r.filter (fun k => k ∈ ks)

/-- `sum(counts.values())`. -/
def sumCounts (counts : List (JsonType × Nat)) : Nat :=
  (counts.map Prod.snd).sum

/-! ### The schema tree

One node type models both `Schema` (`schema.pyx`) and its subclass
`JsonVectorizer` (`jsonvectorizer.pyx`); the latter adds `counts`, `values`,
`vectorizers`, `pos`, `feature_names` and `n_features`.  A fitted per-type
extractor is an external collaborator: only its reported feature names and
its sparse transform output are visible to this core. -/

/-- An opaque fitted extractor (external collaborator): `feature_names_` and
`transform(docs).nonzero()` as a list of (document-row, local-column) pairs. -/
structure Extractor where
  featureNames : List String
  transformF : List Json → List (Nat × Nat)

/-- A schema-tree node (`Schema` + `JsonVectorizer` state). -/
inductive Schema where
  | mk (path : List Seg) (tuple_items : Bool) (type : List JsonType)
       (required : Option (List String))
       (properties : List (String × Schema)) (items : List Schema)
       (counts : List (JsonType × Nat)) (values : List (JsonType × List Json))
       (vectorizers : List (JsonType × Extractor))
       (pos : Int) (feature_names : List String) (n_features : Int)

namespace Schema

def path : Schema → List Seg | mk p _ _ _ _ _ _ _ _ _ _ _ => p
def tuple_items : Schema → Bool | mk _ tu _ _ _ _ _ _ _ _ _ _ => tu
def type : Schema → List JsonType | mk _ _ ty _ _ _ _ _ _ _ _ _ => ty
def required : Schema → Option (List String) | mk _ _ _ r _ _ _ _ _ _ _ _ => r
def properties : Schema → List (String × Schema) | mk _ _ _ _ pr _ _ _ _ _ _ _ => pr
def items : Schema → List Schema | mk _ _ _ _ _ it _ _ _ _ _ _ => it
def counts : Schema → List (JsonType × Nat) | mk _ _ _ _ _ _ c _ _ _ _ _ => c
def values : Schema → List (JsonType × List Json) | mk _ _ _ _ _ _ _ v _ _ _ _ => v
def vectorizers : Schema → List (JsonType × Extractor) | mk _ _ _ _ _ _ _ _ ve _ _ _ => ve
def pos : Schema → Int | mk _ _ _ _ _ _ _ _ _ po _ _ => po
def feature_names : Schema → List String | mk _ _ _ _ _ _ _ _ _ _ fn _ => fn
def n_features : Schema → Int | mk _ _ _ _ _ _ _ _ _ _ _ nf => nf

end Schema

/-- A fresh node: `__cinit__` (empty containers, `required = None`, C ints
zero-initialised) followed by `__init__(schema={'tuple_items': tup}, path, tup)`,
whose `from_dict` on that dictionary only sets `tuple_items`. -/
def emptySchema (p : List Seg) (tup : Bool) : Schema :=
  Schema.mk p tup [] none [] [] [] [] [] 0 [] 0

/-- `add_property(name, {})` as called from `_extend_self`: create an empty
child at `path + (name,)` inheriting `tuple_items`. -/
def Schema.addPropertyEmpty : Schema → String → Schema
  | Schema.mk p tu ty r pr it c v ve po fn nf, name =>
    Schema.mk p tu ty r (setT pr name (emptySchema (p ++ [Seg.str name]) tu)) it c v ve po fn nf

/-- `add_item({})` as called from `_extend_self`: append an empty child at
`path + (len(items),)` in tuple mode, else `path + ('any',)`. -/
def Schema.addItemEmpty : Schema → Schema
  | Schema.mk p tu ty r pr it c v ve po fn nf =>
    Schema.mk p tu ty r pr
      (it ++ [emptySchema (p ++ [if tu then Seg.idx it.length else Seg.str "any"]) tu])
      c v ve po fn nf

/-- Replace the child bound to an existing property name (in-place mutation of
`self.properties[name]`). -/
def Schema.setProp : Schema → String → Schema → Schema
  | Schema.mk p tu ty r pr it c v ve po fn nf, name, child =>
    Schema.mk p tu ty r (setT pr name child) it c v ve po fn nf

/-- Replace item `i` (in-place mutation of `self.items[i]`). -/
def Schema.setItem : Schema → Nat → Schema → Schema
  | Schema.mk p tu ty r pr it c v ve po fn nf, i, child =>
    Schema.mk p tu ty r pr (it.set i child) c v ve po fn nf

/-! ### Learning (`extend`) -/

@[simp] theorem Schema.items_addItemEmpty (s : Schema) :
    s.addItemEmpty.items = s.items ++
      [emptySchema (s.path ++ [if s.tuple_items then Seg.idx s.items.length else Seg.str "any"])
        s.tuple_items] := by
  cases s; rfl

/-- `while len(self.items) < len(doc): self.add_item({})` (tuple mode). -/
def Schema.growItems (s : Schema) (n : Nat) : Schema :=
  if s.items.length < n then s.addItemEmpty.growItems n else s
termination_by n - s.items.length
decreasing_by simp only [Schema.items_addItemEmpty, List.length_append, List.length_singleton]; omega

/-- Field update helpers (in-place attribute assignment). -/
def Schema.setTypeF : Schema → List JsonType → Schema
  | Schema.mk p tu _ r pr it c v ve po fn nf, ty => Schema.mk p tu ty r pr it c v ve po fn nf

def Schema.setRequiredF : Schema → Option (List String) → Schema
  | Schema.mk p tu ty _ pr it c v ve po fn nf, r => Schema.mk p tu ty r pr it c v ve po fn nf

def Schema.setCountsF : Schema → List (JsonType × Nat) → Schema
  | Schema.mk p tu ty r pr it _ v ve po fn nf, c => Schema.mk p tu ty r pr it c v ve po fn nf

def Schema.setValuesF : Schema → List (JsonType × List Json) → Schema
  | Schema.mk p tu ty r pr it c _ ve po fn nf, v => Schema.mk p tu ty r pr it c v ve po fn nf

/-- `Schema._extend_self` followed by the `JsonVectorizer._extend_self`
override additions (count increment and sample-value collection), exactly as
the subclass method chains to the base method. -/
def Schema.extendSelf (s : Schema) (doc : Json) (t : JsonType) : Schema :=
  let s1 := s.setTypeF (addType s.type t)
  let s2 :=
    if t = JsonType.OBJECT then
      match doc with
      | Json.obj kvs =>
        let s' := kvs.foldl (fun acc kv =>
            if (lookupT acc.properties kv.1).isSome then acc
            else acc.addPropertyEmpty kv.1) s1
        s'.setRequiredF (some (match s'.required with
          | none => kvs.map Prod.fst
          | some r => interList r (kvs.map Prod.fst)))
      | _ => s1  -- unreachable: `t` is always `typeof doc`
    else if t = JsonType.ARRAY then
      match doc with
      | Json.arr elts =>
        if s1.tuple_items then s1.growItems elts.length
        else if s1.items.isEmpty then s1.addItemEmpty else s1
      | _ => s1  -- unreachable: `t` is always `typeof doc`
    else s1
  let s3 := s2.setCountsF (setT s2.counts t ((lookupT s2.counts t).getD 0 + 1))
  if t ≠ JsonType.OBJECT ∧ t ≠ JsonType.ARRAY ∧ t ≠ JsonType.JNULL then
    s3.setValuesF (setT s3.values t ((lookupT s3.values t).getD [] ++ [doc]))
  else s3

mutual
/-- `Schema._extend`: classify, extend this node, then recurse into children
(`JsonVectorizer` inherits this method; its overridden `_extend_self` is the
one called). -/
def extendJ (s : Schema) (doc : Json) : Schema :=
  let t := typeof doc
  let s1 := s.extendSelf doc t
  match doc with
  | Json.obj kvs => extendObj s1 kvs
  | Json.arr elts =>
    if s1.tuple_items then extendArrTuple s1 elts 0 else extendArrShared s1 elts
  | _ => s1
termination_by sizeOf doc

/-- `for key, value in doc.items(): self.get_property(key)._extend(value)`.
The key is always present (just added by `_extend_self`), so the lookup
default is never used. -/
def extendObj (s : Schema) (kvs : List (String × Json)) : Schema :=
  match kvs with
  | [] => s
  | (k, v) :: rest =>
    extendObj (s.setProp k (extendJ ((lookupT s.properties k).getD (emptySchema [] false)) v)) rest
termination_by sizeOf kvs

/-- Tuple mode: `for i, item in enumerate(doc): self.get_item(i)._extend(item)`.
`_extend_self` grew `items` to `len(doc)`, so index `i` is in range. -/
def extendArrTuple (s : Schema) (elts : List Json) (i : Nat) : Schema :=
  match elts with
  | [] => s
  | e :: rest =>
    extendArrTuple (s.setItem i (extendJ (s.items.getD i (emptySchema [] false)) e)) rest (i + 1)
termination_by sizeOf elts

/-- Shared mode: `for item in doc: self.get_item(0)._extend(item)`. -/
def extendArrShared (s : Schema) (elts : List Json) : Schema :=
  match elts with
  | [] => s
  | e :: rest =>
    extendArrShared (s.setItem 0 (extendJ (s.items.getD 0 (emptySchema [] false)) e)) rest
termination_by sizeOf elts
end

/-- `extend(docs)`: `for doc in docs: self._extend(doc)`. -/
def extendAll (s : Schema) (docs : List Json) : Schema :=
  docs.foldl extendJ s

/-! ### Projection lemmas -/

namespace Schema

@[simp] theorem path_mk (p tu ty r pr it c v ve po fn nf) :
    (Schema.mk p tu ty r pr it c v ve po fn nf).path = p := rfl
@[simp] theorem tuple_items_mk (p tu ty r pr it c v ve po fn nf) :
    (Schema.mk p tu ty r pr it c v ve po fn nf).tuple_items = tu := rfl
@[simp] theorem type_mk (p tu ty r pr it c v ve po fn nf) :
    (Schema.mk p tu ty r pr it c v ve po fn nf).type = ty := rfl
@[simp] theorem required_mk (p tu ty r pr it c v ve po fn nf) :
    (Schema.mk p tu ty r pr it c v ve po fn nf).required = r := rfl
@[simp] theorem properties_mk (p tu ty r pr it c v ve po fn nf) :
    (Schema.mk p tu ty r pr it c v ve po fn nf).properties = pr := rfl
@[simp] theorem items_mk (p tu ty r pr it c v ve po fn nf) :
    (Schema.mk p tu ty r pr it c v ve po fn nf).items = it := rfl
@[simp] theorem counts_mk (p tu ty r pr it c v ve po fn nf) :
    (Schema.mk p tu ty r pr it c v ve po fn nf).counts = c := rfl
@[simp] theorem values_mk (p tu ty r pr it c v ve po fn nf) :
    (Schema.mk p tu ty r pr it c v ve po fn nf).values = v := rfl
@[simp] theorem vectorizers_mk (p tu ty r pr it c v ve po fn nf) :
    (Schema.mk p tu ty r pr it c v ve po fn nf).vectorizers = ve := rfl
@[simp] theorem pos_mk (p tu ty r pr it c v ve po fn nf) :
    (Schema.mk p tu ty r pr it c v ve po fn nf).pos = po := rfl
@[simp] theorem feature_names_mk (p tu ty r pr it c v ve po fn nf) :
    (Schema.mk p tu ty r pr it c v ve po fn nf).feature_names = fn := rfl
@[simp] theorem n_features_mk (p tu ty r pr it c v ve po fn nf) :
    (Schema.mk p tu ty r pr it c v ve po fn nf).n_features = nf := rfl

@[simp] theorem setTypeF_mk (p tu ty r pr it c v ve po fn nf ty2) :
    (Schema.mk p tu ty r pr it c v ve po fn nf).setTypeF ty2 =
      Schema.mk p tu ty2 r pr it c v ve po fn nf := rfl
@[simp] theorem setRequiredF_mk (p tu ty r pr it c v ve po fn nf r2) :
    (Schema.mk p tu ty r pr it c v ve po fn nf).setRequiredF r2 =
      Schema.mk p tu ty r2 pr it c v ve po fn nf := rfl
@[simp] theorem setCountsF_mk (p tu ty r pr it c v ve po fn nf c2) :
    (Schema.mk p tu ty r pr it c v ve po fn nf).setCountsF c2 =
      Schema.mk p tu ty r pr it c2 v ve po fn nf := rfl
@[simp] theorem setValuesF_mk (p tu ty r pr it c v ve po fn nf v2) :
    (Schema.mk p tu ty r pr it c v ve po fn nf).setValuesF v2 =
      Schema.mk p tu ty r pr it c v2 ve po fn nf := rfl
@[simp] theorem setProp_mk (p tu ty r pr it c v ve po fn nf name child) :
    (Schema.mk p tu ty r pr it c v ve po fn nf).setProp name child =
      Schema.mk p tu ty r (setT pr name child) it c v ve po fn nf := rfl
@[simp] theorem setItem_mk (p tu ty r pr it c v ve po fn nf i child) :
    (Schema.mk p tu ty r pr it c v ve po fn nf).setItem i child =
      Schema.mk p tu ty r pr (it.set i child) c v ve po fn nf := rfl
@[simp] theorem addPropertyEmpty_mk (p tu ty r pr it c v ve po fn nf name) :
    (Schema.mk p tu ty r pr it c v ve po fn nf).addPropertyEmpty name =
      Schema.mk p tu ty r (setT pr name (emptySchema (p ++ [Seg.str name]) tu)) it
        c v ve po fn nf := rfl
@[simp] theorem addItemEmpty_mk (p tu ty r pr it c v ve po fn nf) :
    (Schema.mk p tu ty r pr it c v ve po fn nf).addItemEmpty =
      Schema.mk p tu ty r pr
        (it ++ [emptySchema (p ++ [if tu then Seg.idx it.length else Seg.str "any"]) tu])
        c v ve po fn nf := rfl

@[simp] theorem required_setProp (s : Schema) (k c) : (s.setProp k c).required = s.required := by
  cases s; rfl
@[simp] theorem required_setItem (s : Schema) (i c) : (s.setItem i c).required = s.required := by
  cases s; rfl
@[simp] theorem required_addPropertyEmpty (s : Schema) (k) :
    (s.addPropertyEmpty k).required = s.required := by cases s; rfl
@[simp] theorem required_addItemEmpty (s : Schema) :
    s.addItemEmpty.required = s.required := by cases s; rfl
@[simp] theorem required_growItems (s : Schema) (n) :
    (s.growItems n).required = s.required := by
  unfold Schema.growItems
  split
  · rw [required_growItems]
    exact required_addItemEmpty s
  · rfl
termination_by n - s.items.length
decreasing_by simp only [Schema.items_addItemEmpty, List.length_append, List.length_singleton]; omega

end Schema

/-! ### Claim C4: required-property intersection -/

/-- The key list of an object document (empty for non-objects). -/
def keysOf : Json → List String
  | Json.obj kvs => kvs.map Prod.fst
  | _ => []

/-- The recursion into property children does not touch this node's
`required`. -/
theorem required_extendObj (kvs : List (String × Json)) :
    ∀ s : Schema, (extendObj s kvs).required = s.required := by
  induction kvs with
  | nil => intro s; rw [extendObj]
  | cons kv rest ih =>
    intro s
    obtain ⟨k, v⟩ := kv
    rw [extendObj, ih]
    simp

theorem required_extendArrTuple (elts : List Json) :
    ∀ (s : Schema) (i : Nat), (extendArrTuple s elts i).required = s.required := by
  induction elts with
  | nil => intro s i; rw [extendArrTuple]
  | cons e rest ih =>
    intro s i
    rw [extendArrTuple, ih]
    simp

theorem required_extendArrShared (elts : List Json) :
    ∀ s : Schema, (extendArrShared s elts).required = s.required := by
  induction elts with
  | nil => intro s; rw [extendArrShared]
  | cons e rest ih =>
    intro s
    rw [extendArrShared, ih]
    simp

/-- The `addPropertyEmpty` fold inside `_extend_self` does not touch
`required`. -/
theorem required_foldProps (kvs : List (String × Json)) (s : Schema) :
    (kvs.foldl (fun acc kv =>
      if (lookupT acc.properties kv.1).isSome then acc
      else acc.addPropertyEmpty kv.1) s).required = s.required := by
  induction kvs generalizing s with
  | nil => rfl
  | cons kv rest ih =>
    rw [List.foldl_cons, ih]
    split <;> simp

/-- Effect of one object extension on `required`. -/
theorem required_extendJ_obj (s : Schema) (kvs : List (String × Json)) :
    (extendJ s (Json.obj kvs)).required =
      some (match s.required with
        | none => kvs.map Prod.fst
        | some r => interList r (kvs.map Prod.fst)) := by
  rw [extendJ]
  have htype : typeof (Json.obj kvs) = JsonType.OBJECT := rfl
  simp only [htype]
  rw [required_extendObj]
  unfold Schema.extendSelf
  simp only [if_pos rfl, if_true]
  have h1 : ∀ s' : Schema, (s'.setCountsF (setT s'.counts JsonType.OBJECT
      ((lookupT s'.counts JsonType.OBJECT).getD 0 + 1))).required = s'.required := by
    intro s'; cases s'; rfl
  rw [if_neg (by simp)]
  rw [h1]
  have h2 := required_foldProps kvs (s.setTypeF (addType s.type JsonType.OBJECT))
  generalize hF : kvs.foldl (fun acc kv =>
      if (lookupT acc.properties kv.1).isSome then acc
      else acc.addPropertyEmpty kv.1) (s.setTypeF (addType s.type JsonType.OBJECT)) = F at h2
  have h3 : ∀ s' : Schema, ∀ r2, (s'.setRequiredF r2).required = r2 := by
    intro s'; cases s'; intro r2; rfl
  rw [h3, h2]
  have h4 : (s.setTypeF (addType s.type JsonType.OBJECT)).required = s.required := by
    cases s; rfl
  rw [h4]

/-- A document classified as `object` is an object. -/
theorem typeof_obj_iff {d : Json} (h : typeof d = JsonType.OBJECT) :
    ∃ kvs, d = Json.obj kvs := by
  cases d with
  | obj kvs => exact ⟨kvs, rfl⟩
  | str s => simp only [typeof] at h; split at h <;> simp at h
  | _ => simp [typeof] at h

theorem mem_interList {k : String} {r ks : List String} :
    k ∈ interList r ks ↔ k ∈ r ∧ k ∈ ks := by
  simp [interList]

/-- Folding object documents intersects their key sets into `required`
(the already-`some` case). -/
theorem extendAll_required_some (docs : List Json) :
    ∀ (s : Schema) (r : List String), s.required = some r →
    (∀ d ∈ docs, typeof d = JsonType.OBJECT) →
    ∃ r', (extendAll s docs).required = some r' ∧
      (∀ k, k ∈ r' ↔ k ∈ r ∧ ∀ d ∈ docs, k ∈ keysOf d) := by
  induction docs with
  | nil =>
    intro s r hr _
    exact ⟨r, hr, fun k => by simp⟩
  | cons d rest ih =>
    intro s r hr hobj
    obtain ⟨kvs, rfl⟩ := typeof_obj_iff (hobj d (List.mem_cons_self d rest))
    have hstep := required_extendJ_obj s kvs
    rw [hr] at hstep
    obtain ⟨r', hr', hmem⟩ := ih (extendJ s (Json.obj kvs)) (interList r (kvs.map Prod.fst))
      hstep (fun d' hd' => hobj d' (List.mem_cons_of_mem _ hd'))
    refine ⟨r', ?_, fun k => ?_⟩
    · simpa [extendAll] using hr'
    · rw [hmem k, mem_interList]
      constructor
      · rintro ⟨⟨h1, h2⟩, h3⟩
        exact ⟨h1, fun d' hd' => by
          rcases List.mem_cons.mp hd' with rfl | hd'
          · exact h2
          · exact h3 d' hd'⟩
      · rintro ⟨h1, h2⟩
        exact ⟨⟨h1, h2 _ (List.mem_cons_self _ _)⟩, fun d' hd' => h2 d' (List.mem_cons_of_mem _ hd')⟩

/-- Claim C4: extending a node whose required set is uninitialised with a
non-empty sequence of object documents leaves `required` equal to the
intersection of the documents' key sets. -/
theorem extend_required_intersection (s : Schema) (docs : List Json)
    (hreq : s.required = none) (hne : docs ≠ [])
    (hobj : ∀ d ∈ docs, typeof d = JsonType.OBJECT) :
    ∃ r, (extendAll s docs).required = some r ∧
      ∀ k, k ∈ r ↔ ∀ d ∈ docs, k ∈ keysOf d := by
  cases docs with
  | nil => exact absurd rfl hne
  | cons d rest =>
    obtain ⟨kvs, rfl⟩ := typeof_obj_iff (hobj d (List.mem_cons_self d rest))
    have hstep := required_extendJ_obj s kvs
    rw [hreq] at hstep
    obtain ⟨r', hr', hmem⟩ := extendAll_required_some rest (extendJ s (Json.obj kvs))
      (kvs.map Prod.fst) hstep (fun d' hd' => hobj d' (List.mem_cons_of_mem _ hd'))
    refine ⟨r', by simpa [extendAll] using hr', fun k => ?_⟩
    rw [hmem k]
    constructor
    · rintro ⟨h1, h2⟩ d' hd'
      rcases List.mem_cons.mp hd' with rfl | hd'
      · exact h1
      · exact h2 d' hd'
    · intro h
      exact ⟨h _ (List.mem_cons_self _ _), fun d' hd' => h d' (List.mem_cons_of_mem _ hd')⟩

/-- Witness for C4 on two concrete object documents: the intersection of
key sets is kept as required. -/
theorem extend_required_intersection_witness :
    (emptySchema [Seg.str "root"] false).required = none ∧
    ∃ r, (extendAll (emptySchema [Seg.str "root"] false)
        [Json.obj [("a", Json.int 1), ("b", Json.str "x")], Json.obj [("a", Json.int 2)]]).required
        = some r ∧
      ∀ k, k ∈ r ↔ ∀ d ∈ [Json.obj [("a", Json.int 1), ("b", Json.str "x")],
          Json.obj [("a", Json.int 2)]], k ∈ keysOf d :=
  ⟨rfl, extend_required_intersection _ _ rfl (by simp)
    (by intro d hd; rcases List.mem_cons.mp hd with rfl | hd
        · rfl
        · rcases List.mem_cons.mp hd with rfl | hd
          · rfl
          · simp at hd)⟩

/-! ### Pruning (`prune`) -/

/-- Permutations preserve `sizeOf` (needed for termination through the
sorted/reversed traversal orders). -/
theorem perm_sizeOf {α : Type} [SizeOf α] {l l' : List α} (h : l.Perm l') :
    sizeOf l = sizeOf l' := by
  induction h with
  | nil => rfl
  | cons x _ ih => simp [ih]
  | swap x y l => simp; omega
  | trans _ _ ih1 ih2 => omega

def Schema.setPropertiesF : Schema → List (String × Schema) → Schema
  | Schema.mk p tu ty r _ it c v ve po fn nf, pr => Schema.mk p tu ty r pr it c v ve po fn nf

def Schema.setItemsF : Schema → List Schema → Schema
  | Schema.mk p tu ty r pr _ c v ve po fn nf, it => Schema.mk p tu ty r pr it c v ve po fn nf

@[simp] theorem Schema.setPropertiesF_mk (p tu ty r pr it c v ve po fn nf pr2) :
    (Schema.mk p tu ty r pr it c v ve po fn nf).setPropertiesF pr2 =
      Schema.mk p tu ty r pr2 it c v ve po fn nf := rfl
@[simp] theorem Schema.setItemsF_mk (p tu ty r pr it c v ve po fn nf it2) :
    (Schema.mk p tu ty r pr it c v ve po fn nf).setItemsF it2 =
      Schema.mk p tu ty r pr it2 c v ve po fn nf := rfl

/-- `hasmatch(s, patterns)` from `jsonvectorizer.pyx`; `reS pat s` abstracts
the external `re.search(pat, s)`. -/
def hasmatch (reS : String → String → Bool) (s : String) (patterns : List String) : Bool :=
  patterns.any (fun pat => reS pat s)

/-- `sorted(d)` paired with `d[name]` lookups: under the unique-key dictionary
invariant this is the association list sorted by key. -/
def sortedPairs (l : List (String × Schema)) : List (String × Schema) :=
  l.insertionSort (fun a b => a.1 ≤ b.1)

/-- Python `int(...)` on a (rational-modelled) float: truncation toward 0. -/
def pyInt (q : Rat) : Int :=
  Int.tdiv q.num (Int.ofNat q.den)

/-- The state mutation `_prune_self` performs when dropping one type `t`:
remove it from `type`, delete its `counts`/`values` entries, and clear
`properties`+`required` (for `object`) or `items` (for `array`).
`self.required.clear()` raises `AttributeError` (`none`) when `required` is
`None`. -/
def pruneTypeStep (s : Schema) (t : JsonType) : Option Schema :=
  let s1 := s.setTypeF (s.type.filter (fun t' => t' ≠ t))
  let s2 := s1.setCountsF (eraseT s1.counts t)
  let s3 := if (lookupT s2.values t).isSome then s2.setValuesF (eraseT s2.values t) else s2
  if t = JsonType.OBJECT then
    match s3.required with
    | some _ => some ((s3.setPropertiesF []).setRequiredF (some []))
    | none => none
  else if t = JsonType.ARRAY then some (s3.setItemsF [])
  else some s3

/-- The per-type loop of `_prune_self` over `sorted(self.type)`.
`self.counts[json_type]` raises `KeyError` (`none`) when absent. -/
def pruneSelfLoop (ts : List JsonType) (s : Schema) (min_f : Int) (path : String)
    (paths : List String) : Option (Schema × List String) :=
  match ts with
  | [] => some (s, paths)
  | t :: rest =>
    match lookupT s.counts t with
    | none => none
    | some c =>
      if (c : Int) < min_f then
        match pruneTypeStep s t with
        | none => none
        | some s4 =>
          pruneSelfLoop rest s4 min_f path (paths ++ [path ++ " -> " ++ type2str t])
      else pruneSelfLoop rest s min_f path paths

/-- `_prune_self` (`jsonvectorizer.pyx` lines 256-279): drop types rarer than
`min_f`; when every type is gone the per-type records are discarded and just
this node's path is reported. -/
def pruneSelf (s : Schema) (min_f : Int) : Option (Schema × List String) :=
  match joinPath s.path with
  | none => none
  | some path =>
    match pruneSelfLoop (sortTypes s.type) s min_f path [] with
    | none => none
    | some (s', paths) =>
      if s'.type.isEmpty then some (s', [path]) else some (s', paths)

theorem pruneTypeStep_properties {s : Schema} {t s4} (h : pruneTypeStep s t = some s4) :
    s4.properties = s.properties ∨ s4.properties = [] := by
  cases s
  unfold pruneTypeStep at h
  simp only [Schema.setTypeF_mk, Schema.setCountsF_mk, Schema.counts_mk, Schema.type_mk,
    Schema.values_mk, Schema.setValuesF_mk, Schema.setPropertiesF_mk, Schema.setItemsF_mk,
    Schema.required_mk] at h
  split at h <;> split at h <;> try split at h
  all_goals first
    | (cases h; simp)
    | exact absurd h (by simp)

theorem pruneTypeStep_items {s : Schema} {t s4} (h : pruneTypeStep s t = some s4) :
    s4.items = s.items ∨ s4.items = [] := by
  cases s
  unfold pruneTypeStep at h
  simp only [Schema.setTypeF_mk, Schema.setCountsF_mk, Schema.counts_mk, Schema.type_mk,
    Schema.values_mk, Schema.setValuesF_mk, Schema.setPropertiesF_mk, Schema.setItemsF_mk,
    Schema.required_mk] at h
  split at h <;> split at h <;> try split at h
  all_goals first
    | (cases h; simp)
    | exact absurd h (by simp)

theorem pruneSelfLoop_properties (ts : List JsonType) :
    ∀ s min_f path paths s' paths',
      pruneSelfLoop ts s min_f path paths = some (s', paths') →
      s'.properties = s.properties ∨ s'.properties = [] := by
  induction ts with
  | nil =>
    intro s min_f path paths s' paths' h
    rw [pruneSelfLoop] at h
    cases h
    exact Or.inl rfl
  | cons t rest ih =>
    intro s min_f path paths s' paths' h
    rw [pruneSelfLoop] at h
    split at h
    · exact absurd h (by simp)
    · split at h
      · split at h
        · exact absurd h (by simp)
        · rename_i s4 hs4
          rcases ih _ _ _ _ _ _ h with h' | h'
          · rw [h']
            exact pruneTypeStep_properties hs4
          · exact Or.inr h'
      · exact ih _ _ _ _ _ _ h

theorem pruneSelfLoop_items (ts : List JsonType) :
    ∀ s min_f path paths s' paths',
      pruneSelfLoop ts s min_f path paths = some (s', paths') →
      s'.items = s.items ∨ s'.items = [] := by
  induction ts with
  | nil =>
    intro s min_f path paths s' paths' h
    rw [pruneSelfLoop] at h
    cases h
    exact Or.inl rfl
  | cons t rest ih =>
    intro s min_f path paths s' paths' h
    rw [pruneSelfLoop] at h
    split at h
    · exact absurd h (by simp)
    · split at h
      · split at h
        · exact absurd h (by simp)
        · rename_i s4 hs4
          rcases ih _ _ _ _ _ _ h with h' | h'
          · rw [h']
            exact pruneTypeStep_items hs4
          · exact Or.inr h'
      · exact ih _ _ _ _ _ _ h

theorem pruneSelf_properties {s : Schema} {min_f s' paths'}
    (h : pruneSelf s min_f = some (s', paths')) :
    s'.properties = s.properties ∨ s'.properties = [] := by
  unfold pruneSelf at h
  split at h
  · exact absurd h (by simp)
  · split at h
    · exact absurd h (by simp)
    · rename_i sp hloop
      split at h <;> cases h <;> exact pruneSelfLoop_properties _ _ _ _ _ _ _ hloop

theorem pruneSelf_items {s : Schema} {min_f s' paths'}
    (h : pruneSelf s min_f = some (s', paths')) :
    s'.items = s.items ∨ s'.items = [] := by
  unfold pruneSelf at h
  split at h
  · exact absurd h (by simp)
  · split at h
    · exact absurd h (by simp)
    · rename_i sp hloop
      split at h <;> cases h <;> exact pruneSelfLoop_items _ _ _ _ _ _ _ hloop

theorem sizeOf_properties_lt (s : Schema) : sizeOf s.properties < sizeOf s := by
  cases s; simp [Schema.properties]; omega

theorem sizeOf_items_lt (s : Schema) : sizeOf s.items < sizeOf s := by
  cases s; simp [Schema.items]; omega

theorem sizeOf_sortedPairs (l : List (String × Schema)) :
    sizeOf (sortedPairs l) = sizeOf l :=
  perm_sizeOf (List.perm_insertionSort _ l)

theorem sizeOf_reverse {α : Type} [SizeOf α] (l : List α) :
    sizeOf l.reverse = sizeOf l :=
  perm_sizeOf (List.reverse_perm l)

mutual
/-- `_prune` (`jsonvectorizer.pyx` lines 281-309): self-step, then the
property children in lexicographic key order, then the item children in
`reversed(range(len(items)))` order.  The source's recursive call goes through
the public `prune` method, whose `isinstance(min_f, float)` conversion is a
no-op for the C `int` argument it receives, so it is the plain recursion. -/
def pruneRec (reS : String → String → Bool) (s : Schema) (patterns : List String)
    (min_f : Int) : Option (Schema × List String) :=
  match h : pruneSelf s min_f with
  | none => none
  | some (s1, paths) =>
    match prunePropsFold reS patterns min_f (sortedPairs s1.properties)
        s1.properties s1.required paths with
    | none => none
    | some (props', req', paths2) =>
      match pruneItemsRevFold reS patterns min_f s1.items.reverse with
      | none => none
      | some (kept, itemPaths) =>
        some (((s1.setPropertiesF props').setRequiredF req').setItemsF kept,
          paths2 ++ itemPaths)
termination_by sizeOf s
decreasing_by
  · rw [sizeOf_sortedPairs]
    rcases pruneSelf_properties h with h' | h' <;> rw [h']
    · exact sizeOf_properties_lt s
    · cases s; simp; omega
  · rw [sizeOf_reverse]
    rcases pruneSelf_items h with h' | h' <;> rw [h']
    · exact sizeOf_items_lt s
    · cases s; simp; omega

/-- The property loop of `_prune`: iterate the (name, child) pairs in sorted
key order, mutating the property dictionary and the required set.  A `none`
`required` raises on `if name in self.required` when a drop occurs. -/
def prunePropsFold (reS : String → String → Bool) (patterns : List String) (min_f : Int) :
    List (String × Schema) → List (String × Schema) → Option (List String) →
    List String → Option (List (String × Schema) × Option (List String) × List String)
  | [], props, req, paths => some (props, req, paths)
  | (name, child) :: rest, props, req, paths =>
    match joinPath child.path with
    | none => none
    | some cpath =>
      if hasmatch reS cpath patterns then
        match req with
        | none => none
        | some r =>
          prunePropsFold reS patterns min_f rest (eraseT props name)
            (some (r.filter (fun k => k ≠ name))) (paths ++ [cpath])
      else
        match pruneRec reS child patterns min_f with
        | none => none
        | some (child', sub) =>
          if child'.type.isEmpty then
            match req with
            | none => none
            | some r =>
              prunePropsFold reS patterns min_f rest (eraseT props name)
                (some (r.filter (fun k => k ≠ name))) (paths ++ sub)
          else
            prunePropsFold reS patterns min_f rest (setT props name child') req (paths ++ sub)
termination_by pairs _ _ _ => sizeOf pairs
decreasing_by all_goals (simp; try omega)

/-- The item loop of `_prune`, processed from the highest index down (the
head of the argument is the rightmost remaining item); returns the surviving
items in original order together with the recorded paths in visit order. -/
def pruneItemsRevFold (reS : String → String → Bool) (patterns : List String) (min_f : Int) :
    List Schema → Option (List Schema × List String)
  | [] => some ([], [])
  | item :: restRev =>
    match joinPath item.path with
    | none => none
    | some ipath =>
      if hasmatch reS ipath patterns then
        match pruneItemsRevFold reS patterns min_f restRev with
        | none => none
        | some (keptRest, pathsRest) => some (keptRest, ipath :: pathsRest)
      else
        match pruneRec reS item patterns min_f with
        | none => none
        | some (item', sub) =>
          match pruneItemsRevFold reS patterns min_f restRev with
          | none => none
          | some (keptRest, pathsRest) =>
            if item'.type.isEmpty then some (keptRest, sub ++ pathsRest)
            else some (keptRest ++ [item'], sub ++ pathsRest)
termination_by itemsRev => sizeOf itemsRev
decreasing_by all_goals (simp; try omega)
end

/-- The `min_f` argument of the public `prune`: a Python `int` or `float`. -/
inductive MinF where
  | int : Int → MinF
  | float : Rat → MinF

/-- The public `prune(patterns, min_f)` (`jsonvectorizer.pyx` lines 476-504):
a float threshold is converted once, at the invoked node, to
`int(min_f * sum(self.counts.values()))`. -/
def prunePub (reS : String → String → Bool) (s : Schema) (patterns : List String)
    (min_f : MinF) : Option (Schema × List String) :=
  match min_f with
  | MinF.int n => pruneRec reS s patterns n
  | MinF.float q => pruneRec reS s patterns (pyInt (q * (sumCounts s.counts : Rat)))

/-! ### Structural induction over the schema tree -/

theorem schemaIndOn {P : Schema → Prop}
    (step : ∀ s : Schema, (∀ pr ∈ s.properties, P pr.2) → (∀ it ∈ s.items, P it) → P s) :
    ∀ s, P s := by
  suffices h : ∀ n (s : Schema), sizeOf s < n → P s from
    fun s => h (sizeOf s + 1) s (by omega)
  intro n
  induction n with
  | zero => intro s h; omega
  | succ n ih =>
    intro s hs
    apply step
    · intro pr hpr
      apply ih
      have h1 := List.sizeOf_lt_of_mem hpr
      have h2 := sizeOf_properties_lt s
      have h3 : sizeOf pr.2 < sizeOf pr := by cases pr; simp
      omega
    · intro it hit
      apply ih
      have h1 := List.sizeOf_lt_of_mem hit
      have h2 := sizeOf_items_lt s
      omega

/-! ### Claim C7: prune with no patterns and zero threshold -/

mutual
/-- Executable well-formedness: non-empty type set, a counts entry for every
recorded type, a string-joinable path, unique property keys — recursively.
Every node of a schema learned by `extend` in shared-items mode satisfies it. -/
def wfB (s : Schema) : Bool :=
  !s.type.isEmpty && s.type.all (fun t => (lookupT s.counts t).isSome)
    && (joinPath s.path).isSome && decide ((s.properties.map Prod.fst).Nodup)
    && wfPropsB s.properties && wfItemsB s.items
termination_by sizeOf s
decreasing_by
  all_goals first
    | exact sizeOf_properties_lt s
    | exact sizeOf_items_lt s

def wfPropsB : List (String × Schema) → Bool
  | [] => true
  | (_, c) :: rest => wfB c && wfPropsB rest
termination_by l => sizeOf l
decreasing_by all_goals (simp; try omega)

def wfItemsB : List Schema → Bool
  | [] => true
  | c :: rest => wfB c && wfItemsB rest
termination_by l => sizeOf l
decreasing_by all_goals (simp; try omega)
end

theorem wfPropsB_mem {l : List (String × Schema)} (h : wfPropsB l = true) :
    ∀ pr ∈ l, wfB pr.2 = true := by
  induction l with
  | nil => simp
  | cons pr rest ih =>
    intro pr' hpr'
    obtain ⟨k, c⟩ := pr
    rw [wfPropsB] at h
    simp only [Bool.and_eq_true] at h
    rcases List.mem_cons.mp hpr' with rfl | hm
    · exact h.1
    · exact ih h.2 pr' hm

theorem wfItemsB_mem {l : List Schema} (h : wfItemsB l = true) :
    ∀ it ∈ l, wfB it = true := by
  induction l with
  | nil => simp
  | cons c rest ih =>
    intro it hit
    rw [wfItemsB] at h
    simp only [Bool.and_eq_true] at h
    rcases List.mem_cons.mp hit with rfl | hm
    · exact h.1
    · exact ih h.2 it hm

theorem wfB_parts {s : Schema} (h : wfB s = true) :
    s.type ≠ [] ∧ (∀ t ∈ s.type, (lookupT s.counts t).isSome) ∧
    (joinPath s.path).isSome ∧ (s.properties.map Prod.fst).Nodup ∧
    wfPropsB s.properties = true ∧ wfItemsB s.items = true := by
  rw [wfB] at h
  simp only [Bool.and_eq_true, List.all_eq_true, Bool.not_eq_true',
    decide_eq_true_eq] at h
  refine ⟨?_, fun t ht => by simpa using h.1.1.1.1.2 t ht,
    h.1.1.1.2, h.1.1.2, h.1.2, h.2⟩
  have := h.1.1.1.1.1
  intro hnil
  rw [hnil] at this
  simp at this

theorem lookupT_setT_self {κ β : Type} [DecidableEq κ] {l : List (κ × β)} {k : κ} {c : β}
    (h : lookupT l k = some c) : setT l k c = l := by
  induction l with
  | nil => simp [lookupT] at h
  | cons p rest ih =>
    obtain ⟨k', b'⟩ := p
    rw [lookupT] at h
    rw [setT]
    by_cases hk : k' = k
    · rw [if_pos hk] at h
      rw [if_pos hk]
      cases h
      rw [hk]
    · rw [if_neg hk] at h
      rw [if_neg hk, ih h]

theorem nodup_mem_lookupT {l : List (String × Schema)} {k : String} {c : Schema}
    (hnd : (l.map Prod.fst).Nodup) (hmem : (k, c) ∈ l) : lookupT l k = some c := by
  induction l with
  | nil => simp at hmem
  | cons p rest ih =>
    obtain ⟨k', b'⟩ := p
    rw [lookupT]
    rcases List.mem_cons.mp hmem with heq | hm
    · cases heq
      rw [if_pos rfl]
    · have hnd' : (∀ x : Schema, (k', x) ∉ rest) ∧ (rest.map Prod.fst).Nodup := by
        simpa using hnd
      have hk : k' ≠ k := by
        rintro rfl
        exact hnd'.1 c hm
      rw [if_neg hk]
      exact ih hnd'.2 hm

theorem hasmatch_nil (reS : String → String → Bool) (s : String) :
    hasmatch reS s [] = false := rfl

theorem pruneSelfLoop_noop (ts : List JsonType) :
    ∀ (s : Schema) (path : String) (paths : List String),
      (∀ t ∈ ts, (lookupT s.counts t).isSome) →
      pruneSelfLoop ts s 0 path paths = some (s, paths) := by
  induction ts with
  | nil => intro s path paths _; rw [pruneSelfLoop]
  | cons t rest ih =>
    intro s path paths hcnt
    rw [pruneSelfLoop]
    obtain ⟨c, hc⟩ := Option.isSome_iff_exists.mp (hcnt t (List.mem_cons_self t rest))
    simp only [hc]
    rw [if_neg (by omega : ¬ ((c : Int) < 0))]
    exact ih s path paths (fun t' ht' => hcnt t' (List.mem_cons_of_mem _ ht'))

theorem pruneSelf_noop {s : Schema} (htype : s.type ≠ [])
    (hcnt : ∀ t ∈ s.type, (lookupT s.counts t).isSome)
    (hpath : (joinPath s.path).isSome) :
    pruneSelf s 0 = some (s, []) := by
  obtain ⟨path, hp⟩ := Option.isSome_iff_exists.mp hpath
  unfold pruneSelf
  simp only [hp]
  simp only [pruneSelfLoop_noop (sortTypes s.type) s path []
    (fun t ht => hcnt t (by simpa [sortTypes] using (List.mem_filter.mp ht).2))]
  rw [if_neg (by simpa using htype)]

theorem prunePropsFold_noop (reS : String → String → Bool) (min_f : Int)
    (pairs : List (String × Schema)) :
    ∀ (props : List (String × Schema)) (req : Option (List String)) (paths : List String),
      (∀ pr ∈ pairs, (joinPath pr.2.path).isSome ∧
        pruneRec reS pr.2 [] min_f = some (pr.2, []) ∧ pr.2.type ≠ [] ∧
        lookupT props pr.1 = some pr.2) →
      prunePropsFold reS [] min_f pairs props req paths = some (props, req, paths) := by
  induction pairs with
  | nil => intro props req paths _; rw [prunePropsFold]
  | cons pr rest ih =>
    intro props req paths hall
    obtain ⟨name, child⟩ := pr
    obtain ⟨hjp, hrec, htyne, hlk⟩ := hall _ (List.mem_cons_self _ _)
    obtain ⟨cpath, hcp⟩ := Option.isSome_iff_exists.mp hjp
    rw [prunePropsFold]
    simp only [hcp]
    rw [if_neg (by simp [hasmatch])]
    simp only [hrec]
    rw [if_neg (by simpa using htyne)]
    rw [lookupT_setT_self hlk, List.append_nil]
    exact ih props req paths (fun pr' hpr' => hall pr' (List.mem_cons_of_mem _ hpr'))

theorem pruneItemsRevFold_noop (reS : String → String → Bool) (min_f : Int)
    (itemsRev : List Schema)
    (hall : ∀ it ∈ itemsRev, (joinPath it.path).isSome ∧
      pruneRec reS it [] min_f = some (it, []) ∧ it.type ≠ []) :
    pruneItemsRevFold reS [] min_f itemsRev = some (itemsRev.reverse, []) := by
  induction itemsRev with
  | nil => rw [pruneItemsRevFold]; rfl
  | cons item restRev ih =>
    obtain ⟨hjp, hrec, htyne⟩ := hall _ (List.mem_cons_self _ _)
    obtain ⟨ipath, hip⟩ := Option.isSome_iff_exists.mp hjp
    rw [pruneItemsRevFold]
    simp only [hip]
    rw [if_neg (by simp [hasmatch])]
    simp only [hrec]
    simp only [ih (fun it hit => hall it (List.mem_cons_of_mem _ hit))]
    rw [if_neg (by simpa using htyne)]
    rw [List.reverse_cons]
    rfl

theorem schema_reassemble (s : Schema) :
    ((s.setPropertiesF s.properties).setRequiredF s.required).setItemsF s.items = s := by
  cases s; rfl

/-- The no-op core for claim C7: on a well-formed subtree,
`_prune(patterns=[], min_f=0)` returns the tree unchanged and no paths. -/
theorem pruneRec_noop (reS : String → String → Bool) :
    ∀ s : Schema, wfB s = true → pruneRec reS s [] 0 = some (s, []) := by
  apply schemaIndOn (P := fun s => wfB s = true → pruneRec reS s [] 0 = some (s, []))
  intro s ihp ihi hwf
  obtain ⟨htyne, hcnt, hpath, hnd, hwfp, hwfi⟩ := wfB_parts hwf
  rw [pruneRec]
  have hps := pruneSelf_noop htyne hcnt hpath
  split
  · rename_i heq
    rw [heq] at hps
    exact absurd hps (by simp)
  rename_i s1 paths heq
  rw [heq] at hps
  have hps2 : s = s1 ∧ paths = [] := by simpa using hps.symm
  obtain ⟨heq2, rfl⟩ := hps2
  subst heq2
  rw [prunePropsFold_noop reS 0 (sortedPairs s.properties) s.properties s.required []
    (fun pr hpr => by
      have hmem : pr ∈ s.properties :=
        (List.perm_insertionSort _ s.properties).mem_iff.mp hpr
      have hwfc := wfPropsB_mem hwfp pr hmem
      obtain ⟨_, _, hjp, _, _, _⟩ := wfB_parts hwfc
      refine ⟨hjp, ihp pr hmem hwfc, (wfB_parts hwfc).1, ?_⟩
      obtain ⟨k, c⟩ := pr
      exact nodup_mem_lookupT hnd hmem)]
  rw [pruneItemsRevFold_noop reS 0 s.items.reverse
    (fun it hit => by
      have hmem : it ∈ s.items := List.mem_reverse.mp hit
      have hwfc := wfItemsB_mem hwfi it hmem
      exact ⟨(wfB_parts hwfc).2.2.1, ihi it hmem hwfc, (wfB_parts hwfc).1⟩)]
  rw [List.reverse_reverse]
  show some (((s.setPropertiesF s.properties).setRequiredF s.required).setItemsF s.items,
    List.append [] []) = some (s, [])
  rw [schema_reassemble]
  rfl

/-- Counterexample to claim C7 as stated: for a fresh, never-extended node
(empty type set) `prune(node, [], 0)` does not return an empty drop list —
`_prune_self` reports the node's own path because `self.type` is empty. -/
theorem prune_empty_zero_counterexample :
    (prunePub (fun _ _ => false) (emptySchema [Seg.str "root"] false) [] (MinF.int 0)).map
      Prod.snd = some ["root"] ∧ (["root"] : List String) ≠ ([] : List String) := by
  constructor
  · simp +decide [prunePub, pruneRec, pruneSelf, pruneSelfLoop, prunePropsFold,
      pruneItemsRevFold, sortTypes, joinPath, emptySchema, sortedPairs, JsonType.all,
      List.mapM, List.mapM.loop]
  · simp

/-- Claim C7 (amended): for every well-formed node — non-empty type set, a
counts entry for each recorded type, string-joinable paths and unique property
keys throughout the subtree, as holds for every node of a schema learned by
`extend` in shared-items mode — `prune(node, [], 0)` is a no-op: it returns an
empty drop list and leaves the tree unchanged. -/
theorem prune_empty_zero_noop (reS : String → String → Bool) (s : Schema)
    (h : wfB s = true) : prunePub reS s [] (MinF.int 0) = some (s, []) := by
  simpa [prunePub] using pruneRec_noop reS s h

/-- Witness for the amended C7 on a concrete well-formed one-node schema. -/
theorem prune_empty_zero_noop_witness :
    wfB (Schema.mk [Seg.str "root"] false [JsonType.NUMBER] none [] []
        [(JsonType.NUMBER, 3)] [] [] 0 [] 0) = true ∧
    prunePub (fun _ _ => false)
        (Schema.mk [Seg.str "root"] false [JsonType.NUMBER] none [] []
          [(JsonType.NUMBER, 3)] [] [] 0 [] 0) [] (MinF.int 0) =
      some ((Schema.mk [Seg.str "root"] false [JsonType.NUMBER] none [] []
          [(JsonType.NUMBER, 3)] [] [] 0 [] 0), []) := by
  have hwf : wfB (Schema.mk [Seg.str "root"] false [JsonType.NUMBER] none [] []
      [(JsonType.NUMBER, 3)] [] [] 0 [] 0) = true := by
    simp +decide [wfB, wfPropsB, wfItemsB, lookupT, joinPath, List.mapM, List.mapM.loop]
  exact ⟨hwf, prune_empty_zero_noop _ _ hwf⟩

/-! ### Claim C5: fractional prune threshold conversion basis -/

mutual
/-- Modelled from the claim's words (C5): a variant in which the fractional
threshold is carried down the tree and "every descendant node's threshold is
recomputed from that descendant's own local total": at every node the
absolute count used is `int(q * sum(node.counts.values()))`, recomputed from
that node's own counts.  This is *not* the reference behaviour; it exists to
be compared against `prunePub`.  `m` is the absolute count for the current
node; each child call recomputes it from the child's counts. -/
def prunePNRec (reS : String → String → Bool) (s : Schema) (patterns : List String)
    (q : Rat) (m : Int) : Option (Schema × List String) :=
  match h : pruneSelf s m with
  | none => none
  | some (s1, paths) =>
    match prunePNProps reS patterns q (sortedPairs s1.properties)
        s1.properties s1.required paths with
    | none => none
    | some (props', req', paths2) =>
      match prunePNItems reS patterns q s1.items.reverse with
      | none => none
      | some (kept, itemPaths) =>
        some (((s1.setPropertiesF props').setRequiredF req').setItemsF kept,
          paths2 ++ itemPaths)
termination_by sizeOf s
decreasing_by
  · rw [sizeOf_sortedPairs]
    rcases pruneSelf_properties h with h' | h' <;> rw [h']
    · exact sizeOf_properties_lt s
    · cases s; simp; omega
  · rw [sizeOf_reverse]
    rcases pruneSelf_items h with h' | h' <;> rw [h']
    · exact sizeOf_items_lt s
    · cases s; simp; omega

def prunePNProps (reS : String → String → Bool) (patterns : List String) (q : Rat) :
    List (String × Schema) → List (String × Schema) → Option (List String) →
    List String → Option (List (String × Schema) × Option (List String) × List String)
  | [], props, req, paths => some (props, req, paths)
  | (name, child) :: rest, props, req, paths =>
    match joinPath child.path with
    | none => none
    | some cpath =>
      if hasmatch reS cpath patterns then
        match req with
        | none => none
        | some r =>
          prunePNProps reS patterns q rest (eraseT props name)
            (some (r.filter (fun k => k ≠ name))) (paths ++ [cpath])
      else
        match prunePNRec reS child patterns q
            (pyInt (q * (sumCounts child.counts : Rat))) with
        | none => none
        | some (child', sub) =>
          if child'.type.isEmpty then
            match req with
            | none => none
            | some r =>
              prunePNProps reS patterns q rest (eraseT props name)
                (some (r.filter (fun k => k ≠ name))) (paths ++ sub)
          else
            prunePNProps reS patterns q rest (setT props name child') req (paths ++ sub)
termination_by pairs _ _ _ => sizeOf pairs
decreasing_by all_goals (simp; try omega)

def prunePNItems (reS : String → String → Bool) (patterns : List String) (q : Rat) :
    List Schema → Option (List Schema × List String)
  | [] => some ([], [])
  | item :: restRev =>
    match joinPath item.path with
    | none => none
    | some ipath =>
      if hasmatch reS ipath patterns then
        match prunePNItems reS patterns q restRev with
        | none => none
        | some (keptRest, pathsRest) => some (keptRest, ipath :: pathsRest)
      else
        match prunePNRec reS item patterns q
            (pyInt (q * (sumCounts item.counts : Rat))) with
        | none => none
        | some (item', sub) =>
          match prunePNItems reS patterns q restRev with
          | none => none
          | some (keptRest, pathsRest) =>
            if item'.type.isEmpty then some (keptRest, sub ++ pathsRest)
            else some (keptRest ++ [item'], sub ++ pathsRest)
termination_by itemsRev => sizeOf itemsRev
decreasing_by all_goals (simp; try omega)
end

/-- Claim C5, claimed behaviour at the invoked node: convert at the root,
then recompute per descendant via `prunePNRec`. -/
def prunePerNodeFloat (reS : String → String → Bool) (s : Schema) (patterns : List String)
    (q : Rat) : Option (Schema × List String) :=
  prunePNRec reS s patterns q (pyInt (q * (sumCounts s.counts : Rat)))

/-- Incrementing one key of a counts dictionary raises the value total by 1. -/
theorem sumCounts_setT_incr (c : List (JsonType × Nat)) (t : JsonType) :
    sumCounts (setT c t ((lookupT c t).getD 0 + 1)) = sumCounts c + 1 := by
  induction c with
  | nil => simp [setT, lookupT, sumCounts]
  | cons p rest ih =>
    obtain ⟨k, v⟩ := p
    rw [setT, lookupT]
    by_cases hk : k = t
    · rw [if_pos hk, if_pos hk]
      simp [sumCounts]
      omega
    · rw [if_neg hk, if_neg hk]
      simp only [sumCounts, List.map_cons, List.sum_cons] at ih ⊢
      omega

theorem counts_extendObj (kvs : List (String × Json)) :
    ∀ s : Schema, (extendObj s kvs).counts = s.counts := by
  induction kvs with
  | nil => intro s; rw [extendObj]
  | cons kv rest ih =>
    intro s
    obtain ⟨k, v⟩ := kv
    rw [extendObj, ih]
    cases s; rfl

theorem counts_extendArrTuple (elts : List Json) :
    ∀ (s : Schema) (i : Nat), (extendArrTuple s elts i).counts = s.counts := by
  induction elts with
  | nil => intro s i; rw [extendArrTuple]
  | cons e rest ih =>
    intro s i
    rw [extendArrTuple, ih]
    cases s; rfl

theorem counts_extendArrShared (elts : List Json) :
    ∀ s : Schema, (extendArrShared s elts).counts = s.counts := by
  induction elts with
  | nil => intro s; rw [extendArrShared]
  | cons e rest ih =>
    intro s
    rw [extendArrShared, ih]
    cases s; rfl

theorem counts_growItems (s : Schema) (n : Nat) : (s.growItems n).counts = s.counts := by
  unfold Schema.growItems
  split
  · rw [counts_growItems]
    cases s; rfl
  · rfl
termination_by n - s.items.length
decreasing_by simp only [Schema.items_addItemEmpty, List.length_append, List.length_singleton]; omega

/-- `_extend_self` on any document sets exactly
`counts[t] = counts.get(t, 0) + 1` and changes no other counts entry. -/
theorem counts_extendSelf (s : Schema) (d : Json) (t : JsonType) :
    (s.extendSelf d t).counts = setT s.counts t ((lookupT s.counts t).getD 0 + 1) := by
  have h1 : ∀ (x : Schema) (v), (x.setValuesF v).counts = x.counts := fun x v => by cases x; rfl
  have h2 : ∀ (x : Schema) (c), (x.setCountsF c).counts = c := fun x c => by cases x; rfl
  have h3 : ∀ (x : Schema) (r), (x.setRequiredF r).counts = x.counts := fun x r => by cases x; rfl
  have h4 : ∀ (x : Schema) (ty), (x.setTypeF ty).counts = x.counts := fun x ty => by cases x; rfl
  have h7 : ∀ x : Schema, x.addItemEmpty.counts = x.counts := fun x => by cases x; rfl
  have h5 : ∀ (kvs : List (String × Json)) (x : Schema),
      (kvs.foldl (fun acc kv => if (lookupT acc.properties kv.1).isSome then acc
        else acc.addPropertyEmpty kv.1) x).counts = x.counts := by
    intro kvs
    induction kvs with
    | nil => intro x; rfl
    | cons kv rest ih =>
      intro x
      rw [List.foldl_cons, ih]
      split
      · rfl
      · cases x; rfl
  unfold Schema.extendSelf
  simp only []
  split
  · rw [h1, h2]
    split
    · split
      · rw [h3, h5, h4]
      · rw [h4]
    · split
      · split
        · split
          · rw [counts_growItems, h4]
          · split
            · rw [h7, h4]
            · rw [h4]
        · rw [h4]
      · rw [h4]
  · rw [h2]
    split
    · split
      · rw [h3, h5, h4]
      · rw [h4]
    · split
      · split
        · split
          · rw [counts_growItems, h4]
          · split
            · rw [h7, h4]
            · rw [h4]
        · rw [h4]
      · rw [h4]

theorem counts_extendJ (s : Schema) (d : Json) :
    (extendJ s d).counts =
      setT s.counts (typeof d) ((lookupT s.counts (typeof d)).getD 0 + 1) := by
  cases d with
  | obj kvs =>
    rw [extendJ]
    rw [counts_extendObj]
    exact counts_extendSelf _ _ _
  | arr elts =>
    rw [extendJ]
    split
    · rw [counts_extendArrTuple]
      exact counts_extendSelf _ _ _
    · rw [counts_extendArrShared]
      exact counts_extendSelf _ _ _
  | null =>
    rw [extendJ]
    · exact counts_extendSelf _ _ _
    · intro _ h; exact Json.noConfusion h
    · intro _ h; exact Json.noConfusion h
  | bool b =>
    rw [extendJ]
    · exact counts_extendSelf _ _ _
    · intro _ h; exact Json.noConfusion h
    · intro _ h; exact Json.noConfusion h
  | int n =>
    rw [extendJ]
    · exact counts_extendSelf _ _ _
    · intro _ h; exact Json.noConfusion h
    · intro _ h; exact Json.noConfusion h
  | float q =>
    rw [extendJ]
    · exact counts_extendSelf _ _ _
    · intro _ h; exact Json.noConfusion h
    · intro _ h; exact Json.noConfusion h
  | str v =>
    rw [extendJ]
    · exact counts_extendSelf _ _ _
    · intro _ h; exact Json.noConfusion h
    · intro _ h; exact Json.noConfusion h

/-- Each document extends the root's local counts total by exactly one, so
after learning `n` documents, `sum(root.counts.values()) = n`. -/
theorem sumCounts_extendAll (docs : List Json) :
    ∀ s : Schema, sumCounts (extendAll s docs).counts = sumCounts s.counts + docs.length := by
  induction docs with
  | nil => intro s; simp [extendAll]
  | cons d rest ih =>
    intro s
    have h1 : extendAll s (d :: rest) = extendAll (extendJ s d) rest := by
      simp [extendAll]
    rw [h1, ih, counts_extendJ, sumCounts_setT_incr]
    simp
    omega

/-- Claim C5 (amended): the public `prune` converts a float `min_f` exactly
once, at the node it is invoked on, to `int(min_f * sum(self.counts.values()))`
— that node's own local observation total — and hands this absolute count to
the recursion over the whole subtree; descendants do not recompute it.  For a
root learnt by `extend` from `n` documents the local total equals `n`, the
global document count. -/
theorem prune_float_converted_once (reS : String → String → Bool) (s : Schema)
    (patterns : List String) (q : Rat) :
    prunePub reS s patterns (MinF.float q) =
      pruneRec reS s patterns (pyInt (q * (sumCounts s.counts : Rat))) ∧
    (∀ docs : List Json,
      sumCounts (extendAll (emptySchema [Seg.str "root"] false) docs).counts = docs.length) :=
  ⟨rfl, fun docs => by
    have h := sumCounts_extendAll docs (emptySchema [Seg.str "root"] false)
    simpa [emptySchema, sumCounts] using h⟩

/-- The documents of the C5 counterexample: six objects, the property `a`
present on only two of them. -/
def pruneFloatDocs : List Json :=
  [Json.obj [("a", Json.int 1)], Json.obj [("a", Json.int 2)],
   Json.obj [], Json.obj [], Json.obj [], Json.obj []]

/-- The schema learned from `pruneFloatDocs`. -/
theorem pruneFloat_tree_shape :
    extendAll (emptySchema [Seg.str "root"] false) pruneFloatDocs =
      Schema.mk [Seg.str "root"] false [JsonType.OBJECT] (some [])
        [("a", Schema.mk [Seg.str "root", Seg.str "a"] false [JsonType.NUMBER] none [] []
            [(JsonType.NUMBER, 2)] [(JsonType.NUMBER, [Json.int 1, Json.int 2])] [] 0 [] 0)]
        [] [(JsonType.OBJECT, 6)] [] [] 0 [] 0 := by
  simp +decide [extendAll, pruneFloatDocs, extendJ, extendObj, Schema.extendSelf, typeof,
    addType, emptySchema, setT, lookupT, interList, Schema.setProp, Schema.addPropertyEmpty]

/-- Counterexample to claim C5 as stated: on the schema learned from
`pruneFloatDocs`, `prune([], 0.5)` converts the threshold once at the root
(`int(0.5 * 6) = 3`) and therefore drops the child `a` (local count 2 < 3),
whereas the claimed per-descendant recomputation (`int(0.5 * 2) = 1`) would
keep it. -/
theorem prune_float_per_node_counterexample :
    (prunePub (fun _ _ => false) (extendAll (emptySchema [Seg.str "root"] false) pruneFloatDocs)
        [] (MinF.float (mkRat 1 2))).map Prod.snd = some ["root:a"] ∧
    (prunePerNodeFloat (fun _ _ => false)
        (extendAll (emptySchema [Seg.str "root"] false) pruneFloatDocs)
        [] (mkRat 1 2)).map Prod.snd = some [] ∧
    (some ["root:a"] : Option (List String)) ≠ some [] := by
  rw [pruneFloat_tree_shape]
  have h6 : pyInt (mkRat 1 2 * ((sumCounts [(JsonType.OBJECT, 6)] : Nat) : Rat)) = 3 := by
    norm_num [pyInt, Rat.mkRat_eq_div, sumCounts]
  have h2 : pyInt (mkRat 1 2 * ((sumCounts [(JsonType.NUMBER, 2)] : Nat) : Rat)) = 1 := by
    norm_num [pyInt, Rat.mkRat_eq_div, sumCounts]
  refine ⟨?_, ?_, by simp⟩
  · simp +decide [prunePub, h6, pruneRec, pruneSelf, pruneSelfLoop, pruneTypeStep,
      prunePropsFold, pruneItemsRevFold, sortTypes, joinPath, sortedPairs, JsonType.all,
      List.mapM, List.mapM.loop, lookupT, eraseT, setT, hasmatch, type2str,
      List.insertionSort, List.orderedInsert]
  · simp +decide [prunePerNodeFloat, h6, h2, prunePNRec, prunePNProps, prunePNItems, pruneSelf,
      pruneSelfLoop, pruneTypeStep, sortTypes, joinPath, sortedPairs, JsonType.all,
      List.mapM, List.mapM.loop, lookupT, eraseT, setT, hasmatch, type2str,
      List.insertionSort, List.orderedInsert]

/-! ### Claim C8: item visit order in the prune child-step -/

mutual
/-- Modelled from the claim's words (C8): a variant of `_prune` whose items
loop runs in ascending index order (item 0 first), as the claim asserts the
code does.  Everything else is identical to `pruneRec`. -/
def pruneAscRec (reS : String → String → Bool) (s : Schema) (patterns : List String)
    (min_f : Int) : Option (Schema × List String) :=
  match h : pruneSelf s min_f with
  | none => none
  | some (s1, paths) =>
    match pruneAscProps reS patterns min_f (sortedPairs s1.properties)
        s1.properties s1.required paths with
    | none => none
    | some (props', req', paths2) =>
      match pruneAscItems reS patterns min_f s1.items with
      | none => none
      | some (kept, itemPaths) =>
        some (((s1.setPropertiesF props').setRequiredF req').setItemsF kept,
          paths2 ++ itemPaths)
termination_by sizeOf s
decreasing_by
  · rw [sizeOf_sortedPairs]
    rcases pruneSelf_properties h with h' | h' <;> rw [h']
    · exact sizeOf_properties_lt s
    · cases s; simp; omega
  · rcases pruneSelf_items h with h' | h' <;> rw [h']
    · exact sizeOf_items_lt s
    · cases s; simp; omega

def pruneAscProps (reS : String → String → Bool) (patterns : List String) (min_f : Int) :
    List (String × Schema) → List (String × Schema) → Option (List String) →
    List String → Option (List (String × Schema) × Option (List String) × List String)
  | [], props, req, paths => some (props, req, paths)
  | (name, child) :: rest, props, req, paths =>
    match joinPath child.path with
    | none => none
    | some cpath =>
      if hasmatch reS cpath patterns then
        match req with
        | none => none
        | some r =>
          pruneAscProps reS patterns min_f rest (eraseT props name)
            (some (r.filter (fun k => k ≠ name))) (paths ++ [cpath])
      else
        match pruneAscRec reS child patterns min_f with
        | none => none
        | some (child', sub) =>
          if child'.type.isEmpty then
            match req with
            | none => none
            | some r =>
              pruneAscProps reS patterns min_f rest (eraseT props name)
                (some (r.filter (fun k => k ≠ name))) (paths ++ sub)
          else
            pruneAscProps reS patterns min_f rest (setT props name child') req (paths ++ sub)
termination_by pairs _ _ _ => sizeOf pairs
decreasing_by all_goals (simp; try omega)

/-- Ascending item loop (claim's order): the head of the argument is item 0,
processed first. -/
def pruneAscItems (reS : String → String → Bool) (patterns : List String) (min_f : Int) :
    List Schema → Option (List Schema × List String)
  | [] => some ([], [])
  | item :: rest =>
    match joinPath item.path with
    | none => none
    | some ipath =>
      if hasmatch reS ipath patterns then
        match pruneAscItems reS patterns min_f rest with
        | none => none
        | some (keptRest, pathsRest) => some (keptRest, ipath :: pathsRest)
      else
        match pruneAscRec reS item patterns min_f with
        | none => none
        | some (item', sub) =>
          match pruneAscItems reS patterns min_f rest with
          | none => none
          | some (keptRest, pathsRest) =>
            if item'.type.isEmpty then some (keptRest, sub ++ pathsRest)
            else some (item' :: keptRest, sub ++ pathsRest)
termination_by l => sizeOf l
decreasing_by all_goals (simp; try omega)
end

/-- Assemble a `pruneRec` result from evaluated pieces (used to compute
concrete prunes without unfolding the whole recursion at once). -/
theorem pruneRec_eq_of (reS : String → String → Bool) (s : Schema) (patterns : List String)
    (min_f : Int) {s1 : Schema} {paths : List String} {props' req' paths2 kept itemPaths}
    (h1 : pruneSelf s min_f = some (s1, paths))
    (h2 : prunePropsFold reS patterns min_f (sortedPairs s1.properties) s1.properties
      s1.required paths = some (props', req', paths2))
    (h3 : pruneItemsRevFold reS patterns min_f s1.items.reverse = some (kept, itemPaths)) :
    pruneRec reS s patterns min_f =
      some (((s1.setPropertiesF props').setRequiredF req').setItemsF kept,
        paths2 ++ itemPaths) := by
  rw [pruneRec]
  split
  · rename_i heq
    rw [heq] at h1
    exact absurd h1 (by simp)
  · rename_i s1' paths' heq
    rw [heq] at h1
    have hinj : s1' = s1 ∧ paths' = paths := by
      have h := h1
      simp only [Option.some.injEq, Prod.mk.injEq] at h
      exact ⟨h.1, h.2⟩
    obtain ⟨rfl, rfl⟩ := hinj
    simp only [h2, h3]

/-- Same assembly for the claim-modelled ascending variant. -/
theorem pruneAscRec_eq_of (reS : String → String → Bool) (s : Schema) (patterns : List String)
    (min_f : Int) {s1 : Schema} {paths : List String} {props' req' paths2 kept itemPaths}
    (h1 : pruneSelf s min_f = some (s1, paths))
    (h2 : pruneAscProps reS patterns min_f (sortedPairs s1.properties) s1.properties
      s1.required paths = some (props', req', paths2))
    (h3 : pruneAscItems reS patterns min_f s1.items = some (kept, itemPaths)) :
    pruneAscRec reS s patterns min_f =
      some (((s1.setPropertiesF props').setRequiredF req').setItemsF kept,
        paths2 ++ itemPaths) := by
  rw [pruneAscRec]
  split
  · rename_i heq
    rw [heq] at h1
    exact absurd h1 (by simp)
  · rename_i s1' paths' heq
    rw [heq] at h1
    have hinj : s1' = s1 ∧ paths' = paths := by
      have h := h1
      simp only [Option.some.injEq, Prod.mk.injEq] at h
      exact ⟨h.1, h.2⟩
    obtain ⟨rfl, rfl⟩ := hinj
    simp only [h2, h3]

/-- Items of the C8 counterexample node: each holds one sparse type. -/
def i0node : Schema :=
  Schema.mk [Seg.str "root", Seg.str "any"] false [JsonType.BOOLEAN, JsonType.NUMBER] none
    [] [] [(JsonType.BOOLEAN, 1), (JsonType.NUMBER, 5)] [] [] 0 [] 0

def i1node : Schema :=
  Schema.mk [Seg.str "root", Seg.str "any"] false [JsonType.JNULL, JsonType.STRING] none
    [] [] [(JsonType.JNULL, 1), (JsonType.STRING, 5)] [] [] 0 [] 0

def i0pruned : Schema :=
  Schema.mk [Seg.str "root", Seg.str "any"] false [JsonType.NUMBER] none
    [] [] [(JsonType.NUMBER, 5)] [] [] 0 [] 0

def i1pruned : Schema :=
  Schema.mk [Seg.str "root", Seg.str "any"] false [JsonType.STRING] none
    [] [] [(JsonType.STRING, 5)] [] [] 0 [] 0

/-- A two-item shared-mode node (as restorable from a persisted schema
dictionary, where `from_dict` accepts an items list of any length). -/
def twoItemNode : Schema :=
  Schema.mk [Seg.str "root"] false [JsonType.ARRAY] none [] [i0node, i1node]
    [(JsonType.ARRAY, 2)] [] [] 0 [] 0

theorem i1_prune_eval : pruneRec (fun _ _ => false) i1node [] 2 =
    some (i1pruned, ["root:any -> null"]) := by
  simp +decide [i1node, i1pruned, pruneRec, pruneSelf, pruneSelfLoop, pruneTypeStep,
    prunePropsFold, pruneItemsRevFold, sortTypes, joinPath, sortedPairs, JsonType.all,
    List.mapM, List.mapM.loop, lookupT, eraseT, setT, hasmatch, type2str,
    List.insertionSort, List.orderedInsert]

theorem i0_prune_eval : pruneRec (fun _ _ => false) i0node [] 2 =
    some (i0pruned, ["root:any -> boolean"]) := by
  simp +decide [i0node, i0pruned, pruneRec, pruneSelf, pruneSelfLoop, pruneTypeStep,
    prunePropsFold, pruneItemsRevFold, sortTypes, joinPath, sortedPairs, JsonType.all,
    List.mapM, List.mapM.loop, lookupT, eraseT, setT, hasmatch, type2str,
    List.insertionSort, List.orderedInsert]

theorem i1_pruneAsc_eval : pruneAscRec (fun _ _ => false) i1node [] 2 =
    some (i1pruned, ["root:any -> null"]) := by
  simp +decide [i1node, i1pruned, pruneAscRec, pruneSelf, pruneSelfLoop, pruneTypeStep,
    pruneAscProps, pruneAscItems, sortTypes, joinPath, sortedPairs, JsonType.all,
    List.mapM, List.mapM.loop, lookupT, eraseT, setT, hasmatch, type2str,
    List.insertionSort, List.orderedInsert]

theorem i0_pruneAsc_eval : pruneAscRec (fun _ _ => false) i0node [] 2 =
    some (i0pruned, ["root:any -> boolean"]) := by
  simp +decide [i0node, i0pruned, pruneAscRec, pruneSelf, pruneSelfLoop, pruneTypeStep,
    pruneAscProps, pruneAscItems, sortTypes, joinPath, sortedPairs, JsonType.all,
    List.mapM, List.mapM.loop, lookupT, eraseT, setT, hasmatch, type2str,
    List.insertionSort, List.orderedInsert]

theorem twoItem_pruneSelf_eval : pruneSelf twoItemNode 2 = some (twoItemNode, []) := by
  simp +decide [twoItemNode, pruneSelf, pruneSelfLoop, pruneTypeStep, sortTypes,
    joinPath, JsonType.all, List.mapM, List.mapM.loop, lookupT, i0node, i1node]

/-- Counterexample to claim C8 as stated: pruning `twoItemNode` with
`min_f = 2` records item 1's dropped type edge *before* item 0's, because the
items loop runs over `reversed(range(len(items)))`; the claimed ascending
order (modelled by `pruneAscRec`) would record item 0's first. -/
theorem prune_items_order_counterexample :
    (prunePub (fun _ _ => false) twoItemNode [] (MinF.int 2)).map Prod.snd =
      some ["root:any -> null", "root:any -> boolean"] ∧
    (pruneAscRec (fun _ _ => false) twoItemNode [] 2).map Prod.snd =
      some ["root:any -> boolean", "root:any -> null"] ∧
    (some ["root:any -> null", "root:any -> boolean"] : Option (List String)) ≠
      some ["root:any -> boolean", "root:any -> null"] := by
  refine ⟨?_, ?_, by simp⟩
  · have hprops : prunePropsFold (fun _ _ => false) [] 2
        (sortedPairs twoItemNode.properties) twoItemNode.properties twoItemNode.required []
        = some (twoItemNode.properties, twoItemNode.required, []) := by
      simp [twoItemNode, sortedPairs, List.insertionSort, prunePropsFold]
    have hitems : pruneItemsRevFold (fun _ _ => false) [] 2 twoItemNode.items.reverse
        = some ([i0pruned, i1pruned], ["root:any -> null", "root:any -> boolean"]) := by
      have hrev : twoItemNode.items.reverse = [i1node, i0node] := by
        simp [twoItemNode]
      rw [hrev]
      rw [pruneItemsRevFold]
      simp only [show joinPath i1node.path = some "root:any" by
        simp +decide [i1node, joinPath, List.mapM, List.mapM.loop]]
      rw [if_neg (by simp [hasmatch])]
      simp only [i1_prune_eval]
      rw [pruneItemsRevFold]
      simp only [show joinPath i0node.path = some "root:any" by
        simp +decide [i0node, joinPath, List.mapM, List.mapM.loop]]
      rw [if_neg (by simp [hasmatch])]
      simp only [i0_prune_eval]
      rw [pruneItemsRevFold]
      simp +decide [i0pruned, i1pruned]
    show (pruneRec (fun _ _ => false) twoItemNode [] 2).map Prod.snd = _
    rw [pruneRec_eq_of (fun _ _ => false) twoItemNode [] 2 twoItem_pruneSelf_eval
      hprops hitems]
    rfl
  · have hprops : pruneAscProps (fun _ _ => false) [] 2
        (sortedPairs twoItemNode.properties) twoItemNode.properties twoItemNode.required []
        = some (twoItemNode.properties, twoItemNode.required, []) := by
      simp [twoItemNode, sortedPairs, List.insertionSort, pruneAscProps]
    have hitems : pruneAscItems (fun _ _ => false) [] 2 twoItemNode.items
        = some ([i0pruned, i1pruned], ["root:any -> boolean", "root:any -> null"]) := by
      have hit : twoItemNode.items = [i0node, i1node] := by simp [twoItemNode]
      rw [hit]
      rw [pruneAscItems]
      simp only [show joinPath i0node.path = some "root:any" by
        simp +decide [i0node, joinPath, List.mapM, List.mapM.loop]]
      rw [if_neg (by simp [hasmatch])]
      simp only [i0_pruneAsc_eval]
      rw [pruneAscItems]
      simp only [show joinPath i1node.path = some "root:any" by
        simp +decide [i1node, joinPath, List.mapM, List.mapM.loop]]
      rw [if_neg (by simp [hasmatch])]
      simp only [i1_pruneAsc_eval]
      rw [pruneAscItems]
      simp +decide [i0pruned, i1pruned]
    rw [pruneAscRec_eq_of (fun _ _ => false) twoItemNode [] 2 twoItem_pruneSelf_eval
      hprops hitems]
    rfl

/-- Claim C8 (amended): in the prune child-step the item children are visited,
and their recorded dropped paths appended, in *descending* index order (the
loop is `reversed(range(len(items)))`, so the last item comes first); a child
whose path matches a pattern is dropped and recorded without recursing,
otherwise prune recurses and drops the child only if its type set is empty
afterward.  Stated on the item loop (whose argument is the reversed items
list): when every item's path matches some pattern, every item is dropped and
the recorded paths are exactly the items' joined paths in that descending
visit order, with no recursion into any child. -/
theorem prune_items_pattern_drop_descending (reS : String → String → Bool)
    (patterns : List String) (min_f : Int) (itemsRev : List Schema)
    (hall : ∀ it ∈ itemsRev, ∃ p, joinPath it.path = some p ∧
      hasmatch reS p patterns = true) :
    pruneItemsRevFold reS patterns min_f itemsRev =
      some ([], itemsRev.filterMap (fun it => joinPath it.path)) := by
  induction itemsRev with
  | nil => rw [pruneItemsRevFold]; rfl
  | cons item restRev ih =>
    obtain ⟨p, hp, hm⟩ := hall _ (List.mem_cons_self _ _)
    rw [pruneItemsRevFold]
    simp only [hp]
    rw [if_pos hm]
    rw [ih (fun it hit => hall it (List.mem_cons_of_mem _ hit))]
    simp [hp]

/-- Witness for the amended C8: both items of `twoItemNode`, visited from the
last one down, are dropped by a pattern match and recorded in that order. -/
theorem prune_items_pattern_drop_descending_witness :
    (∀ it ∈ twoItemNode.items.reverse, ∃ p, joinPath it.path = some p ∧
      hasmatch (fun pat s => pat = "any" && s = "root:any") p ["any"] = true) ∧
    pruneItemsRevFold (fun pat s => pat = "any" && s = "root:any") ["any"] 2
        twoItemNode.items.reverse =
      some ([], ["root:any", "root:any"]) := by
  have hall : ∀ it ∈ twoItemNode.items.reverse, ∃ p, joinPath it.path = some p ∧
      hasmatch (fun pat s => pat = "any" && s = "root:any") p ["any"] = true := by
    intro it hit
    have hmem : it = i1node ∨ it = i0node := by
      have : twoItemNode.items.reverse = [i1node, i0node] := by simp [twoItemNode]
      rw [this] at hit
      simpa using hit
    refine ⟨"root:any", ?_, by simp [hasmatch]⟩
    rcases hmem with rfl | rfl
    · simp +decide [i1node, joinPath, List.mapM, List.mapM.loop]
    · simp +decide [i0node, joinPath, List.mapM, List.mapM.loop]
  refine ⟨hall, ?_⟩
  rw [prune_items_pattern_drop_descending _ _ _ _ hall]
  have : twoItemNode.items.reverse = [i1node, i0node] := by simp [twoItemNode]
  rw [this]
  simp +decide [i0node, i1node, joinPath, List.mapM, List.mapM.loop]

/-! ### Persistence (`to_dict` / `from_dict`) — claim C3 -/

/-- The `'type'` entry of a schema dictionary: `from_dict` accepts a single
string or a list of strings; `to_dict` always emits a list. -/
inductive TypeRep where
  | single : String → TypeRep
  | multi : List String → TypeRep

/-- The generic key-value representation of one node, with one optional field
per dictionary key that `JsonVectorizer.to_dict`/`from_dict` handle.
`pos` and `n_features` are C ints, so `self.pos is not None` is always true
and `to_dict` always emits them. -/
inductive SchemaDict where
  | mk (tuple_items : Bool)
       (type : Option TypeRep)
       (required : Option (List String))
       (properties : Option (List (String × SchemaDict)))
       (items : Option (SchemaDict ⊕ List SchemaDict))
       (counts : Option (List (String × Nat)))
       (values : Option (List (String × List Json)))
       (pos : Option Int)
       (vectorizers : Option (List (String × Extractor)))
       (feature_names : Option (List String))
       (n_features : Option Int)

mutual
/-- `JsonVectorizer.to_dict` (which first calls `Schema.to_dict`). -/
def toDict (s : Schema) : SchemaDict :=
  match s with
  | Schema.mk p tu ty r pr it c v ve po fn nf =>
    SchemaDict.mk tu
      (if ty.isEmpty then none else some (TypeRep.multi ((sortTypes ty).map type2str)))
      r
      (if pr.isEmpty then none else some (toDictProps pr))
      (if it.isEmpty then none else some (Sum.inr (toDictItems it)))
      (if c.isEmpty then none else some (c.map (fun q => (type2str q.1, q.2))))
      (if v.isEmpty then none else some (v.map (fun q => (type2str q.1, q.2))))
      (some po)
      (if ve.isEmpty then none else some (ve.map (fun q => (type2str q.1, q.2))))
      (if fn.isEmpty then none else some fn)
      (some nf)
termination_by sizeOf s
decreasing_by
  · simp; omega
  · simp; omega

def toDictProps : List (String × Schema) → List (String × SchemaDict)
  | [] => []
  | (k, c) :: rest => (k, toDict c) :: toDictProps rest
termination_by l => sizeOf l
decreasing_by all_goals (simp; try omega)

def toDictItems : List Schema → List SchemaDict
  | [] => []
  | c :: rest => toDict c :: toDictItems rest
termination_by l => sizeOf l
decreasing_by all_goals (simp; try omega)
end

/-- `{str2type(k): v for k, v in ...}` over string-keyed entries; `none` when
a key is not a valid type name. -/
def mapKeysStr2Type {β : Type} : List (String × β) → Option (List (JsonType × β))
  | [] => some []
  | (k, b) :: rest =>
    match str2type k with
    | none => none
    | some t =>
      match mapKeysStr2Type rest with
      | none => none
      | some rest' => some ((t, b) :: rest')

/-- The type-entry restoration of `Schema.from_dict`: add each named type to
the (initially empty) type set. -/
def typesFromRep : TypeRep → Option (List JsonType)
  | TypeRep.single s =>
    match str2type s with
    | none => none
    | some t => some (addType [] t)
  | TypeRep.multi l =>
    l.foldlM (fun acc s =>
      match str2type s with
      | none => none
      | some t => some (addType acc t)) []

/-- Lists have positive size. -/
theorem list_sizeOf_pos {α : Type} [SizeOf α] (l : List α) : 0 < sizeOf l := by
  cases l with
  | nil => simp
  | cons a t => simp

/-- `if 'type' in schema:` — a missing key adds no types. -/
def decodeTypes : Option TypeRep → Option (List JsonType)
  | none => some []
  | some rep => typesFromRep rep

/-- Restoration of a type-keyed dictionary field (`counts`, `values`,
`vectorizers`): a missing key leaves the field empty. -/
def decodeDict {β : Type} : Option (List (String × β)) → Option (List (JsonType × β))
  | none => some []
  | some cl => mapKeysStr2Type cl

mutual
/-- `JsonVectorizer.from_dict` on a freshly constructed node
(`__cinit__` state) at the given path: `Schema.from_dict` restores
`tuple_items`, `type`, `required`, `properties` (via `add_property`) and
`items` (via `add_item`), then the subclass part restores `counts`, `values`,
`pos`, `vectorizers`, `feature_names` and `n_features`.  `none` models the
`ValueError` of `str2type` on an invalid type name. -/
def fromDict (p : List Seg) (d : SchemaDict) : Option Schema :=
  match d with
  | SchemaDict.mk tu ty r pr it c v po ve fn nf =>
    (decodeTypes ty).bind fun tyl =>
    (decodeProps p tu pr).bind fun props =>
    (decodeItems p tu it).bind fun items =>
    (decodeDict c).bind fun counts =>
    (decodeDict v).bind fun values =>
    (decodeDict ve).bind fun vecs =>
    some (Schema.mk p tu tyl r props items counts values vecs
      (po.getD 0) (fn.getD []) (nf.getD 0))
termination_by sizeOf d
decreasing_by all_goals (simp_all; try omega)

/-- `if 'properties' in schema:` — a missing key restores no properties. -/
def decodeProps (p : List Seg) (tu : Bool) :
    Option (List (String × SchemaDict)) → Option (List (String × Schema))
  | none => some []
  | some prd => fromDictProps p tu prd []
termination_by o => sizeOf o
decreasing_by all_goals (simp_all; try omega)

/-- `if 'items' in schema:` — a single dictionary becomes one item, a list
becomes one item per element, a missing key restores no items. -/
def decodeItems (p : List Seg) (tu : Bool) :
    Option (SchemaDict ⊕ List SchemaDict) → Option (List Schema)
  | none => some []
  | some (Sum.inl d1) => (fromDictItem p tu 0 d1).map (fun c1 => [c1])
  | some (Sum.inr l) => fromDictItems p tu 0 l
termination_by o => sizeOf o
decreasing_by all_goals (simp_all; try omega)

/-- `add_property(key, value)` for each entry, threading the property
dictionary being built (`self.properties[name] = ...` — in-place dictionary
assignment): child path is `path + (name,)`; a child dictionary keeps its own
`tuple_items` (`__init__` only supplies the parent's as a default). -/
def fromDictProps (p : List Seg) (tu : Bool) :
    List (String × SchemaDict) → List (String × Schema) → Option (List (String × Schema))
  | [], acc => some acc
  | (k, cd) :: rest, acc =>
    match fromDict (p ++ [Seg.str k]) cd with
    | none => none
    | some child => fromDictProps p tu rest (setT acc k child)
termination_by l _ => sizeOf l
decreasing_by all_goals (simp_all; try omega)

/-- One `add_item(schema)`: the child path segment is the running item index
in tuple mode, else `'any'`. -/
def fromDictItem (p : List Seg) (tu : Bool) (idx : Nat) (d : SchemaDict) : Option Schema :=
  fromDict (p ++ [if tu then Seg.idx idx else Seg.str "any"]) d
termination_by sizeOf d + 1
decreasing_by all_goals (simp_all; try omega)

/-- `for item in schema['items']: self.add_item(item)`. -/
def fromDictItems (p : List Seg) (tu : Bool) (idx : Nat) :
    List SchemaDict → Option (List Schema)
  | [] => some []
  | d1 :: rest =>
    match fromDictItem p tu idx d1 with
    | none => none
    | some c1 =>
      match fromDictItems p tu (idx + 1) rest with
      | none => none
      | some rest' => some (c1 :: rest')
termination_by l => sizeOf l
decreasing_by all_goals (simp_all; try (have hq := list_sizeOf_pos rest; omega))
end

/-- The structural-equality relation of claim C3: identical type sets, counts
maps, required sets, property-name keys and items length, recursively at
every node (paths and transient buffers are not part of the claim). -/
def SameShape (a b : Schema) : Prop :=
  (∀ t, t ∈ a.type ↔ t ∈ b.type) ∧
  (∀ t, lookupT a.counts t = lookupT b.counts t) ∧
  a.required = b.required ∧
  a.properties.map Prod.fst = b.properties.map Prod.fst ∧
  a.items.length = b.items.length ∧
  (∀ pr ∈ a.properties.zip b.properties, SameShape pr.1.2 pr.2.2) ∧
  (∀ pq ∈ a.items.zip b.items, SameShape pq.1 pq.2)
termination_by sizeOf a
decreasing_by
  · rename_i hm
    have h1 := (List.of_mem_zip hm).1
    have h2 := List.sizeOf_lt_of_mem h1
    have h3 := sizeOf_properties_lt a
    have h4 : sizeOf pr.1.2 < sizeOf pr.1 := by
      obtain ⟨x, y⟩ := pr.1
      simp
    have h5 : sizeOf pr.1 ≤ sizeOf pr := by
      obtain ⟨u, w⟩ := pr
      simp
      omega
    omega
  · rename_i hm
    have h1 := (List.of_mem_zip hm).1
    have h2 := List.sizeOf_lt_of_mem h1
    have h3 := sizeOf_items_lt a
    have h4 : sizeOf pq.1 ≤ sizeOf pq := by
      obtain ⟨u, w⟩ := pq
      simp
      omega
    omega

theorem str2type_type2str (t : JsonType) : str2type (type2str t) = some t := by
  cases t <;> rfl

/-- Round-tripping string keys over `type2str`/`str2type` is the identity. -/
theorem mapKeysStr2Type_roundtrip {β : Type} (l : List (JsonType × β)) :
    mapKeysStr2Type (l.map (fun q => (type2str q.1, q.2))) = some l := by
  induction l with
  | nil => rfl
  | cons q rest ih =>
    obtain ⟨t, b⟩ := q
    simp only [List.map_cons, mapKeysStr2Type, str2type_type2str, ih]

theorem mem_all (t : JsonType) : t ∈ JsonType.all := by cases t <;> decide

theorem mem_sortTypes {t : JsonType} {l : List JsonType} : t ∈ sortTypes l ↔ t ∈ l := by
  simp [sortTypes, mem_all]

theorem mem_foldl_addType (l : List JsonType) :
    ∀ (acc : List JsonType) (x : JsonType),
      x ∈ l.foldl addType acc ↔ x ∈ acc ∨ x ∈ l := by
  induction l with
  | nil => simp
  | cons t rest ih =>
    intro acc x
    rw [List.foldl_cons, ih]
    unfold addType
    split
    · constructor
      · rintro (h | h)
        · exact Or.inl h
        · exact Or.inr (List.mem_cons_of_mem _ h)
      · rintro (h | h)
        · exact Or.inl h
        · rcases List.mem_cons.mp h with rfl | h
          · rename_i hmem
            exact Or.inl hmem
          · exact Or.inr h
    · simp only [List.mem_append, List.mem_singleton, List.mem_cons]
      tauto

/-- Restoring the emitted type list yields the same type set. -/
theorem typesFromRep_roundtrip (ty : List JsonType) :
    ∃ tyl, typesFromRep (TypeRep.multi ((sortTypes ty).map type2str)) = some tyl ∧
      ∀ t, t ∈ tyl ↔ t ∈ ty := by
  have key : ∀ (l : List JsonType) (acc : List JsonType),
      (l.map type2str).foldlM (fun acc s =>
        match str2type s with
        | none => none
        | some t => some (addType acc t)) acc = some (l.foldl addType acc) := by
    intro l
    induction l with
    | nil => intro acc; rfl
    | cons t rest ih =>
      intro acc
      simp only [List.map_cons, List.foldlM_cons, str2type_type2str]
      exact ih (addType acc t)
  refine ⟨(sortTypes ty).foldl addType [], key (sortTypes ty) [], fun t => ?_⟩
  rw [mem_foldl_addType]
  simp [mem_sortTypes]

/-! ### Invariants of trees built by `extend` -/

/-- Strong induction over JSON documents. -/
theorem jsonIndOn {P : Json → Prop}
    (hobj : ∀ kvs, (∀ kv ∈ kvs, P kv.2) → P (Json.obj kvs))
    (harr : ∀ elts, (∀ e ∈ elts, P e) → P (Json.arr elts))
    (hnull : P Json.null) (hbool : ∀ b, P (Json.bool b))
    (hint : ∀ n, P (Json.int n)) (hfloat : ∀ q, P (Json.float q))
    (hstr : ∀ v, P (Json.str v)) : ∀ d, P d := by
  suffices h : ∀ n (d : Json), sizeOf d < n → P d from
    fun d => h (sizeOf d + 1) d (by omega)
  intro n
  induction n with
  | zero => intro d h; omega
  | succ n ih =>
    intro d hd
    cases d with
    | obj kvs =>
      refine hobj kvs (fun kv hkv => ih _ ?_)
      have h1 := List.sizeOf_lt_of_mem hkv
      have h2 : sizeOf kv.2 < sizeOf kv := by obtain ⟨a, b⟩ := kv; simp
      simp at hd
      omega
    | arr elts =>
      refine harr elts (fun e he => ih _ ?_)
      have h1 := List.sizeOf_lt_of_mem he
      simp at hd
      omega
    | null => exact hnull
    | bool b => exact hbool b
    | int m => exact hint m
    | float q => exact hfloat q
    | str v => exact hstr v

mutual
/-- The invariant every tree built by `extend` satisfies: unique property
keys and empty feature-name buffers, recursively (features are only written
by `fit`). -/
def learnedInv (s : Schema) : Bool :=
  decide ((s.properties.map Prod.fst).Nodup) && s.feature_names.isEmpty
    && learnedInvProps s.properties && learnedInvItems s.items
termination_by sizeOf s
decreasing_by
  all_goals first
    | exact sizeOf_properties_lt s
    | exact sizeOf_items_lt s

def learnedInvProps : List (String × Schema) → Bool
  | [] => true
  | (_, c) :: rest => learnedInv c && learnedInvProps rest
termination_by l => sizeOf l
decreasing_by all_goals (simp; try omega)

def learnedInvItems : List Schema → Bool
  | [] => true
  | c :: rest => learnedInv c && learnedInvItems rest
termination_by l => sizeOf l
decreasing_by all_goals (simp; try omega)
end

theorem learnedInvProps_iff (l : List (String × Schema)) :
    learnedInvProps l = true ↔ ∀ pr ∈ l, learnedInv pr.2 = true := by
  induction l with
  | nil => simp [learnedInvProps]
  | cons pr rest ih =>
    obtain ⟨k, c⟩ := pr
    rw [learnedInvProps]
    simp only [Bool.and_eq_true, ih]
    constructor
    · rintro ⟨h1, h2⟩ pr' hpr'
      rcases List.mem_cons.mp hpr' with rfl | hm
      · exact h1
      · exact h2 pr' hm
    · intro h
      exact ⟨h _ (List.mem_cons_self _ _), fun pr' hm => h pr' (List.mem_cons_of_mem _ hm)⟩

theorem learnedInvItems_iff (l : List Schema) :
    learnedInvItems l = true ↔ ∀ it ∈ l, learnedInv it = true := by
  induction l with
  | nil => simp [learnedInvItems]
  | cons c rest ih =>
    rw [learnedInvItems]
    simp only [Bool.and_eq_true, ih]
    constructor
    · rintro ⟨h1, h2⟩ it hit
      rcases List.mem_cons.mp hit with rfl | hm
      · exact h1
      · exact h2 it hm
    · intro h
      exact ⟨h _ (List.mem_cons_self _ _), fun it hm => h it (List.mem_cons_of_mem _ hm)⟩

theorem learnedInv_iff (s : Schema) :
    learnedInv s = true ↔
      ((s.properties.map Prod.fst).Nodup ∧ s.feature_names = [] ∧
       (∀ pr ∈ s.properties, learnedInv pr.2 = true) ∧
       (∀ it ∈ s.items, learnedInv it = true)) := by
  rw [learnedInv]
  simp [learnedInvProps_iff, learnedInvItems_iff, List.isEmpty_iff, and_assoc]

theorem learnedInv_empty (p : List Seg) (tu : Bool) :
    learnedInv (emptySchema p tu) = true := by
  rw [learnedInv_iff]
  simp [emptySchema]

theorem lookupT_mem {κ β : Type} [DecidableEq κ] {l : List (κ × β)} {k : κ} {c : β}
    (h : lookupT l k = some c) : (k, c) ∈ l := by
  induction l with
  | nil => simp [lookupT] at h
  | cons p rest ih =>
    obtain ⟨k', b'⟩ := p
    rw [lookupT] at h
    split at h
    · cases h
      rename_i hk
      subst hk
      exact List.mem_cons_self _ _
    · exact List.mem_cons_of_mem _ (ih h)

theorem mem_setT {κ β : Type} [DecidableEq κ] {l : List (κ × β)} {k : κ} {c : β} {x : κ × β}
    (h : x ∈ setT l k c) : x = (k, c) ∨ x ∈ l := by
  induction l with
  | nil => simpa [setT] using h
  | cons p rest ih =>
    obtain ⟨k', b'⟩ := p
    rw [setT] at h
    split at h
    · rcases List.mem_cons.mp h with rfl | hm
      · exact Or.inl rfl
      · exact Or.inr (List.mem_cons_of_mem _ hm)
    · rcases List.mem_cons.mp h with rfl | hm
      · exact Or.inr (List.mem_cons_self _ _)
      · rcases ih hm with h' | h'
        · exact Or.inl h'
        · exact Or.inr (List.mem_cons_of_mem _ h')

theorem keys_setT {κ β : Type} [DecidableEq κ] (l : List (κ × β)) (k : κ) (c : β) :
    (setT l k c).map Prod.fst =
      if k ∈ l.map Prod.fst then l.map Prod.fst else l.map Prod.fst ++ [k] := by
  induction l with
  | nil => simp [setT]
  | cons p rest ih =>
    obtain ⟨k', b'⟩ := p
    rw [setT]
    by_cases hk : k' = k
    · subst hk
      simp
    · rw [if_neg hk]
      simp only [List.map_cons, ih]
      by_cases hm : k ∈ rest.map Prod.fst
      · rw [if_pos hm, if_pos (by simp [hm])]
      · rw [if_neg hm, if_neg (by simp [hm, Ne.symm hk])]
        simp

theorem getD_mem_or {α : Type} (l : List α) (i : Nat) (d : α) :
    l.getD i d ∈ l ∨ l.getD i d = d := by
  rcases Nat.lt_or_ge i l.length with h | h
  · left
    rw [List.getD_eq_getElem l d h]
    exact List.getElem_mem h
  · right
    rw [List.getD_eq_getElem?_getD, List.getElem?_eq_none (by omega)]
    rfl

theorem learnedInv_setProp {s : Schema} {k : String} {c : Schema}
    (hs : learnedInv s = true) (hc : learnedInv c = true) :
    learnedInv (s.setProp k c) = true := by
  obtain ⟨hnd, hfn, hprops, hitems⟩ := (learnedInv_iff s).mp hs
  rw [learnedInv_iff]
  cases s with
  | mk p tu ty r pr it cs v ve po fn nf =>
    simp only [Schema.setProp_mk, Schema.properties_mk, Schema.feature_names_mk,
      Schema.items_mk] at *
    refine ⟨?_, hfn, ?_, hitems⟩
    · rw [keys_setT]
      split
      · exact hnd
      · exact List.Nodup.append hnd (by simp) (by simpa using fun hmem => by simp_all)
    · intro pr' hpr'
      rcases mem_setT hpr' with rfl | hm
      · exact hc
      · exact hprops pr' hm

theorem learnedInv_setItem {s : Schema} {i : Nat} {c : Schema}
    (hs : learnedInv s = true) (hc : learnedInv c = true) :
    learnedInv (s.setItem i c) = true := by
  obtain ⟨hnd, hfn, hprops, hitems⟩ := (learnedInv_iff s).mp hs
  rw [learnedInv_iff]
  cases s with
  | mk p tu ty r pr it cs v ve po fn nf =>
    simp only [Schema.setItem_mk, Schema.properties_mk, Schema.feature_names_mk,
      Schema.items_mk] at *
    refine ⟨hnd, hfn, hprops, ?_⟩
    intro it' hit'
    rcases List.mem_or_eq_of_mem_set hit' with hm | rfl
    · exact hitems it' hm
    · exact hc

theorem lookupT_none_not_mem {κ β : Type} [DecidableEq κ] {l : List (κ × β)} {k : κ}
    (h : lookupT l k = none) : k ∉ l.map Prod.fst := by
  induction l with
  | nil => simp
  | cons p rest ih =>
    obtain ⟨k', b'⟩ := p
    rw [lookupT] at h
    split at h
    · simp at h
    · rename_i hk
      simp only [List.map_cons, List.mem_cons]
      rintro (rfl | hm)
      · exact hk rfl
      · exact ih h hm

theorem learnedInv_addPropertyEmpty {s : Schema} {k : String}
    (hs : learnedInv s = true) (hfresh : lookupT s.properties k = none) :
    learnedInv (s.addPropertyEmpty k) = true := by
  obtain ⟨hnd, hfn, hprops, hitems⟩ := (learnedInv_iff s).mp hs
  have hkmem : k ∉ s.properties.map Prod.fst := lookupT_none_not_mem hfresh
  rw [learnedInv_iff]
  cases s with
  | mk p tu ty r pr it cs v ve po fn nf =>
    simp only [Schema.addPropertyEmpty_mk, Schema.properties_mk, Schema.feature_names_mk,
      Schema.items_mk] at *
    refine ⟨?_, hfn, ?_, hitems⟩
    · rw [keys_setT, if_neg hkmem]
      refine List.Nodup.append hnd (List.nodup_singleton k) ?_
      intro a ha hb
      rw [List.mem_singleton.mp hb] at ha
      exact hkmem ha
    · intro pr' hpr'
      rcases mem_setT hpr' with rfl | hm
      · exact learnedInv_empty _ _
      · exact hprops pr' hm

theorem learnedInv_addItemEmpty {s : Schema} (hs : learnedInv s = true) :
    learnedInv s.addItemEmpty = true := by
  obtain ⟨hnd, hfn, hprops, hitems⟩ := (learnedInv_iff s).mp hs
  rw [learnedInv_iff]
  cases s with
  | mk p tu ty r pr it cs v ve po fn nf =>
    simp only [Schema.addItemEmpty_mk, Schema.properties_mk, Schema.feature_names_mk,
      Schema.items_mk] at *
    refine ⟨hnd, hfn, hprops, ?_⟩
    intro it' hit'
    rcases List.mem_append.mp hit' with hm | hm
    · exact hitems it' hm
    · rw [List.mem_singleton.mp hm]
      exact learnedInv_empty _ _

theorem learnedInv_growItems {s : Schema} (n : Nat) (hs : learnedInv s = true) :
    learnedInv (s.growItems n) = true := by
  unfold Schema.growItems
  split
  · exact learnedInv_growItems n (learnedInv_addItemEmpty hs)
  · exact hs
termination_by n - s.items.length
decreasing_by simp only [Schema.items_addItemEmpty, List.length_append, List.length_singleton]; omega

/-- The plain-field updates do not touch the invariant. -/
theorem learnedInv_fields {s : Schema} (hs : learnedInv s = true) :
    (∀ ty, learnedInv (s.setTypeF ty) = true) ∧
    (∀ r, learnedInv (s.setRequiredF r) = true) ∧
    (∀ c, learnedInv (s.setCountsF c) = true) ∧
    (∀ v, learnedInv (s.setValuesF v) = true) := by
  obtain ⟨hnd, hfn, hprops, hitems⟩ := (learnedInv_iff s).mp hs
  cases s with
  | mk p tu ty0 r0 pr it cs v0 ve po fn nf =>
    simp only [Schema.properties_mk, Schema.feature_names_mk, Schema.items_mk] at *
    refine ⟨fun ty => ?_, fun r => ?_, fun c => ?_, fun v => ?_⟩ <;>
      (rw [learnedInv_iff]; simp only [Schema.setTypeF_mk, Schema.setRequiredF_mk,
        Schema.setCountsF_mk, Schema.setValuesF_mk, Schema.properties_mk,
        Schema.feature_names_mk, Schema.items_mk]; exact ⟨hnd, hfn, hprops, hitems⟩)

theorem learnedInv_extendSelf {s : Schema} (d : Json) (t : JsonType)
    (hs : learnedInv s = true) : learnedInv (s.extendSelf d t) = true := by
  have hfold : ∀ (kvs : List (String × Json)) (x : Schema), learnedInv x = true →
      learnedInv (kvs.foldl (fun acc kv => if (lookupT acc.properties kv.1).isSome then acc
        else acc.addPropertyEmpty kv.1) x) = true := by
    intro kvs
    induction kvs with
    | nil => intro x hx; exact hx
    | cons kv rest ih =>
      intro x hx
      rw [List.foldl_cons]
      apply ih
      split
      · exact hx
      · rename_i hfresh
        exact learnedInv_addPropertyEmpty hx (Option.not_isSome_iff_eq_none.mp hfresh)
  have h1 := (learnedInv_fields hs).1 (addType s.type t)
  unfold Schema.extendSelf
  simp only []
  split
  · split
    · split
      · exact (learnedInv_fields ((learnedInv_fields
          ((learnedInv_fields (hfold _ _ h1)).2.1 _)).2.2.1 _)).2.2.2 _
      · exact (learnedInv_fields ((learnedInv_fields h1).2.2.1 _)).2.2.2 _
    · split
      · split
        · split
          · exact (learnedInv_fields ((learnedInv_fields
              (learnedInv_growItems _ h1)).2.2.1 _)).2.2.2 _
          · split
            · exact (learnedInv_fields ((learnedInv_fields
                (learnedInv_addItemEmpty h1)).2.2.1 _)).2.2.2 _
            · exact (learnedInv_fields ((learnedInv_fields h1).2.2.1 _)).2.2.2 _
        · exact (learnedInv_fields ((learnedInv_fields h1).2.2.1 _)).2.2.2 _
      · exact (learnedInv_fields ((learnedInv_fields h1).2.2.1 _)).2.2.2 _
  · split
    · split
      · exact (learnedInv_fields
          ((learnedInv_fields (hfold _ _ h1)).2.1 _)).2.2.1 _
      · exact (learnedInv_fields h1).2.2.1 _
    · split
      · split
        · split
          · exact (learnedInv_fields (learnedInv_growItems _ h1)).2.2.1 _
          · split
            · exact (learnedInv_fields (learnedInv_addItemEmpty h1)).2.2.1 _
            · exact (learnedInv_fields h1).2.2.1 _
        · exact (learnedInv_fields h1).2.2.1 _
      · exact (learnedInv_fields h1).2.2.1 _

/-- The property child fetched during object recursion satisfies the
invariant (it is either a stored child or the never-used lookup default). -/
theorem learnedInv_childLookup {s : Schema} (k : String) (hs : learnedInv s = true) :
    learnedInv ((lookupT s.properties k).getD (emptySchema [] false)) = true := by
  rcases h : lookupT s.properties k with _ | c
  · exact learnedInv_empty _ _
  · exact ((learnedInv_iff s).mp hs).2.2.1 (k, c) (lookupT_mem h)

theorem learnedInv_itemLookup {s : Schema} (i : Nat) (hs : learnedInv s = true) :
    learnedInv (s.items.getD i (emptySchema [] false)) = true := by
  rcases getD_mem_or s.items i (emptySchema [] false) with h | h
  · exact ((learnedInv_iff s).mp hs).2.2.2 _ h
  · rw [h]
    exact learnedInv_empty _ _

theorem learnedInv_extendJ : ∀ (d : Json) (s : Schema), learnedInv s = true →
    learnedInv (extendJ s d) = true := by
  have hobjFold : ∀ (kvs : List (String × Json)),
      (∀ kv ∈ kvs, ∀ s', learnedInv s' = true → learnedInv (extendJ s' kv.2) = true) →
      ∀ s, learnedInv s = true → learnedInv (extendObj s kvs) = true := by
    intro kvs
    induction kvs with
    | nil =>
      intro _ s hsv
      rw [extendObj]
      exact hsv
    | cons kv rest ih =>
      intro hrec s hsv
      obtain ⟨k, v⟩ := kv
      rw [extendObj]
      apply ih (fun kv' hkv' => hrec kv' (List.mem_cons_of_mem _ hkv'))
      exact learnedInv_setProp hsv
        (hrec (k, v) (List.mem_cons_self _ _) _ (learnedInv_childLookup k hsv))
  have htupFold : ∀ (elts : List Json),
      (∀ e ∈ elts, ∀ s', learnedInv s' = true → learnedInv (extendJ s' e) = true) →
      ∀ s i, learnedInv s = true → learnedInv (extendArrTuple s elts i) = true := by
    intro elts
    induction elts with
    | nil =>
      intro _ s i hsv
      rw [extendArrTuple]
      exact hsv
    | cons e rest ih =>
      intro hrec s i hsv
      rw [extendArrTuple]
      apply ih (fun e' he' => hrec e' (List.mem_cons_of_mem _ he'))
      exact learnedInv_setItem hsv
        (hrec e (List.mem_cons_self _ _) _ (learnedInv_itemLookup i hsv))
  have hshFold : ∀ (elts : List Json),
      (∀ e ∈ elts, ∀ s', learnedInv s' = true → learnedInv (extendJ s' e) = true) →
      ∀ s, learnedInv s = true → learnedInv (extendArrShared s elts) = true := by
    intro elts
    induction elts with
    | nil =>
      intro _ s hsv
      rw [extendArrShared]
      exact hsv
    | cons e rest ih =>
      intro hrec s hsv
      rw [extendArrShared]
      apply ih (fun e' he' => hrec e' (List.mem_cons_of_mem _ he'))
      exact learnedInv_setItem hsv
        (hrec e (List.mem_cons_self _ _) _ (learnedInv_itemLookup 0 hsv))
  intro d
  induction d using jsonIndOn with
  | hobj kvs ihkv =>
    intro s hsv
    rw [extendJ]
    exact hobjFold kvs (fun kv hkv s' hs' => ihkv kv hkv s' hs') _
      (learnedInv_extendSelf _ _ hsv)
  | harr elts ihe =>
    intro s hsv
    rw [extendJ]
    split
    · exact htupFold elts (fun e he s' hs' => ihe e he s' hs') _ 0
        (learnedInv_extendSelf _ _ hsv)
    · exact hshFold elts (fun e he s' hs' => ihe e he s' hs') _
        (learnedInv_extendSelf _ _ hsv)
  | hnull =>
    intro s hsv
    rw [extendJ]
    · exact learnedInv_extendSelf _ _ hsv
    · intro _ h; exact Json.noConfusion h
    · intro _ h; exact Json.noConfusion h
  | hbool b =>
    intro s hsv
    rw [extendJ]
    · exact learnedInv_extendSelf _ _ hsv
    · intro _ h; exact Json.noConfusion h
    · intro _ h; exact Json.noConfusion h
  | hint n =>
    intro s hsv
    rw [extendJ]
    · exact learnedInv_extendSelf _ _ hsv
    · intro _ h; exact Json.noConfusion h
    · intro _ h; exact Json.noConfusion h
  | hfloat q =>
    intro s hsv
    rw [extendJ]
    · exact learnedInv_extendSelf _ _ hsv
    · intro _ h; exact Json.noConfusion h
    · intro _ h; exact Json.noConfusion h
  | hstr v =>
    intro s hsv
    rw [extendJ]
    · exact learnedInv_extendSelf _ _ hsv
    · intro _ h; exact Json.noConfusion h
    · intro _ h; exact Json.noConfusion h

/-- Every schema learned by `extend` from a fresh root satisfies the
invariant. -/
theorem learnedInv_extendAll (docs : List Json) :
    ∀ s : Schema, learnedInv s = true → learnedInv (extendAll s docs) = true := by
  induction docs with
  | nil => intro s h; exact h
  | cons d rest ih =>
    intro s h
    have : extendAll s (d :: rest) = extendAll (extendJ s d) rest := by simp [extendAll]
    rw [this]
    exact ih _ (learnedInv_extendJ d s h)

theorem setT_append_fresh {κ β : Type} [DecidableEq κ] {l : List (κ × β)} {k : κ} (c : β)
    (h : k ∉ l.map Prod.fst) : setT l k c = l ++ [(k, c)] := by
  induction l with
  | nil => rfl
  | cons p rest ih =>
    obtain ⟨k', b'⟩ := p
    simp only [List.map_cons, List.mem_cons] at h
    push_neg at h
    rw [setT, if_neg (fun he => h.1 he.symm), ih h.2]
    rfl

theorem forall2_keys {l1 l2 : List (String × Schema)}
    (h : List.Forall₂ (fun (a b : String × Schema) => a.1 = b.1 ∧ SameShape a.2 b.2) l1 l2) :
    l1.map Prod.fst = l2.map Prod.fst := by
  induction h with
  | nil => rfl
  | cons hab _ ih => simp [hab.1, ih]

/-- Item lists round-trip pointwise. -/
theorem fromDictItems_rt (tu : Bool) :
    ∀ (its : List Schema) (q : List Seg) (idx : Nat),
      (∀ e ∈ its, ∀ q', ∃ c', fromDict q' (toDict e) = some c' ∧ SameShape e c') →
      ∃ its', fromDictItems q tu idx (toDictItems its) = some its' ∧
        List.Forall₂ SameShape its its' := by
  intro its
  induction its with
  | nil =>
    intro q idx _
    rw [toDictItems, fromDictItems]
    exact ⟨[], rfl, List.Forall₂.nil⟩
  | cons e rest ih =>
    intro q idx hall
    obtain ⟨c', hc', hss⟩ := hall e (List.mem_cons_self _ _)
      (q ++ [if tu then Seg.idx idx else Seg.str "any"])
    obtain ⟨rest', hrest', hss2⟩ := ih q (idx + 1)
      (fun e' he' => hall e' (List.mem_cons_of_mem _ he'))
    refine ⟨c' :: rest', ?_, List.Forall₂.cons hss hss2⟩
    rw [toDictItems, fromDictItems, fromDictItem]
    simp only [hc', hrest']

/-- Property lists round-trip pointwise, preserving key order. -/
theorem fromDictProps_rt (tu : Bool) :
    ∀ (prs : List (String × Schema)) (q : List Seg) (acc : List (String × Schema)),
      (∀ k ∈ prs.map Prod.fst, k ∉ acc.map Prod.fst) →
      (prs.map Prod.fst).Nodup →
      (∀ pe ∈ prs, ∀ q', ∃ c', fromDict q' (toDict pe.2) = some c' ∧ SameShape pe.2 c') →
      ∃ new, fromDictProps q tu (toDictProps prs) acc = some (acc ++ new) ∧
        List.Forall₂ (fun (a b : String × Schema) => a.1 = b.1 ∧ SameShape a.2 b.2) prs new := by
  intro prs
  induction prs with
  | nil =>
    intro q acc _ _ _
    rw [toDictProps, fromDictProps]
    exact ⟨[], by simp, List.Forall₂.nil⟩
  | cons pe rest ih =>
    intro q acc hdisj hnd hall
    obtain ⟨k, c⟩ := pe
    obtain ⟨c', hc', hss⟩ := hall (k, c) (List.mem_cons_self _ _) (q ++ [Seg.str k])
    have hkacc : k ∉ acc.map Prod.fst := hdisj k (by simp)
    have hnd' : (∀ x : Schema, (k, x) ∉ rest) ∧ (rest.map Prod.fst).Nodup := by
      simpa using hnd
    obtain ⟨new, hnew, hss2⟩ := ih q (acc ++ [(k, c')])
      (fun k' hk' => by
        simp only [List.map_append, List.mem_append, List.map_cons, List.map_nil,
          List.mem_singleton]
        push_neg
        refine ⟨hdisj k' (by simp [hk']), ?_⟩
        intro heq
        subst heq
        obtain ⟨⟨k2, x⟩, hmx, hfx⟩ := List.mem_map.mp hk'
        cases hfx
        exact hnd'.1 x hmx)
      hnd'.2
      (fun pe' hpe' => hall pe' (List.mem_cons_of_mem _ hpe'))
    refine ⟨(k, c') :: new, ?_, List.Forall₂.cons ⟨rfl, hss⟩ hss2⟩
    rw [toDictProps, fromDictProps]
    simp only [hc']
    rw [setT_append_fresh c' hkacc]
    rw [hnew]
    simp

theorem stage_types (ty : List JsonType) :
    ∃ tyl, decodeTypes (if ty.isEmpty then none
        else some (TypeRep.multi ((sortTypes ty).map type2str))) = some tyl ∧
      (∀ t, t ∈ tyl ↔ t ∈ ty) := by
  by_cases hty : ty.isEmpty
  · rw [if_pos hty]
    exact ⟨[], rfl, by simp [List.isEmpty_iff.mp hty]⟩
  · rw [if_neg hty, decodeTypes]
    obtain ⟨tyl, h1, h2⟩ := typesFromRep_roundtrip ty
    exact ⟨tyl, h1, h2⟩

theorem stage_dict {β : Type} (c : List (JsonType × β)) :
    decodeDict (if c.isEmpty then none
        else some (c.map (fun q => (type2str q.1, q.2)))) = some c := by
  by_cases hc : c.isEmpty
  · rw [if_pos hc, List.isEmpty_iff.mp hc]
    rfl
  · rw [if_neg hc, decodeDict]
    exact mapKeysStr2Type_roundtrip c

theorem stage_fn (fn : List String) :
    ((if fn.isEmpty then none else some fn : Option (List String)).getD []) = fn := by
  by_cases hfn : fn.isEmpty
  · rw [if_pos hfn, List.isEmpty_iff.mp hfn]
    rfl
  · rw [if_neg hfn]
    rfl

theorem stage_props (tu : Bool) (pr : List (String × Schema)) (q : List Seg)
    (hnd : (pr.map Prod.fst).Nodup)
    (hall : ∀ pe ∈ pr, ∀ q', ∃ c', fromDict q' (toDict pe.2) = some c' ∧ SameShape pe.2 c') :
    ∃ props', decodeProps q tu (if pr.isEmpty then none
        else some (toDictProps pr)) = some props' ∧
      props'.map Prod.fst = pr.map Prod.fst ∧
      (∀ x ∈ pr.zip props', SameShape x.1.2 x.2.2) := by
  by_cases hpr : pr.isEmpty
  · rw [if_pos hpr, List.isEmpty_iff.mp hpr, decodeProps]
    exact ⟨[], rfl, rfl, by simp⟩
  · rw [if_neg hpr, decodeProps]
    obtain ⟨new, h1, h2⟩ := fromDictProps_rt tu pr q [] (by simp) hnd hall
    refine ⟨new, by simpa using h1, (forall2_keys h2).symm, fun x hx => ?_⟩
    obtain ⟨a, b⟩ := x
    exact ((List.forall₂_iff_zip.mp h2).2 hx).2

theorem stage_items (tu : Bool) (it : List Schema) (q : List Seg)
    (hall : ∀ e ∈ it, ∀ q', ∃ c', fromDict q' (toDict e) = some c' ∧ SameShape e c') :
    ∃ items', decodeItems q tu (if it.isEmpty then none
        else some (Sum.inr (toDictItems it))) = some items' ∧
      items'.length = it.length ∧
      (∀ x ∈ it.zip items', SameShape x.1 x.2) := by
  by_cases hit : it.isEmpty
  · rw [if_pos hit, List.isEmpty_iff.mp hit, decodeItems]
    exact ⟨[], rfl, rfl, by simp⟩
  · rw [if_neg hit, decodeItems]
    obtain ⟨its', h1, h2⟩ := fromDictItems_rt tu it q 0 hall
    refine ⟨its', h1, h2.length_eq.symm, fun x hx => ?_⟩
    obtain ⟨a, b⟩ := x
    exact (List.forall₂_iff_zip.mp h2).2 hx

/-- The round trip `from_dict(to_dict(node))` preserves the claim-C3 shape on
any tree with unique property keys, at an arbitrary restoration path. -/
theorem roundtrip_sameShape : ∀ s : Schema, learnedInv s = true →
    ∀ q : List Seg, ∃ s', fromDict q (toDict s) = some s' ∧ SameShape s s' := by
  apply schemaIndOn (P := fun s => learnedInv s = true →
    ∀ q, ∃ s', fromDict q (toDict s) = some s' ∧ SameShape s s')
  intro s ihp ihi hinv q
  obtain ⟨hnd, hfn, hIprops, hIitems⟩ := (learnedInv_iff s).mp hinv
  have hchildP : ∀ pe ∈ s.properties, ∀ q', ∃ c', fromDict q' (toDict pe.2) = some c' ∧
      SameShape pe.2 c' := fun pe hpe q' => ihp pe hpe (hIprops pe hpe) q'
  have hchildI : ∀ e ∈ s.items, ∀ q', ∃ c', fromDict q' (toDict e) = some c' ∧
      SameShape e c' := fun e he q' => ihi e he (hIitems e he) q'
  cases s with
  | mk p tu ty r pr it c v ve po fn nf =>
    simp only [Schema.properties_mk, Schema.items_mk,
      Schema.feature_names_mk] at hnd hfn hchildP hchildI
    obtain ⟨tyl, hty, htymem⟩ := stage_types ty
    obtain ⟨props', hprs, hkeys, hzipP⟩ := stage_props tu pr q hnd hchildP
    obtain ⟨items', hits, hlen, hzipI⟩ := stage_items tu it q hchildI
    have hc := stage_dict c
    have hv := stage_dict v
    have hve := stage_dict ve
    refine ⟨Schema.mk q tu tyl r props' items' c v ve po fn nf, ?_, ?_⟩
    · rw [toDict, fromDict]
      rw [hty, hprs, hits, hc, hv, hve]
      simp only [Option.some_bind, stage_fn, Option.getD_some]
    · rw [SameShape]
      refine ⟨?_, ?_, ?_, ?_, ?_, ?_, ?_⟩
      · intro t
        simpa using (htymem t).symm
      · intro t
        rfl
      · rfl
      · simpa using hkeys.symm
      · simpa using hlen.symm
      · intro x hx
        exact hzipP x (by simpa using hx)
      · intro x hx
        exact hzipI x (by simpa using hx)

/-- Claim C3: for every node tree built by `extend` over a finite list of
documents (any `tuple_items` mode), `from_dict(to_dict(node))` succeeds and
reproduces a tree with identical type sets, identical counts maps, identical
required sets, identical property-name keys, and identical items length at
every node of the tree. -/
theorem to_dict_from_dict_roundtrip (tup : Bool) (docs : List Json) :
    ∃ s', fromDict (extendAll (emptySchema [Seg.str "root"] tup) docs).path
        (toDict (extendAll (emptySchema [Seg.str "root"] tup) docs)) = some s' ∧
      SameShape (extendAll (emptySchema [Seg.str "root"] tup) docs) s' := by
  exact roundtrip_sameShape _
    (learnedInv_extendAll docs _ (learnedInv_empty [Seg.str "root"] tup)) _

/-! ### Fitting (`JsonVectorizer._fit_self`, `_fit`, `feature_names_`, `fit`) -/

/-- Field update helpers for the fit phase (in-place attribute assignment). -/
def Schema.setPosF : Schema → Int → Schema
  | Schema.mk p tu ty r pr it c v ve _ fn nf, po => Schema.mk p tu ty r pr it c v ve po fn nf

def Schema.setFeatureNamesF : Schema → List String → Schema
  | Schema.mk p tu ty r pr it c v ve po _ nf, fn => Schema.mk p tu ty r pr it c v ve po fn nf

def Schema.setVectorizersF : Schema → List (JsonType × Extractor) → Schema
  | Schema.mk p tu ty r pr it c v _ po fn nf, ve => Schema.mk p tu ty r pr it c v ve po fn nf

def Schema.setNFeaturesF : Schema → Int → Schema
  | Schema.mk p tu ty r pr it c v ve po fn _, nf => Schema.mk p tu ty r pr it c v ve po fn nf

@[simp] theorem Schema.setPosF_mk (p tu ty r pr it c v ve po fn nf po2) :
    (Schema.mk p tu ty r pr it c v ve po fn nf).setPosF po2 =
      Schema.mk p tu ty r pr it c v ve po2 fn nf := rfl
@[simp] theorem Schema.setFeatureNamesF_mk (p tu ty r pr it c v ve po fn nf fn2) :
    (Schema.mk p tu ty r pr it c v ve po fn nf).setFeatureNamesF fn2 =
      Schema.mk p tu ty r pr it c v ve po fn2 nf := rfl
@[simp] theorem Schema.setVectorizersF_mk (p tu ty r pr it c v ve po fn nf ve2) :
    (Schema.mk p tu ty r pr it c v ve po fn nf).setVectorizersF ve2 =
      Schema.mk p tu ty r pr it c v ve2 po fn nf := rfl
@[simp] theorem Schema.setNFeaturesF_mk (p tu ty r pr it c v ve po fn nf nf2) :
    (Schema.mk p tu ty r pr it c v ve po fn nf).setNFeaturesF nf2 =
      Schema.mk p tu ty r pr it c v ve po fn nf2 := rfl

mutual
/-- The `feature_names_` property: the node's own `feature_names`, then each
property child's flat list in lexicographic name order, then each item
child's flat list in index order. -/
def featureNamesF (s : Schema) : List String :=
  s.feature_names ++ fnPropsF (sortedPairs s.properties) ++ fnItemsF s.items
termination_by sizeOf s
decreasing_by
  · have h1 := sizeOf_sortedPairs s.properties
    have h2 := sizeOf_properties_lt s
    omega
  · exact sizeOf_items_lt s

/-- `for name in sorted(self.properties): feature_names.extend(...)`. -/
def fnPropsF : List (String × Schema) → List String
  | [] => []
  | (_, c) :: rest => featureNamesF c ++ fnPropsF rest
termination_by l => sizeOf l
decreasing_by all_goals (simp; try omega)

/-- `for i in range(len(self.items)): feature_names.extend(...)`. -/
def fnItemsF : List Schema → List String
  | [] => []
  | c :: rest => featureNamesF c ++ fnItemsF rest
termination_by l => sizeOf l
decreasing_by all_goals (simp; try omega)
end

/-- The per-type body of the `for json_type in sorted(self.type)` loop of
`_fit_self`, threading `(feature_names, vectorizers, values)`.  The oracle
`orc t path vals n_total` abstracts the external vectorizer machinery: the
result of `get_vectorizer(vectorizers, t, path)` followed by construction and
`.fit(values[t], n_total=n_total, path=...)`; `none` covers both "no matching
vectorizer definition" and "`fit` returned `None`" (in either case nothing is
stored and no names are added).  `req` is `self.required` (a set whenever
`OBJECT` is in the type set of a learned schema). -/
def fitSelfLoop (orc : JsonType → String → List Json → Rat → Option Extractor)
    (nt : Rat) (path : String) (ignored : Bool) (nty : Nat)
    (props : List (String × Schema)) (req : List String) :
    List JsonType →
      List String × List (JsonType × Extractor) × List (JsonType × List Json) →
      List String × List (JsonType × Extractor) × List (JsonType × List Json)
  | [], st => st
  | t :: rest, (fn, ve, v) =>
    let fn1 := if 1 < nty then fn ++ [path ++ " is " ++ type2str t] else fn
    let fn2 := if t = JsonType.OBJECT then
        fn1 ++ (sortedKeys props).filterMap (fun name =>
          if name ∈ req then none
          else some (path ++ " has property \x22" ++ name ++ "\x22"))
      else fn1
    let st1 :=
      if ignored then (fn2, ve) else
        match lookupT v t with
        | none => (fn2, ve)
        | some vals =>
          match orc t path vals nt with
          | none => (fn2, ve)
          | some vec =>
            (fn2 ++ vec.featureNames.map (fun f => path ++ " " ++ f), setT ve t vec)
    fitSelfLoop orc nt path ignored nty props req rest (st1.1, st1.2, eraseT v t)

/-- `_fit_self(pos, n_total, vectorizers, ignore_patterns)`: store `pos`, run
the per-type loop over the sorted type set (appending local feature names,
fitting vectorizers outside ignored paths, and consuming `values`), and
return `pos + len(self.feature_names)`.  The path string uses
`':'.join(map(str, self.path))`, which never raises. -/
def fitSelf (orc : JsonType → String → List Json → Rat → Option Extractor)
    (reS : String → String → Bool) (ign : List String) (nt : Rat)
    (s : Schema) (pos : Nat) : Schema × Nat :=
  let path := joinPathStr s.path
  let st := fitSelfLoop orc nt path (hasmatch reS path ign) s.type.length
    s.properties (s.required.getD []) (sortTypes s.type)
    (s.feature_names, s.vectorizers, s.values)
  ((((s.setPosF (Int.ofNat pos)).setFeatureNamesF st.1).setVectorizersF
      st.2.1).setValuesF st.2.2,
    pos + st.1.length)

theorem fitSelf_properties (orc reS ign nt s pos) :
    ((fitSelf orc reS ign nt s pos).1).properties = s.properties := by
  cases s
  simp [fitSelf]

theorem fitSelf_items (orc reS ign nt s pos) :
    ((fitSelf orc reS ign nt s pos).1).items = s.items := by
  cases s
  simp [fitSelf]

mutual
/-- `_fit(pos, n_total, vectorizers, ignore_patterns)`: fit this node, then
each property child in lexicographic name order (updating the dictionary in
place), then each item child in index order, threading the running column
`pos`; finally store `n_features = len(self.feature_names_)` and return the
threaded position. -/
def fitJ (orc : JsonType → String → List Json → Rat → Option Extractor)
    (reS : String → String → Bool) (ign : List String) (nt : Rat)
    (s : Schema) (pos : Nat) : Schema × Nat :=
  let s1 := (fitSelf orc reS ign nt s pos).1
  let pos1 := (fitSelf orc reS ign nt s pos).2
  let pp := fitProps orc reS ign nt (sortedPairs s1.properties) s1.properties pos1
  let ii := fitItems orc reS ign nt s1.items pp.2
  let s2 := (s1.setPropertiesF pp.1).setItemsF ii.1
  (s2.setNFeaturesF (Int.ofNat (featureNamesF s2).length), ii.2)
termination_by sizeOf s
decreasing_by
  · rw [fitSelf_properties]
    have h1 := sizeOf_sortedPairs s.properties
    have h2 := sizeOf_properties_lt s
    omega
  · rw [fitSelf_items]
    exact sizeOf_items_lt s

/-- The property loop of `_fit`: `sorted(self.properties)` is computed once;
each fitted child is written back into the (insertion-ordered) dictionary. -/
def fitProps (orc : JsonType → String → List Json → Rat → Option Extractor)
    (reS : String → String → Bool) (ign : List String) (nt : Rat) :
    List (String × Schema) → List (String × Schema) → Nat →
      List (String × Schema) × Nat
  | [], props, pos => (props, pos)
  | (k, c) :: rest, props, pos =>
    fitProps orc reS ign nt rest
      (setT props k (fitJ orc reS ign nt c pos).1)
      (fitJ orc reS ign nt c pos).2
termination_by l _ _ => sizeOf l
decreasing_by all_goals (simp; try omega)

/-- The item loop of `_fit`, in index order. -/
def fitItems (orc : JsonType → String → List Json → Rat → Option Extractor)
    (reS : String → String → Bool) (ign : List String) (nt : Rat) :
    List Schema → Nat → List Schema × Nat
  | [], pos => ([], pos)
  | c :: rest, pos =>
    ((fitJ orc reS ign nt c pos).1 ::
        (fitItems orc reS ign nt rest (fitJ orc reS ign nt c pos).2).1,
      (fitItems orc reS ign nt rest (fitJ orc reS ign nt c pos).2).2)
termination_by l _ => sizeOf l
decreasing_by all_goals (simp; try omega)
end

/-- The public `fit(docs, vectorizers, ignore_patterns)`: extend the schema
with the documents, then `_fit(0, sum(self.counts.values()), ...)` on the
root. -/
def fitRoot (orc : JsonType → String → List Json → Rat → Option Extractor)
    (reS : String → String → Bool) (ign : List String) (docs : List Json)
    (tup : Bool) : Schema × Nat :=
  fitJ orc reS ign
    ((sumCounts (extendAll (emptySchema [Seg.str "root"] tup) docs).counts : Nat) : Rat)
    (extendAll (emptySchema [Seg.str "root"] tup) docs) 0

mutual
/-- The claim-C2 position/count invariant, checked over a (fitted) tree:
given that this node's local feature block starts at flat index `pos` of the
root's `feature_names_` list, its stored `pos` equals that index, its
`n_features` equals the length of its own flat `feature_names_` list, and
each descendant's block starts where the pre-order (self, then properties in
lexicographic order, then items in index order) places it. -/
def fitInvB (s : Schema) (pos : Nat) : Bool :=
  decide (s.pos = Int.ofNat pos) &&
  decide (s.n_features = Int.ofNat (featureNamesF s).length) &&
  (fitInvProps (sortedPairs s.properties) (pos + s.feature_names.length)).1 &&
  (fitInvItems s.items
    (fitInvProps (sortedPairs s.properties) (pos + s.feature_names.length)).2).1
termination_by sizeOf s
decreasing_by all_goals
  (first
    | exact sizeOf_items_lt s
    | (have h1 := sizeOf_sortedPairs s.properties
       have h2 := sizeOf_properties_lt s
       omega))

/-- Check the property children against their pre-order flat offsets,
returning the running offset after the last one. -/
def fitInvProps : List (String × Schema) → Nat → Bool × Nat
  | [], q => (true, q)
  | (_, c) :: rest, q =>
    (fitInvB c q && (fitInvProps rest (q + (featureNamesF c).length)).1,
      (fitInvProps rest (q + (featureNamesF c).length)).2)
termination_by l _ => sizeOf l
decreasing_by all_goals (simp; try omega)

/-- Check the item children against their pre-order flat offsets. -/
def fitInvItems : List Schema → Nat → Bool × Nat
  | [], q => (true, q)
  | c :: rest, q =>
    (fitInvB c q && (fitInvItems rest (q + (featureNamesF c).length)).1,
      (fitInvItems rest (q + (featureNamesF c).length)).2)
termination_by l _ => sizeOf l
decreasing_by all_goals (simp; try omega)
end

/-- Sum of the stored `n_features` over the property children. -/
def sumNFProps (l : List (String × Schema)) : Int :=
  (l.map (fun q => q.2.n_features)).sum

/-- Sum of the stored `n_features` over the item children. -/
def sumNFItems (l : List Schema) : Int :=
  (l.map Schema.n_features).sum

mutual
/-- Claim C2's third clause as a recursive check: at every node, `n_features`
equals the length of the node's local feature-name list plus the sum of its
children's `n_features`. -/
def nfSumB (s : Schema) : Bool :=
  decide (s.n_features =
    Int.ofNat s.feature_names.length + sumNFProps s.properties + sumNFItems s.items) &&
  nfSumPropsB s.properties && nfSumItemsB s.items
termination_by sizeOf s
decreasing_by
  · exact sizeOf_properties_lt s
  · exact sizeOf_items_lt s

def nfSumPropsB : List (String × Schema) → Bool
  | [] => true
  | (_, c) :: rest => nfSumB c && nfSumPropsB rest
termination_by l => sizeOf l
decreasing_by all_goals (simp; try omega)

def nfSumItemsB : List Schema → Bool
  | [] => true
  | c :: rest => nfSumB c && nfSumItemsB rest
termination_by l => sizeOf l
decreasing_by all_goals (simp; try omega)
end

/-- Mapping a key-respecting value replacement over a list without the key
changes nothing. -/
theorem map_noop_of_not_mem (l : List (String × Schema)) (k : String) (c' : Schema)
    (h : k ∉ l.map Prod.fst) :
    l.map (fun q => if q.1 = k then (k, c') else q) = l := by
  induction l with
  | nil => rfl
  | cons a t ih =>
    have h1 : ¬ a.1 = k := by
      intro hh
      exact h (by simp [hh])
    have h2 : k ∉ t.map Prod.fst := by
      intro hh
      exact h (by simp [hh])
    rw [List.map_cons, if_neg h1, ih h2]

/-- Under unique keys, replacing an existing binding is a pointwise map. -/
theorem setT_eq_map (props : List (String × Schema)) (k : String) (c' : Schema)
    (hnd : (props.map Prod.fst).Nodup) (hk : k ∈ props.map Prod.fst) :
    setT props k c' = props.map (fun q => if q.1 = k then (k, c') else q) := by
  induction props with
  | nil => simp at hk
  | cons a t ih =>
    simp only [List.map_cons, List.nodup_cons] at hnd
    by_cases h : a.1 = k
    · rw [setT, if_pos h, List.map_cons, if_pos h,
        map_noop_of_not_mem t k c' (h ▸ hnd.1)]
    · have hk' : k ∈ t.map Prod.fst := by
        rw [List.map_cons, List.mem_cons] at hk
        rcases hk with h1 | h1
        · exact absurd h1.symm h
        · exact h1
      rw [setT, if_neg h, List.map_cons, if_neg h, ih hnd.2 hk']

/-- `orderedInsert` by key commutes with a key-preserving value map. -/
theorem orderedInsert_fstmap (f : String × Schema → String × Schema)
    (hf : ∀ q, (f q).1 = q.1) (a : String × Schema) :
    ∀ l : List (String × Schema),
      (l.map f).orderedInsert (fun x y => x.1 ≤ y.1) (f a) =
        ((l.orderedInsert (fun x y => x.1 ≤ y.1) a).map f)
  | [] => by simp [List.orderedInsert]
  | b :: t => by
    by_cases h : a.1 ≤ b.1
    · rw [List.orderedInsert, List.map_cons, List.orderedInsert,
        if_pos (by rw [hf, hf]; exact h), if_pos h]
      simp
    · rw [List.orderedInsert, List.map_cons, List.orderedInsert,
        if_neg (by rw [hf, hf]; exact h), if_neg h, List.map_cons,
        orderedInsert_fstmap f hf a t]

/-- `insertionSort` by key commutes with a key-preserving value map. -/
theorem insertionSort_fstmap (f : String × Schema → String × Schema)
    (hf : ∀ q, (f q).1 = q.1) :
    ∀ l : List (String × Schema),
      (l.map f).insertionSort (fun x y => x.1 ≤ y.1) =
        (l.insertionSort (fun x y => x.1 ≤ y.1)).map f
  | [] => rfl
  | a :: t => by
    rw [List.map_cons, List.insertionSort, List.insertionSort,
      insertionSort_fstmap f hf t, orderedInsert_fstmap f hf a]

/-- Writing a fitted child back into the dictionary replaces its entry in the
sorted pair list pointwise. -/
theorem sortedPairs_setT (props : List (String × Schema)) (k : String) (c' : Schema)
    (hnd : (props.map Prod.fst).Nodup) (hk : k ∈ props.map Prod.fst) :
    sortedPairs (setT props k c') =
      (sortedPairs props).map (fun q => if q.1 = k then (k, c') else q) := by
  rw [setT_eq_map props k c' hnd hk, sortedPairs, sortedPairs,
    insertionSort_fstmap]
  intro q
  by_cases h : q.1 = k <;> simp [h]

/-- The two per-node fit facts proved by induction: the threaded position
returned by `_fit` advances by exactly the length of the node's flat
`feature_names_` list, and the fitted subtree satisfies the position/count
invariant at its entry offset. -/
def FitOK (orc : JsonType → String → List Json → Rat → Option Extractor)
    (reS : String → String → Bool) (ign : List String) (nt : Rat)
    (c : Schema) : Prop :=
  ∀ pos : Nat,
    (fitJ orc reS ign nt c pos).2 =
      pos + (featureNamesF (fitJ orc reS ign nt c pos).1).length ∧
    fitInvB (fitJ orc reS ign nt c pos).1 pos = true

theorem fitInvProps_snd (l : List (String × Schema)) :
    ∀ q : Nat, (fitInvProps l q).2 = q + (fnPropsF l).length := by
  induction l with
  | nil => intro q; simp [fitInvProps, fnPropsF]
  | cons a rest ih =>
    intro q
    obtain ⟨k, c⟩ := a
    rw [fitInvProps, fnPropsF]
    simp only [ih (q + (featureNamesF c).length), List.length_append]
    omega

theorem fitInvItems_snd (l : List Schema) :
    ∀ q : Nat, (fitInvItems l q).2 = q + (fnItemsF l).length := by
  induction l with
  | nil => intro q; simp [fitInvItems, fnItemsF]
  | cons c rest ih =>
    intro q
    rw [fitInvItems, fnItemsF]
    simp only [ih (q + (featureNamesF c).length), List.length_append]
    omega

theorem fitItems_go (orc : JsonType → String → List Json → Rat → Option Extractor)
    (reS : String → String → Bool) (ign : List String) (nt : Rat) :
    ∀ (todo : List Schema) (pos : Nat),
      (∀ c ∈ todo, FitOK orc reS ign nt c) →
      (fitInvItems (fitItems orc reS ign nt todo pos).1 pos).1 = true ∧
      (fitItems orc reS ign nt todo pos).2 =
        pos + (fnItemsF (fitItems orc reS ign nt todo pos).1).length := by
  intro todo
  induction todo with
  | nil =>
    intro pos _
    exact ⟨by rw [fitItems]; simp [fitInvItems], by rw [fitItems]; simp [fnItemsF]⟩
  | cons c rest ih =>
    intro pos hok
    obtain ⟨hret, hinv⟩ := hok c (List.mem_cons_self _ _) pos
    obtain ⟨h1, h2⟩ :=
      ih ((fitJ orc reS ign nt c pos).2) (fun d hd => hok d (List.mem_cons_of_mem _ hd))
    constructor
    · rw [fitItems]
      simp only []
      rw [fitInvItems]
      simp only []
      rw [← hret]
      simp [hinv, h1]
    · rw [fitItems]
      simp only []
      rw [h2, fnItemsF]
      simp only [List.length_append]
      omega

theorem fitProps_go (orc : JsonType → String → List Json → Rat → Option Extractor)
    (reS : String → String → Bool) (ign : List String) (nt : Rat) :
    ∀ (todo done props : List (String × Schema)) (pos : Nat),
      (props.map Prod.fst).Nodup →
      sortedPairs props = done ++ todo →
      (∀ q ∈ todo, FitOK orc reS ign nt q.2) →
      ∃ newtodo,
        sortedPairs (fitProps orc reS ign nt todo props pos).1 = done ++ newtodo ∧
        (fitInvProps newtodo pos).1 = true ∧
        (fitProps orc reS ign nt todo props pos).2 =
          pos + (fnPropsF newtodo).length := by
  intro todo
  induction todo with
  | nil =>
    intro done props pos hnd hsp _
    refine ⟨[], ?_, by simp [fitInvProps], by rw [fitProps]; simp [fnPropsF]⟩
    rw [fitProps]
    simpa using hsp
  | cons a rest ih =>
    obtain ⟨k, c⟩ := a
    intro done props pos hnd hsp hok
    obtain ⟨hret, hinv⟩ := hok (k, c) (List.mem_cons_self _ _) pos
    have hret' : (fitJ orc reS ign nt c pos).2 =
        pos + (featureNamesF (fitJ orc reS ign nt c pos).1).length := hret
    have hksp : (k, c) ∈ sortedPairs props := by
      rw [hsp]
      exact List.mem_append_right _ (List.mem_cons_self _ _)
    have hkmem : k ∈ props.map Prod.fst := by
      have := (List.perm_insertionSort (fun x y : String × Schema => x.1 ≤ y.1) props).mem_iff.mp hksp
      exact List.mem_map.mpr ⟨(k, c), this, rfl⟩
    have hndsp : ((sortedPairs props).map Prod.fst).Nodup :=
      (((List.perm_insertionSort (fun x y : String × Schema => x.1 ≤ y.1) props).map
        Prod.fst).nodup_iff).mpr hnd
    have h3 : (done.map Prod.fst ++ k :: rest.map Prod.fst).Nodup := by
      rw [hsp] at hndsp
      simpa using hndsp
    have hdone : k ∉ done.map Prod.fst := by
      intro hkd
      exact ((List.nodup_append.mp h3).2.2 hkd) (List.mem_cons_self _ _)
    have hrest : k ∉ rest.map Prod.fst := by
      have := (List.nodup_append.mp h3).2.1
      exact (List.nodup_cons.mp this).1
    have hsp1 : sortedPairs (setT props k (fitJ orc reS ign nt c pos).1) =
        done ++ (k, (fitJ orc reS ign nt c pos).1) :: rest := by
      rw [sortedPairs_setT props k _ hnd hkmem, hsp, List.map_append, List.map_cons,
        map_noop_of_not_mem done k _ hdone, map_noop_of_not_mem rest k _ hrest]
      simp
    have hnd1 : ((setT props k (fitJ orc reS ign nt c pos).1).map Prod.fst).Nodup := by
      rw [keys_setT, if_pos hkmem]
      exact hnd
    obtain ⟨newrest, h1, h2, h4⟩ := ih (done ++ [(k, (fitJ orc reS ign nt c pos).1)])
      (setT props k (fitJ orc reS ign nt c pos).1) ((fitJ orc reS ign nt c pos).2) hnd1
      (by rw [hsp1]; simp) (fun q hq => hok q (List.mem_cons_of_mem _ hq))
    refine ⟨(k, (fitJ orc reS ign nt c pos).1) :: newrest, ?_, ?_, ?_⟩
    · rw [fitProps]
      rw [h1]
      simp
    · rw [fitInvProps]
      simp only []
      rw [← hret]
      simp [hinv, h2]
    · rw [fitProps]
      rw [h4, fnPropsF]
      simp only [List.length_append]
      omega

@[simp] theorem properties_setPropertiesF (x : Schema) (a : List (String × Schema)) :
    (Schema.setPropertiesF x a).properties = a := by
  cases x; simp [Schema.setPropertiesF]
@[simp] theorem properties_setItemsF (x : Schema) (a : List Schema) :
    (Schema.setItemsF x a).properties = x.properties := by
  cases x; simp [Schema.setItemsF]
@[simp] theorem properties_setNFeaturesF (x : Schema) (n : Int) :
    (Schema.setNFeaturesF x n).properties = x.properties := by
  cases x; simp [Schema.setNFeaturesF]
@[simp] theorem items_setPropertiesF (x : Schema) (a : List (String × Schema)) :
    (Schema.setPropertiesF x a).items = x.items := by
  cases x; simp [Schema.setPropertiesF]
@[simp] theorem items_setItemsF (x : Schema) (a : List Schema) :
    (Schema.setItemsF x a).items = a := by
  cases x; simp [Schema.setItemsF]
@[simp] theorem items_setNFeaturesF (x : Schema) (n : Int) :
    (Schema.setNFeaturesF x n).items = x.items := by
  cases x; simp [Schema.setNFeaturesF]
@[simp] theorem pos_setPropertiesF (x : Schema) (a : List (String × Schema)) :
    (Schema.setPropertiesF x a).pos = x.pos := by
  cases x; simp [Schema.setPropertiesF]
@[simp] theorem pos_setItemsF (x : Schema) (a : List Schema) :
    (Schema.setItemsF x a).pos = x.pos := by
  cases x; simp [Schema.setItemsF]
@[simp] theorem pos_setNFeaturesF (x : Schema) (n : Int) :
    (Schema.setNFeaturesF x n).pos = x.pos := by
  cases x; simp [Schema.setNFeaturesF]
@[simp] theorem feature_names_setPropertiesF (x : Schema) (a : List (String × Schema)) :
    (Schema.setPropertiesF x a).feature_names = x.feature_names := by
  cases x; simp [Schema.setPropertiesF]
@[simp] theorem feature_names_setItemsF (x : Schema) (a : List Schema) :
    (Schema.setItemsF x a).feature_names = x.feature_names := by
  cases x; simp [Schema.setItemsF]
@[simp] theorem feature_names_setNFeaturesF (x : Schema) (n : Int) :
    (Schema.setNFeaturesF x n).feature_names = x.feature_names := by
  cases x; simp [Schema.setNFeaturesF]
@[simp] theorem n_features_setNFeaturesF (x : Schema) (n : Int) :
    (Schema.setNFeaturesF x n).n_features = n := by
  cases x; simp [Schema.setNFeaturesF]

theorem featureNamesF_setNFeaturesF (x : Schema) (n : Int) :
    featureNamesF (Schema.setNFeaturesF x n) = featureNamesF x := by
  rw [featureNamesF, featureNamesF]
  simp

theorem fitSelf_pos (orc reS ign nt s pos) :
    ((fitSelf orc reS ign nt s pos).1).pos = Int.ofNat pos := by
  cases s
  simp [fitSelf]

theorem fitSelf_ret (orc reS ign nt s pos) :
    (fitSelf orc reS ign nt s pos).2 =
      pos + ((fitSelf orc reS ign nt s pos).1).feature_names.length := by
  cases s
  simp [fitSelf]

/-- The position/count invariant holds for every subtree fitted from a
unique-key tree (as produced by `extend`). -/
theorem fitJ_inv (orc : JsonType → String → List Json → Rat → Option Extractor)
    (reS : String → String → Bool) (ign : List String) (nt : Rat) :
    ∀ s : Schema, learnedInv s = true → FitOK orc reS ign nt s := by
  apply schemaIndOn (P := fun s => learnedInv s = true → FitOK orc reS ign nt s)
  intro s ihp ihi hinv pos
  obtain ⟨hnd, _hfn, hIP, hII⟩ := (learnedInv_iff s).mp hinv
  have hokP : ∀ q ∈ sortedPairs s.properties, FitOK orc reS ign nt q.2 := by
    intro q hq
    have hq' : q ∈ s.properties :=
      (List.perm_insertionSort (fun x y : String × Schema => x.1 ≤ y.1)
        s.properties).mem_iff.mp hq
    exact ihp q hq' (hIP q hq')
  have hokI : ∀ c ∈ s.items, FitOK orc reS ign nt c := fun c hc => ihi c hc (hII c hc)
  have e1 := fitSelf_properties orc reS ign nt s pos
  have e2 := fitSelf_items orc reS ign nt s pos
  have e3 := fitSelf_pos orc reS ign nt s pos
  have e4 := fitSelf_ret orc reS ign nt s pos
  simp only [fitJ]
  generalize hS1 : (fitSelf orc reS ign nt s pos).1 = S1 at e1 e2 e3 e4 ⊢
  generalize hP1 : (fitSelf orc reS ign nt s pos).2 = P1 at e4 ⊢
  rw [e1, e2]
  obtain ⟨newtodo, hsp', hinvP, hendP⟩ := fitProps_go orc reS ign nt
    (sortedPairs s.properties) [] s.properties P1 hnd rfl hokP
  simp only [List.nil_append] at hsp'
  obtain ⟨hitI, hitR⟩ := fitItems_go orc reS ign nt s.items
    (fitProps orc reS ign nt (sortedPairs s.properties) s.properties P1).2 hokI
  constructor
  · rw [hitR, hendP, featureNamesF_setNFeaturesF, featureNamesF]
    simp only [properties_setItemsF, properties_setPropertiesF, items_setItemsF,
      feature_names_setItemsF, feature_names_setPropertiesF, hsp',
      List.length_append]
    omega
  · rw [fitInvB]
    simp only [Bool.and_eq_true, decide_eq_true_eq]
    refine ⟨⟨⟨?_, ?_⟩, ?_⟩, ?_⟩
    · simp only [pos_setNFeaturesF, pos_setItemsF, pos_setPropertiesF, e3]
    · simp only [n_features_setNFeaturesF, featureNamesF_setNFeaturesF]
    · simp only [properties_setNFeaturesF, properties_setItemsF,
        properties_setPropertiesF, feature_names_setNFeaturesF,
        feature_names_setItemsF, feature_names_setPropertiesF, hsp', ← e4]
      exact hinvP
    · simp only [items_setNFeaturesF, items_setItemsF, properties_setNFeaturesF,
        properties_setItemsF, properties_setPropertiesF, feature_names_setNFeaturesF,
        feature_names_setItemsF, feature_names_setPropertiesF, hsp', ← e4,
        fitInvProps_snd, hendP]
      rw [← hendP]
      exact hitI

theorem fitInvB_parts (s : Schema) (pos : Nat) (h : fitInvB s pos = true) :
    s.pos = Int.ofNat pos ∧ s.n_features = Int.ofNat (featureNamesF s).length ∧
    (fitInvProps (sortedPairs s.properties) (pos + s.feature_names.length)).1 = true ∧
    (fitInvItems s.items
      (fitInvProps (sortedPairs s.properties) (pos + s.feature_names.length)).2).1 = true := by
  rw [fitInvB] at h
  simpa [Bool.and_eq_true, decide_eq_true_eq, and_assoc] using h

theorem fitInvProps_mem (l : List (String × Schema)) :
    ∀ q : Nat, (fitInvProps l q).1 = true →
      ∀ p ∈ l, ∃ q', fitInvB p.2 q' = true := by
  induction l with
  | nil => intro q _ p hp; simp at hp
  | cons a rest ih =>
    intro q h p hp
    rw [fitInvProps] at h
    simp only [Bool.and_eq_true] at h
    rcases List.mem_cons.mp hp with h1 | h1
    · subst h1
      exact ⟨q, h.1⟩
    · exact ih (q + (featureNamesF a.2).length) (by
        obtain ⟨k, c⟩ := a
        exact h.2) p h1

theorem fitInvItems_mem (l : List Schema) :
    ∀ q : Nat, (fitInvItems l q).1 = true →
      ∀ c ∈ l, ∃ q', fitInvB c q' = true := by
  induction l with
  | nil => intro q _ c hc; simp at hc
  | cons a rest ih =>
    intro q h c hc
    rw [fitInvItems] at h
    simp only [Bool.and_eq_true] at h
    rcases List.mem_cons.mp hc with h1 | h1
    · subst h1
      exact ⟨q, h.1⟩
    · exact ih (q + (featureNamesF a).length) h.2 c h1

theorem sumNF_eq_fnPropsF (l : List (String × Schema))
    (h : ∀ q ∈ l, q.2.n_features = Int.ofNat (featureNamesF q.2).length) :
    (l.map (fun q => q.2.n_features)).sum = Int.ofNat (fnPropsF l).length := by
  induction l with
  | nil => simp [fnPropsF]
  | cons a rest ih =>
    obtain ⟨k, c⟩ := a
    rw [List.map_cons, List.sum_cons, fnPropsF,
      h (k, c) (List.mem_cons_self _ _),
      ih (fun q hq => h q (List.mem_cons_of_mem _ hq))]
    simp [List.length_append]

theorem sumNF_eq_fnItemsF (l : List Schema)
    (h : ∀ c ∈ l, c.n_features = Int.ofNat (featureNamesF c).length) :
    (l.map Schema.n_features).sum = Int.ofNat (fnItemsF l).length := by
  induction l with
  | nil => simp [fnItemsF]
  | cons a rest ih =>
    rw [List.map_cons, List.sum_cons, fnItemsF,
      h a (List.mem_cons_self _ _),
      ih (fun c hc => h c (List.mem_cons_of_mem _ hc))]
    simp [List.length_append]

theorem nfSumPropsB_iff (l : List (String × Schema)) :
    nfSumPropsB l = true ↔ ∀ q ∈ l, nfSumB q.2 = true := by
  induction l with
  | nil => simp [nfSumPropsB]
  | cons a rest ih =>
    obtain ⟨k, c⟩ := a
    rw [nfSumPropsB]
    simp [Bool.and_eq_true, ih]

theorem nfSumItemsB_iff (l : List Schema) :
    nfSumItemsB l = true ↔ ∀ c ∈ l, nfSumB c = true := by
  induction l with
  | nil => simp [nfSumItemsB]
  | cons a rest ih =>
    rw [nfSumItemsB]
    simp [Bool.and_eq_true, ih]

/-- A tree satisfying the position/count invariant at any offset satisfies
the local-plus-children `n_features` sum identity at every node. -/
theorem fitInv_nfSum : ∀ s : Schema, (∃ pos, fitInvB s pos = true) → nfSumB s = true := by
  apply schemaIndOn (P := fun s => (∃ pos, fitInvB s pos = true) → nfSumB s = true)
  rintro s ihp ihi ⟨pos, h⟩
  obtain ⟨_, hn, hP, hI⟩ := fitInvB_parts s pos h
  have hmemP : ∀ q ∈ s.properties, ∃ q', fitInvB q.2 q' = true := by
    intro q hq
    exact fitInvProps_mem (sortedPairs s.properties) _ hP q
      ((List.perm_insertionSort (fun x y : String × Schema => x.1 ≤ y.1)
        s.properties).mem_iff.mpr hq)
  have hmemI : ∀ c ∈ s.items, ∃ q', fitInvB c q' = true :=
    fun c hc => fitInvItems_mem s.items _ hI c hc
  have hchildNFp : ∀ q ∈ s.properties, q.2.n_features =
      Int.ofNat (featureNamesF q.2).length := by
    intro q hq
    obtain ⟨q', hq'⟩ := hmemP q hq
    exact (fitInvB_parts q.2 q' hq').2.1
  have hchildNFi : ∀ c ∈ s.items, c.n_features =
      Int.ofNat (featureNamesF c).length := by
    intro c hc
    obtain ⟨q', hq'⟩ := hmemI c hc
    exact (fitInvB_parts c q' hq').2.1
  rw [nfSumB]
  simp only [Bool.and_eq_true, decide_eq_true_eq]
  refine ⟨⟨?_, ?_⟩, ?_⟩
  · have hsum : sumNFProps s.properties = Int.ofNat (fnPropsF (sortedPairs s.properties)).length := by
      rw [sumNFProps,
        ((List.perm_insertionSort (fun x y : String × Schema => x.1 ≤ y.1)
          s.properties).map (fun q => q.2.n_features)).sum_eq.symm]
      exact sumNF_eq_fnPropsF (sortedPairs s.properties) (fun q hq =>
        hchildNFp q ((List.perm_insertionSort (fun x y : String × Schema => x.1 ≤ y.1)
          s.properties).mem_iff.mp hq))
    have hsumI : sumNFItems s.items = Int.ofNat (fnItemsF s.items).length :=
      sumNF_eq_fnItemsF s.items hchildNFi
    rw [hn, hsum, hsumI, featureNamesF]
    simp [List.length_append]
    omega
  · exact (nfSumPropsB_iff s.properties).mpr (fun q hq =>
      ihp q hq (hmemP q hq))
  · exact (nfSumItemsB_iff s.items).mpr (fun c hc =>
      ihi c hc (hmemI c hc))

/-- Claim C2: after a single `fit` call on a root schema built by `extend`
(the public `fit` extends with `docs` then runs `_fit(0, ...)`), the fitted
tree satisfies, at every node: the stored `pos` equals the flat index in the
root's `feature_names_` list at which the node's local block starts — i.e.
the number of feature names contributed by all nodes preceding it in the
pre-order traversal (self first, then properties in lexicographic order,
then items in index order) — checked by `fitInvB` threading pre-order
offsets from 0; `n_features` equals the length of the node's local
feature-name list plus the sum of its children's `n_features` (`nfSumB`);
the position `_fit` returns for the root is the total flat feature count;
and each node's `_fit_self` step stores its entry position and returns that
position plus the length of its local feature-name list. -/
theorem fit_preorder_positions (orc : JsonType → String → List Json → Rat → Option Extractor)
    (reS : String → String → Bool) (ign : List String) (docs : List Json) (tup : Bool) :
    fitInvB (fitRoot orc reS ign docs tup).1 0 = true ∧
    nfSumB (fitRoot orc reS ign docs tup).1 = true ∧
    (fitRoot orc reS ign docs tup).2 =
      (featureNamesF (fitRoot orc reS ign docs tup).1).length ∧
    (∀ (nt : Rat) (s : Schema) (pos : Nat),
      ((fitSelf orc reS ign nt s pos).1).pos = Int.ofNat pos ∧
      (fitSelf orc reS ign nt s pos).2 =
        pos + ((fitSelf orc reS ign nt s pos).1).feature_names.length) := by
  have hlI : learnedInv (extendAll (emptySchema [Seg.str "root"] tup) docs) = true :=
    learnedInv_extendAll docs _ (learnedInv_empty [Seg.str "root"] tup)
  have hfit := fitJ_inv orc reS ign
    ((sumCounts (extendAll (emptySchema [Seg.str "root"] tup) docs).counts : Nat) : Rat)
    (extendAll (emptySchema [Seg.str "root"] tup) docs) hlI 0
  refine ⟨hfit.2, ?_, ?_, fun nt s pos => ⟨fitSelf_pos orc reS ign nt s pos,
    fitSelf_ret orc reS ign nt s pos⟩⟩
  · exact fitInv_nfSum _ ⟨0, hfit.2⟩
  · rw [fitRoot]
    rw [hfit.1]
    simp

/-! ### Transforming (`JsonVectorizer._transform_self`, `_transform`,
`transform`) -/

/-- Row grouping by classified type (`for i in range(len(docs)): ... if
json_type in self.type`): an insertion-ordered dictionary from type to the
list of local row positions, rows whose type is outside the node's type set
are skipped. -/
def buildIBT (tys : List JsonType) (docs : List Json) : List (JsonType × List Nat) :=
  docs.enum.foldl (fun acc q =>
    let t := typeof q.2
    if t ∈ tys then
      match lookupT acc t with
      | none => acc ++ [(t, [q.1])]
      | some l => setT acc t (l ++ [q.1])
    else acc) []

/-- Row grouping by property name over the object-typed rows (`for i in
indices_by_type[OBJECT]: for name in docs[i]: if name in self.properties`).
Every listed row is an object (its classified type is `OBJECT`). -/
def buildIBP (props : List (String × Schema)) (docs : List Json)
    (rowsObj : List Nat) : List (String × List Nat) :=
  rowsObj.foldl (fun acc i =>
    match docs.getD i Json.null with
    | Json.obj kvs =>
      kvs.foldl (fun acc2 kv =>
        if (lookupT props kv.1).isSome then
          match lookupT acc2 kv.1 with
          | none => acc2 ++ [(kv.1, [i])]
          | some l => setT acc2 kv.1 (l ++ [i])
        else acc2) acc
    | _ => acc) []

/-- Position buckets over the array-typed rows (`for j in
range(len(docs[i])): if j * self.tuple_items < len(self.items)`): bucket `j`
collects the rows having an element at position `j` (all positions in shared
mode, positions below `len(items)` in tuple mode).  The code appends a new
bucket when `j` reaches the current bucket count. -/
def buildIBI (tup : Bool) (nItems : Nat) (docs : List Json)
    (rowsArr : List Nat) : List (List Nat) :=
  rowsArr.foldl (fun ibi i =>
    match docs.getD i Json.null with
    | Json.arr elems =>
      (List.range elems.length).foldl (fun ibi2 j =>
        if (if tup then j else 0) < nItems then
          if j < ibi2.length then ibi2.set j (ibi2.getD j [] ++ [i])
          else ibi2 ++ [[i]]
        else ibi2) ibi
    | _ => ibi) []

/-- `sorted(d.items())` for a row-bucket dictionary. -/
def sortedPairsN (l : List (String × List Nat)) : List (String × List Nat) :=
  l.insertionSort (fun a b => a.1 ≤ b.1)

/-- The per-type body of the `for json_type in sorted(self.type)` loop of
`_transform_self`, threading the matrix state and the running column `pos`:
a presence column per type when the type set is not a singleton, a presence
column per non-required property under `OBJECT`, then the vectorizer block
(`indices[indices_][rs]` are the global rows of the vectorizer's nonzero
coordinates, written at columns `pos + cs`). -/
def transformSelfLoop (docs : List Json) (indices : List Nat)
    (ibt : List (JsonType × List Nat)) (ibp : List (String × List Nat))
    (nty : Nat) (pnames : List String) (req : List String)
    (vecs : List (JsonType × Extractor)) :
    List JsonType → (List (List Int) × List (List Bool)) × Int →
      (List (List Int) × List (List Bool)) × Int
  | [], st => st
  | t :: rest, (X, pos) =>
    let st1 :=
      if 1 < nty then
        (match lookupT ibt t with
         | none => X
         | some idxs =>
           lil_set_col X.1 X.2 (idxs.map (fun i => indices.getD i 0)) pos,
         pos + 1)
      else (X, pos)
    let st2 :=
      if t = JsonType.OBJECT then
        pnames.foldl (fun st name =>
          if name ∈ req then st
          else
            (match lookupT ibp name with
             | none => st.1
             | some idxs =>
               lil_set_col st.1.1 st.1.2 (idxs.map (fun i => indices.getD i 0)) st.2,
             st.2 + 1)) st1
      else st1
    let st3 :=
      match lookupT vecs t with
      | none => st2
      | some vec =>
        (match lookupT ibt t with
         | none => st2.1
         | some idxs =>
           lil_set st2.1.1 st2.1.2
             ((vec.transformF (idxs.map (fun i => docs.getD i Json.null))).map
               (fun rc => indices.getD (idxs.getD rc.1 0) 0))
             ((vec.transformF (idxs.map (fun i => docs.getD i Json.null))).map
               (fun rc => st2.2 + Int.ofNat rc.2)),
         st2.2 + Int.ofNat vec.featureNames.length)
    transformSelfLoop docs indices ibt ibp nty pnames req vecs rest st3

/-- `_transform_self(docs, X_rows, X_data, indices, indices_by_type,
indices_by_property)`: run the per-type loop starting at the node's stored
`pos`. -/
def transformSelf (s : Schema) (docs : List Json)
    (X : List (List Int) × List (List Bool)) (indices : List Nat)
    (ibt : List (JsonType × List Nat)) (ibp : List (String × List Nat)) :
    List (List Int) × List (List Bool) :=
  (transformSelfLoop docs indices ibt ibp s.type.length (sortedKeys s.properties)
    (s.required.getD []) s.vectorizers (sortTypes s.type) (X, s.pos)).1

mutual
/-- `_transform(docs, X_rows, X_data, indices)`: group rows by type, by
property name, and by array position; run the self step; then recurse into
property children in lexicographic name order and into one item child per
position bucket.  `none` models an uncaught exception. -/
def transformJ (s : Schema) (docs : List Json)
    (X : List (List Int) × List (List Bool)) (indices : List Nat) :
    Option (List (List Int) × List (List Bool)) :=
  let ibt := buildIBT s.type docs
  let ibp := match lookupT ibt JsonType.OBJECT with
    | none => []
    | some rowsO => buildIBP s.properties docs rowsO
  let ibi := match lookupT ibt JsonType.ARRAY with
    | none => []
    | some rowsA => buildIBI s.tuple_items s.items.length docs rowsA
  match transformProps s.properties (sortedPairsN ibp) docs indices
      (transformSelf s docs X indices ibt ibp) with
  | none => none
  | some X2 => transformItems s.items s.tuple_items 0 ibi docs indices X2
termination_by (sizeOf s, 0)
decreasing_by
  · left
    exact sizeOf_properties_lt s
  · left
    exact sizeOf_items_lt s

/-- The property recursion of `_transform`: `for name, indices_ in
sorted(indices_by_property.items())`, sending the sub-batch of values and the
sub-batch's global row indices to the named child. -/
def transformProps (props : List (String × Schema)) :
    List (String × List Nat) → List Json → List Nat →
      List (List Int) × List (List Bool) →
      Option (List (List Int) × List (List Bool))
  | [], _, _, X => some X
  | (name, idxs) :: rest, docs, indices, X =>
    match h : lookupT props name with
    | none => none
    | some child =>
      match transformJ child
          (idxs.map (fun i => match docs.getD i Json.null with
            | Json.obj kvs => (lookupT kvs name).getD Json.null
            | _ => Json.null))
          X (idxs.map (fun i => indices.getD i 0)) with
      | none => none
      | some X2 => transformProps props rest docs indices X2
termination_by l _ _ _ => (sizeOf props, sizeOf l)
decreasing_by all_goals
  first
    | (left
       have h1 := List.sizeOf_lt_of_mem (lookupT_mem h)
       simp only [Prod.mk.sizeOf_spec] at h1
       omega)
    | (have h1 := List.sizeOf_lt_of_mem (lookupT_mem h)
       simp only [Prod.mk.sizeOf_spec] at h1
       omega)
    | (right
       simp)

/-- The item recursion of `_transform`: `for j, indices_ in
enumerate(indices_by_item)`.  In tuple mode the source calls
`self.get_item(i)` where `i` is the leaked (C-scoped) loop variable of the
`docs_` comprehension — the LAST row index of the current bucket — not the
bucket position `j`; `get_item` raises `IndexError` (`none`) when that row
index is not below `len(self.items)`.  In shared mode every bucket goes to
`get_item(0)`. -/
def transformItems (items : List Schema) (tup : Bool) (j : Nat) :
    List (List Nat) → List Json → List Nat →
      List (List Int) × List (List Bool) →
      Option (List (List Int) × List (List Bool))
  | [], _, _, X => some X
  | idxs :: restBuckets, docs, indices, X =>
    match h : items.get? (if tup then idxs.getLastD 0 else 0) with
    | none => none
    | some child =>
      match transformJ child
          (idxs.map (fun i => match docs.getD i Json.null with
            | Json.arr elems => elems.getD j Json.null
            | _ => Json.null))
          X (idxs.map (fun i => indices.getD i 0)) with
      | none => none
      | some X2 => transformItems items tup (j + 1) restBuckets docs indices X2
termination_by l _ _ _ => (sizeOf items, sizeOf l)
decreasing_by all_goals
  first
    | (left
       exact List.sizeOf_lt_of_mem (List.get?_mem h))
    | exact List.sizeOf_lt_of_mem (List.get?_mem h)
    | (right
       simp)
end

/-- The public `transform(docs)`: a fresh `len(docs) × n_features` LIL
matrix (all rows empty) and `indices = arange(len(docs))`. -/
def transformPub (s : Schema) (docs : List Json) :
    Option (List (List Int) × List (List Bool)) :=
  transformJ s docs
    (List.replicate docs.length [], List.replicate docs.length [])
    (List.range docs.length)

mutual
/-- Claim C1's routing, modelled from the claim's words: identical to
`transformJ` except that bucket `j` of the item recursion is sent to
`items[j]` (tuple mode), i.e. each observed array position's sub-batch goes
to the child schema at that position. -/
def transformJSpec (s : Schema) (docs : List Json)
    (X : List (List Int) × List (List Bool)) (indices : List Nat) :
    Option (List (List Int) × List (List Bool)) :=
  let ibt := buildIBT s.type docs
  let ibp := match lookupT ibt JsonType.OBJECT with
    | none => []
    | some rowsO => buildIBP s.properties docs rowsO
  let ibi := match lookupT ibt JsonType.ARRAY with
    | none => []
    | some rowsA => buildIBI s.tuple_items s.items.length docs rowsA
  match transformPropsSpec s.properties (sortedPairsN ibp) docs indices
      (transformSelf s docs X indices ibt ibp) with
  | none => none
  | some X2 => transformItemsSpec s.items s.tuple_items 0 ibi docs indices X2
termination_by (sizeOf s, 0)
decreasing_by
  · left
    exact sizeOf_properties_lt s
  · left
    exact sizeOf_items_lt s

def transformPropsSpec (props : List (String × Schema)) :
    List (String × List Nat) → List Json → List Nat →
      List (List Int) × List (List Bool) →
      Option (List (List Int) × List (List Bool))
  | [], _, _, X => some X
  | (name, idxs) :: rest, docs, indices, X =>
    match h : lookupT props name with
    | none => none
    | some child =>
      match transformJSpec child
          (idxs.map (fun i => match docs.getD i Json.null with
            | Json.obj kvs => (lookupT kvs name).getD Json.null
            | _ => Json.null))
          X (idxs.map (fun i => indices.getD i 0)) with
      | none => none
      | some X2 => transformPropsSpec props rest docs indices X2
termination_by l _ _ _ => (sizeOf props, sizeOf l)
decreasing_by all_goals
  first
    | (left
       have h1 := List.sizeOf_lt_of_mem (lookupT_mem h)
       simp only [Prod.mk.sizeOf_spec] at h1
       omega)
    | (have h1 := List.sizeOf_lt_of_mem (lookupT_mem h)
       simp only [Prod.mk.sizeOf_spec] at h1
       omega)
    | (right
       simp)

/-- Bucket `j` goes to item child `j` in tuple mode, to item `0` in shared
mode. -/
def transformItemsSpec (items : List Schema) (tup : Bool) (j : Nat) :
    List (List Nat) → List Json → List Nat →
      List (List Int) × List (List Bool) →
      Option (List (List Int) × List (List Bool))
  | [], _, _, X => some X
  | idxs :: restBuckets, docs, indices, X =>
    match h : items.get? (if tup then j else 0) with
    | none => none
    | some child =>
      match transformJSpec child
          (idxs.map (fun i => match docs.getD i Json.null with
            | Json.arr elems => elems.getD j Json.null
            | _ => Json.null))
          X (idxs.map (fun i => indices.getD i 0)) with
      | none => none
      | some X2 => transformItemsSpec items tup (j + 1) restBuckets docs indices X2
termination_by l _ _ _ => (sizeOf items, sizeOf l)
decreasing_by all_goals
  first
    | (left
       exact List.sizeOf_lt_of_mem (List.get?_mem h))
    | exact List.sizeOf_lt_of_mem (List.get?_mem h)
    | (right
       simp)
end

/-- `transform(docs)` under claim C1's per-position routing. -/
def transformPubSpec (s : Schema) (docs : List Json) :
    Option (List (List Int) × List (List Bool)) :=
  transformJSpec s docs
    (List.replicate docs.length [], List.replicate docs.length [])
    (List.range docs.length)

/-! ### Claims C1 and C6: concrete fitted schemas and transform runs -/

/-- A vectorizer oracle that never produces an extractor (`fit` with an empty
`vectorizers` list). -/
def orcNone : JsonType → String → List Json → Rat → Option Extractor :=
  fun _ _ _ _ => none

/-- `re.search` with no pattern ever matching (empty pattern lists are used
throughout the examples, so this function is never consulted). -/
def reFalse : String → String → Bool := fun _ _ => false

/-- Three singleton-array documents. -/
def c6docs : List Json :=
  [Json.arr [Json.int 1], Json.arr [Json.int 2], Json.arr [Json.int 3]]

/-- The single item child of the schema fitted (in tuple mode) to `c6docs`. -/
def c6item : Schema :=
  Schema.mk [Seg.str "root", Seg.idx 0] true [JsonType.NUMBER] none [] []
    [(JsonType.NUMBER, 3)] [] [] 0 [] 0

/-- The root schema fitted (in tuple mode) to `c6docs`. -/
def c6tree : Schema :=
  Schema.mk [Seg.str "root"] true [JsonType.ARRAY] none [] [c6item]
    [(JsonType.ARRAY, 3)] [] [] 0 [] 0

theorem c6_extend_eval :
    extendAll (emptySchema [Seg.str "root"] true) c6docs =
      Schema.mk [Seg.str "root"] true [JsonType.ARRAY] none []
        [Schema.mk [Seg.str "root", Seg.idx 0] true [JsonType.NUMBER] none [] []
          [(JsonType.NUMBER, 3)]
          [(JsonType.NUMBER, [Json.int 1, Json.int 2, Json.int 3])] [] 0 [] 0]
        [(JsonType.ARRAY, 3)] [] [] 0 [] 0 := by
  simp +decide [extendAll, c6docs, extendJ, extendObj, extendArrTuple, extendArrShared,
    Schema.extendSelf, typeof, addType, emptySchema, setT, lookupT, Schema.growItems,
    Schema.addItemEmpty, Schema.setItem, Schema.setProp, Schema.addPropertyEmpty]

theorem c6_item_fit (nt : Rat) :
    fitJ orcNone reFalse [] nt
      (Schema.mk [Seg.str "root", Seg.idx 0] true [JsonType.NUMBER] none [] []
        [(JsonType.NUMBER, 3)]
        [(JsonType.NUMBER, [Json.int 1, Json.int 2, Json.int 3])] [] 0 [] 0) 0 =
      (c6item, 0) := by
  rw [fitJ]
  simp +decide [fitSelf, fitSelfLoop, fitProps, fitItems, featureNamesF, fnPropsF,
    fnItemsF, sortedPairs, sortTypes, JsonType.all, joinPathStr, hasmatch, lookupT,
    eraseT, setT, sortedKeys, orcNone, reFalse, c6item, List.insertionSort,
    List.orderedInsert, type2str]

theorem c6_root_fit (nt : Rat) :
    fitJ orcNone reFalse [] nt
      (Schema.mk [Seg.str "root"] true [JsonType.ARRAY] none []
        [Schema.mk [Seg.str "root", Seg.idx 0] true [JsonType.NUMBER] none [] []
          [(JsonType.NUMBER, 3)]
          [(JsonType.NUMBER, [Json.int 1, Json.int 2, Json.int 3])] [] 0 [] 0]
        [(JsonType.ARRAY, 3)] [] [] 0 [] 0) 0 =
      (c6tree, 0) := by
  rw [fitJ]
  simp +decide [fitSelf, fitSelfLoop, fitProps, fitItems, featureNamesF, fnPropsF,
    fnItemsF, sortedPairs, sortTypes, JsonType.all, joinPathStr, hasmatch, lookupT,
    eraseT, setT, sortedKeys, orcNone, reFalse, c6tree, c6item, List.insertionSort,
    List.orderedInsert, type2str, c6_item_fit nt]

/-- Claim C6: on the tuple-mode schema fitted to three singleton-array
documents, `transform` applied to those same (well-typed) documents raises
`IndexError` instead of returning a matrix: the item recursion calls
`get_item(i)` with the leaked comprehension variable `i = 2` (the last row
index of position bucket 0), which is out of range for the single-item list.
The first conjunct certifies that the schema is exactly the result of
`fit(c6docs)`; the second that every document's classified type is in the
root's type set. -/
theorem transform_raises_on_welltyped_docs :
    fitRoot orcNone reFalse [] c6docs true = (c6tree, 0) ∧
    (∀ d ∈ c6docs, typeof d ∈ c6tree.type) ∧
    transformPub c6tree c6docs = none := by
  refine ⟨?_, by decide, ?_⟩
  · rw [fitRoot, c6_extend_eval]
    exact c6_root_fit _
  · rw [transformPub]
    simp +decide [transformJ, transformProps, transformItems, transformSelf,
      transformSelfLoop, buildIBT, buildIBP, buildIBI, sortedPairsN, typeof,
      lookupT, setT, sortedKeys, sortTypes, JsonType.all, c6docs, c6tree, c6item,
      lil_set_col, lil_set, lil_insert, lilInsertRow, bisect_left, bisectLoop,
      List.insertionSort, List.orderedInsert, List.range, List.range.loop,
      List.replicate, List.enum, List.enumFrom, List.getD, List.getElem?_cons_zero,
      List.getElem?_cons_succ, List.getElem?_nil]

/-- Two tuple-mode documents: the first has an integer then a string, the
second a single string. -/
def c1docs : List Json :=
  [Json.arr [Json.int 1, Json.str "a"], Json.arr [Json.str "b"]]

/-- Item child 0 of the schema fitted (in tuple mode) to `c1docs`: both
`number` and `string` were observed at position 0, so it owns the two
presence features at columns 0 and 1. -/
def c1item0 : Schema :=
  Schema.mk [Seg.str "root", Seg.idx 0] true [JsonType.NUMBER, JsonType.STRING] none [] []
    [(JsonType.NUMBER, 1), (JsonType.STRING, 1)] [] [] 0
    ["root:0 is number", "root:0 is string"] 2

/-- Item child 1: only `string` observed at position 1, no local features,
stored position 2. -/
def c1item1 : Schema :=
  Schema.mk [Seg.str "root", Seg.idx 1] true [JsonType.STRING] none [] []
    [(JsonType.STRING, 1)] [] [] 2 [] 0

/-- The root schema fitted (in tuple mode) to `c1docs`. -/
def c1tree : Schema :=
  Schema.mk [Seg.str "root"] true [JsonType.ARRAY] none [] [c1item0, c1item1]
    [(JsonType.ARRAY, 2)] [] [] 0 [] 2

theorem c1_extend_eval :
    extendAll (emptySchema [Seg.str "root"] true) c1docs =
      Schema.mk [Seg.str "root"] true [JsonType.ARRAY] none []
        [Schema.mk [Seg.str "root", Seg.idx 0] true [JsonType.NUMBER, JsonType.STRING]
          none [] [] [(JsonType.NUMBER, 1), (JsonType.STRING, 1)]
          [(JsonType.NUMBER, [Json.int 1]), (JsonType.STRING, [Json.str "b"])] [] 0 [] 0,
         Schema.mk [Seg.str "root", Seg.idx 1] true [JsonType.STRING] none [] []
          [(JsonType.STRING, 1)] [(JsonType.STRING, [Json.str "a"])] [] 0 [] 0]
        [(JsonType.ARRAY, 2)] [] [] 0 [] 0 := by
  simp +decide [extendAll, c1docs, extendJ, extendObj, extendArrTuple, extendArrShared,
    Schema.extendSelf, typeof, addType, emptySchema, setT, lookupT, Schema.growItems,
    Schema.addItemEmpty, Schema.setItem, Schema.setProp, Schema.addPropertyEmpty,
    isTimestampStr]

theorem c1_item0_fit (nt : Rat) :
    fitJ orcNone reFalse [] nt
      (Schema.mk [Seg.str "root", Seg.idx 0] true [JsonType.NUMBER, JsonType.STRING]
        none [] [] [(JsonType.NUMBER, 1), (JsonType.STRING, 1)]
        [(JsonType.NUMBER, [Json.int 1]), (JsonType.STRING, [Json.str "b"])] [] 0 [] 0) 0 =
      (c1item0, 2) := by
  rw [fitJ]
  simp +decide [fitSelf, fitSelfLoop, fitProps, fitItems, featureNamesF, fnPropsF,
    fnItemsF, sortedPairs, sortTypes, JsonType.all, joinPathStr, hasmatch, lookupT,
    eraseT, setT, sortedKeys, orcNone, reFalse, c1item0, List.insertionSort,
    List.orderedInsert, type2str]

theorem c1_item1_fit (nt : Rat) :
    fitJ orcNone reFalse [] nt
      (Schema.mk [Seg.str "root", Seg.idx 1] true [JsonType.STRING] none [] []
        [(JsonType.STRING, 1)] [(JsonType.STRING, [Json.str "a"])] [] 0 [] 0) 2 =
      (c1item1, 2) := by
  rw [fitJ]
  simp +decide [fitSelf, fitSelfLoop, fitProps, fitItems, featureNamesF, fnPropsF,
    fnItemsF, sortedPairs, sortTypes, JsonType.all, joinPathStr, hasmatch, lookupT,
    eraseT, setT, sortedKeys, orcNone, reFalse, c1item1, List.insertionSort,
    List.orderedInsert, type2str]

theorem c1_root_fit (nt : Rat) :
    fitJ orcNone reFalse [] nt
      (Schema.mk [Seg.str "root"] true [JsonType.ARRAY] none []
        [Schema.mk [Seg.str "root", Seg.idx 0] true [JsonType.NUMBER, JsonType.STRING]
          none [] [] [(JsonType.NUMBER, 1), (JsonType.STRING, 1)]
          [(JsonType.NUMBER, [Json.int 1]), (JsonType.STRING, [Json.str "b"])] [] 0 [] 0,
         Schema.mk [Seg.str "root", Seg.idx 1] true [JsonType.STRING] none [] []
          [(JsonType.STRING, 1)] [(JsonType.STRING, [Json.str "a"])] [] 0 [] 0]
        [(JsonType.ARRAY, 2)] [] [] 0 [] 0) 0 =
      (c1tree, 2) := by
  rw [fitJ]
  simp +decide [fitSelf, fitSelfLoop, fitProps, fitItems, featureNamesF, fnPropsF,
    fnItemsF, sortedPairs, sortTypes, JsonType.all, joinPathStr, hasmatch, lookupT,
    eraseT, setT, sortedKeys, orcNone, reFalse, c1tree, c1item0, c1item1,
    List.insertionSort, List.orderedInsert, type2str, c1_item0_fit nt, c1_item1_fit nt]

theorem c1_code_child1 :
    transformJ c1item1 [Json.int 1, Json.str "b"] ([[], []], [[], []]) [0, 1] =
      some ([[], []], [[], []]) := by
  rw [transformJ]
  simp +decide [c1item1, transformProps, transformItems, transformSelf,
    transformSelfLoop, buildIBT, buildIBP, buildIBI, sortedPairsN, typeof,
    lookupT, setT, sortedKeys, sortTypes, JsonType.all, isTimestampStr,
    List.insertionSort, List.orderedInsert, List.enum, List.enumFrom]

theorem lil_eval_c1a :
    lil_set_col [[], []] [[], []] [0] 1 = ([[1], []], [[true], []]) := by
  rw [lil_set_col, List.foldl_cons, List.foldl_nil]
  simp +decide [lil_insert, lilInsertRow, bisect_left, bisectLoop,
    List.getD, List.getElem?_cons_zero, List.getElem?_cons_succ, List.getElem?_nil]

theorem lil_eval_c1b :
    lil_set_col [[], []] [[], []] [0] 0 = ([[0], []], [[true], []]) := by
  rw [lil_set_col, List.foldl_cons, List.foldl_nil]
  simp +decide [lil_insert, lilInsertRow, bisect_left, bisectLoop,
    List.getD, List.getElem?_cons_zero, List.getElem?_cons_succ, List.getElem?_nil]

theorem lil_eval_c1c :
    lil_set_col [[0], []] [[true], []] [1] 1 = ([[0], [1]], [[true], [true]]) := by
  rw [lil_set_col, List.foldl_cons, List.foldl_nil]
  simp +decide [lil_insert, lilInsertRow, bisect_left, bisectLoop,
    List.getD, List.getElem?_cons_zero, List.getElem?_cons_succ, List.getElem?_nil]

set_option maxRecDepth 4096 in
theorem c1_code_child0 :
    transformJ c1item0 [Json.str "a"] ([[], []], [[], []]) [0] =
      some ([[1], []], [[true], []]) := by
  rw [transformJ]
  simp +decide [c1item0, transformProps, transformItems, transformSelf,
    transformSelfLoop, buildIBT, buildIBP, buildIBI, sortedPairsN, typeof,
    lookupT, setT, sortedKeys, sortTypes, JsonType.all, isTimestampStr,
    lil_eval_c1a, List.insertionSort, List.orderedInsert, List.enum, List.enumFrom,
    List.getD, List.getElem?_cons_zero, List.getElem?_cons_succ, List.getElem?_nil]

set_option maxRecDepth 4096 in
theorem c1_spec_child0 :
    transformJSpec c1item0 [Json.int 1, Json.str "b"] ([[], []], [[], []]) [0, 1] =
      some ([[0], [1]], [[true], [true]]) := by
  rw [transformJSpec]
  simp +decide [c1item0, transformPropsSpec, transformItemsSpec, transformSelf,
    transformSelfLoop, buildIBT, buildIBP, buildIBI, sortedPairsN, typeof,
    lookupT, setT, sortedKeys, sortTypes, JsonType.all, isTimestampStr,
    lil_eval_c1b, lil_eval_c1c, List.insertionSort, List.orderedInsert,
    List.enum, List.enumFrom, List.getD, List.getElem?_cons_zero,
    List.getElem?_cons_succ, List.getElem?_nil]

theorem c1_spec_child1 :
    transformJSpec c1item1 [Json.str "a"] ([[0], [1]], [[true], [true]]) [0] =
      some ([[0], [1]], [[true], [true]]) := by
  rw [transformJSpec]
  simp +decide [c1item1, transformPropsSpec, transformItemsSpec, transformSelf,
    transformSelfLoop, buildIBT, buildIBP, buildIBI, sortedPairsN, typeof,
    lookupT, setT, sortedKeys, sortTypes, JsonType.all, isTimestampStr,
    List.insertionSort, List.orderedInsert, List.enum, List.enumFrom]

theorem c1_code_eval :
    transformPub c1tree c1docs = some ([[1], []], [[true], []]) := by
  rw [transformPub, transformJ]
  simp +decide [c1tree, c1docs, transformProps, transformItems, transformSelf,
    transformSelfLoop, buildIBT, buildIBP, buildIBI, sortedPairsN, typeof,
    lookupT, setT, sortedKeys, sortTypes, JsonType.all, isTimestampStr,
    List.insertionSort, List.orderedInsert, List.range, List.range.loop,
    List.replicate, List.enum, List.enumFrom, List.getD, List.getElem?_cons_zero,
    List.getElem?_cons_succ, List.getElem?_nil, List.getLastD, List.getLast?,
    List.get?, c1_code_child1, c1_code_child0]

theorem c1_spec_eval :
    transformPubSpec c1tree c1docs = some ([[0], [1]], [[true], [true]]) := by
  rw [transformPubSpec, transformJSpec]
  simp +decide [c1tree, c1docs, transformPropsSpec, transformItemsSpec, transformSelf,
    transformSelfLoop, buildIBT, buildIBP, buildIBI, sortedPairsN, typeof,
    lookupT, setT, sortedKeys, sortTypes, JsonType.all, isTimestampStr,
    List.insertionSort, List.orderedInsert, List.range, List.range.loop,
    List.replicate, List.enum, List.enumFrom, List.getD, List.getElem?_cons_zero,
    List.getElem?_cons_succ, List.getElem?_nil, List.getLastD, List.getLast?,
    List.get?, c1_spec_child0, c1_spec_child1]

/-- Claim C1: on the tuple-mode schema fitted to `c1docs`, the code does NOT
send each position bucket to `items[j]`.  The `docs_` comprehension leaks its
(C-scoped) loop variable `i`, so bucket 0 (rows 0 and 1, elements `1` and
`"b"`) goes to `get_item(1)` and bucket 1 (row 0, element `"a"`) goes to
`get_item(0)`: the only matrix write is row 0 at `items[0]`'s string column
1.  Under the claimed per-position routing (`transformPubSpec`, identical
except that bucket `j` goes to `items[j]`), the writes are row 0 at column 0
(number at position 0) and row 1 at column 1 (string at position 0).  The
first conjunct certifies the schema is exactly `fit(c1docs)`'s output. -/
theorem transform_tuple_items_misrouted :
    fitRoot orcNone reFalse [] c1docs true = (c1tree, 2) ∧
    transformPub c1tree c1docs = some ([[1], []], [[true], []]) ∧
    transformPubSpec c1tree c1docs = some ([[0], [1]], [[true], [true]]) ∧
    transformPub c1tree c1docs ≠ transformPubSpec c1tree c1docs := by
  refine ⟨?_, c1_code_eval, c1_spec_eval, ?_⟩
  · rw [fitRoot, c1_extend_eval]
    exact c1_root_fit _
  · rw [c1_code_eval, c1_spec_eval]
    simp
